import Mathlib

/-! kilo-in-go: a shallow embedding of `kilo.go`

The editor core of `kilo.go` is translated function by function.

Conventions of the embedding.

* A Go `[]byte` is a `List Nat` holding its `len` elements (a byte is a `Nat`;
  `byte(c)` is `c % 256`).  Capacity is not represented: a reslice `a[:hi]` with
  `hi` past the length is treated as a failure.  At every place where the source
  writes `a[:k]` it also writes `a[k:]` or `a[k+1:]` in the same expression or just
  before, and that one fails in Go whenever `k` is past the length, so the
  observable outcome (a run-time panic) is the same.
* In the first part slices are values: two slices that share a backing array in
  Go are two lists.  The source creates such sharing in one place,
  `editorInsertNewLine`, whose new row is the reslice `chars[cx:]` of the row it
  truncates to `chars[:cx]`.  The theorems stated over this part are about
  lengths, indices and the row that is edited, or about operation sequences in
  which an in-place `append` only writes bytes onto themselves (the merge-up
  right after a split copies `chars[cx:]` onto `chars[cx:]`) or writes into a
  freshly made array.  What an in-place `append` does to *another* row that
  shares the array is the subject of the second part, the namespace `Mem`, in
  which a `[]byte` is a slice header (array, offset, length, capacity) over a
  heap of backing arrays.
* A Go `int` is an `Int`; loop counters that start at `0` and only grow are `Nat`.
  Indices, sizes and cursor coordinates are compared with lengths before they
  are used, which keeps them in range.  The scroll offsets are not: the sums
  `rowoff + screenRows` and `coloff + screenCols` of `editorScroll` are wrapped
  as a 64-bit `int` wraps them (`wrapInt`), and the theorem about them states
  the range it needs.
* A run-time panic (index or slice bound out of range, `make` with a negative
  length) is `none`; every function that can panic returns an `Option`.
* Functions that take `*erow` and also set the global `E.dirty` are given as
  functions on rows; the callers that own the editor state record `dirty`.
* The globals `E`, `lastMatch`, `direction`, `savedHlLine`, `savedHl` and
  `quitTimes` are threaded explicitly.
-/

namespace Kilo

/-! ## Constants (`kilo.go` 18-38) -/

def KILO_TAB_STOP : Nat := 8
def KILO_QUIT_TIMES : Int := 3

def BACKSPACE : Int := 127
def ARROW_LEFT : Int := 1001
def ARROW_RIGHT : Int := 1002
def ARROW_UP : Int := 1003
def ARROW_DOWN : Int := 1004
def DEL_KEY : Int := 1005
def HOME_KEY : Int := 1006
def END_KEY : Int := 1007
def PAGE_UP : Int := 1008
def PAGE_DOWN : Int := 1009

def HL_NORMAL : Nat := 0
def HL_NUMBER : Nat := 1
def HL_MATCH : Nat := 2

/-- The tab byte. -/
def TAB : Nat := 9
/-- The space byte. -/
def SPACE : Nat := 32
/-- The line-feed byte. -/
def NL : Nat := 10
/-- The carriage-return byte. -/
def CR : Nat := 13
/-- The escape byte. -/
def ESC : Int := 27
/-- The value of `c & 0x1f` for a lower-case letter `c` (a control key). -/
def CTRL_KEY (c : Nat) : Int := ((c % 32 : Nat) : Int)

/-! ## Go slice primitives -/

/-- Go `make([]byte, n)`: `n` zero bytes; panics when `n` is negative. -/
def makeBytes (n : Int) : Option (List Nat) :=
  if 0 ≤ n then some (List.replicate n.toNat 0) else none

/-- Go `a[i]` as a read; panics when `i` is out of range. -/
def getIdx {α : Type} (a : List α) (i : Int) : Option α :=
  if 0 ≤ i then a.get? i.toNat else none

/-- Go `a[i] = v`; panics when `i` is out of range. -/
def setIdx {α : Type} (a : List α) (i : Int) (v : α) : Option (List α) :=
  if 0 ≤ i ∧ i < a.length then some (a.set i.toNat v) else none

/-- Go `a[lo:]`; panics unless `0 <= lo <= len(a)`. -/
def sliceFrom {α : Type} (a : List α) (lo : Int) : Option (List α) :=
  if 0 ≤ lo ∧ lo ≤ a.length then some (a.drop lo.toNat) else none

/-- Go `a[:hi]` for `0 <= hi <= len(a)` (see the module comment for capacity). -/
def sliceTo {α : Type} (a : List α) (hi : Int) : Option (List α) :=
  if 0 ≤ hi ∧ hi ≤ a.length then some (a.take hi.toNat) else none

/-- Go `copy(dst, src)`: the first `min(len dst, len src)` elements of `dst`
are overwritten by those of `src`; the result is the new content of `dst`. -/
def copySlice {α : Type} (dst src : List α) : List α :=
  src.take (min dst.length src.length) ++ dst.drop (min dst.length src.length)

/-! ## Go `int` -/

/-- The smallest value of a Go `int` (64 bits). -/
def minInt : Int := -9223372036854775808

/-- The largest value of a Go `int` (64 bits). -/
def maxInt : Int := 9223372036854775807

/-- The value a Go `int` holds for the mathematical result `x` of an addition or a
subtraction: `x` wrapped into `minInt .. maxInt` (two's complement, 64 bits). -/
def wrapInt (x : Int) : Int :=
  (x + 9223372036854775808) % 18446744073709551616 - 9223372036854775808

/-! ## Data (`kilo.go` 52-75) -/

/-- The Go struct `erow`. -/
structure erow where
  size : Int
  rsize : Int
  chars : List Nat
  render : List Nat
  hl : List Nat
deriving DecidableEq, Repr

/-- The Go struct `editorConfig`, without the fields that only the terminal
and the status bar use (`filename`, `statusmsg`, `statusmsg_time`,
`origTermios`). -/
structure editorConfig where
  cx : Int
  cy : Int
  rx : Int
  rowoff : Int
  coloff : Int
  screenRows : Int
  screenCols : Int
  numRows : Int
  rows : List erow
  dirty : Bool
deriving DecidableEq, Repr

/-! ## Syntax highlighting (`kilo.go` 248-255) -/

/-- Go `unicode.IsDigit(rune(c))` for a byte `c`: in Latin-1 the decimal
digits are exactly `'0'..'9'`. -/
def isDigit (c : Nat) : Bool := 48 ≤ c && c ≤ 57

/-- The loop `for i, c := range row.render { if IsDigit(c) { row.hl[i] = HL_NUMBER } }`,
from index `i` on, over the remaining bytes of `render`. -/
def syntaxLoop : List Nat → Nat → List Nat → Option (List Nat)
  | [], _, hl => some hl
  | c :: cs, i, hl =>
    if isDigit c then
      (setIdx hl i HL_NUMBER).bind (fun hl1 => syntaxLoop cs (i + 1) hl1)
    else syntaxLoop cs (i + 1) hl

/-- Go `editorUpdateSyntax`. -/
def editorUpdateSyntax (row : erow) : Option erow :=
  (makeBytes row.rsize).bind fun hl0 =>
  (syntaxLoop row.render 0 hl0).bind fun hl1 =>
  some { row with hl := hl1 }

/-! ## Row operations (`kilo.go` 269-383) -/

/-- The loop of `editorRowCxToRx` from index `j` on; the list is `row.chars[j:]`,
so its head is `row.chars[j]` and an empty list is an index out of range. -/
def cxToRxLoop (size cx : Int) : List Nat → Nat → Nat → Option Nat
  | rest, j, rx =>
    if (j : Int) < size ∧ (j : Int) < cx then
      match rest with
      | [] => none
      | c :: cs =>
        let rx1 := if c = TAB then rx + ((KILO_TAB_STOP - 1) - (rx % KILO_TAB_STOP)) else rx
        cxToRxLoop size cx cs (j + 1) (rx1 + 1)
    else some rx

/-- Go `editorRowCxToRx`. -/
def editorRowCxToRx (row : erow) (cx : Int) : Option Int :=
  Option.map (fun (rx : Nat) => (rx : Int)) (cxToRxLoop row.size cx row.chars 0 0)

/-- The loop of `editorRowRxToCx` from index `cx` on; the list is `row.chars[cx:]`. -/
def rxToCxLoop (size rx : Int) : List Nat → Nat → Nat → Option Nat
  | rest, cx, curRx =>
    if (cx : Int) < size then
      match rest with
      | [] => none
      | c :: cs =>
        let cur1 :=
          if c = TAB then curRx + ((KILO_TAB_STOP - 1) - (curRx % KILO_TAB_STOP)) else curRx
        let cur2 := cur1 + 1
        if (cur2 : Int) > rx then some cx else rxToCxLoop size rx cs (cx + 1) cur2
    else some cx

/-- Go `editorRowRxToCx`. -/
def editorRowRxToCx (row : erow) (rx : Int) : Option Int :=
  Option.map (fun (cx : Nat) => (cx : Int)) (rxToCxLoop row.size rx row.chars 0 0)

/-- The first loop of `editorUpdateRow`: the number of tab bytes in `chars`. -/
def countTabs : List Nat → Nat
  | [] => 0
  | c :: cs => (if c = TAB then 1 else 0) + countTabs cs

/-- The inner loop `for (idx % KILO_TAB_STOP) != 0 { render[idx] = ' '; idx++ }`.
The first argument bounds the number of iterations; running out is `none`. -/
def tabFill : Nat → List Nat → Nat → Option (List Nat × Nat)
  | 0, render, idx => if idx % KILO_TAB_STOP ≠ 0 then none else some (render, idx)
  | fuel + 1, render, idx =>
    if idx % KILO_TAB_STOP ≠ 0 then
      (setIdx render idx SPACE).bind fun r1 => tabFill fuel r1 (idx + 1)
    else some (render, idx)

/-- The second loop of `editorUpdateRow`, over the remaining bytes of `chars`. -/
def renderLoop : List Nat → List Nat → Nat → Option (List Nat × Nat)
  | [], render, idx => some (render, idx)
  | c :: cs, render, idx =>
    if c = TAB then
      (setIdx render idx SPACE).bind fun r1 =>
      (tabFill KILO_TAB_STOP r1 (idx + 1)).bind fun p =>
      renderLoop cs p.1 p.2
    else
      (setIdx render idx c).bind fun r1 => renderLoop cs r1 (idx + 1)

/-- Go `editorUpdateRow`. -/
def editorUpdateRow (row : erow) : Option erow :=
  let tabs := countTabs row.chars
  (makeBytes (row.size + tabs * (KILO_TAB_STOP - 1))).bind fun r0 =>
  (renderLoop row.chars r0 0).bind fun p =>
  editorUpdateSyntax { row with render := p.1, rsize := p.2 }

/-- Go `editorInsertRow`.  The three branches build the new row list; then
`editorUpdateRow(&E.rows[at])` is applied to the element at index `at`. -/
def editorInsertRow (E : editorConfig) (pos : Int) (s : List Nat) : Option editorConfig :=
  if pos < 0 ∨ pos > E.numRows then some E
  else
    let r : erow := { size := s.length, rsize := 0, chars := s, render := [], hl := [] }
    (if pos = 0 then some (r :: E.rows)
     else if pos = E.numRows then some (E.rows ++ [r])
     else
      (sliceTo E.rows pos).bind fun a =>
      (sliceFrom E.rows pos).bind fun b => some (a ++ (r :: b))).bind fun rows1 =>
    (getIdx rows1 pos).bind fun row =>
    (editorUpdateRow row).bind fun row1 =>
    (setIdx rows1 pos row1).bind fun rows2 =>
    some { E with rows := rows2, numRows := E.numRows + 1, dirty := true }

/-- Go `editorDelRow`. -/
def editorDelRow (E : editorConfig) (pos : Int) : Option editorConfig :=
  if pos < 0 ∨ pos > E.numRows then some E
  else
    (sliceTo E.rows pos).bind fun a =>
    (sliceFrom E.rows (pos + 1)).bind fun b =>
    some { E with rows := a ++ b, numRows := E.numRows - 1, dirty := true }

/-- Go `editorRowInsertChar` on the row (the caller records `E.dirty = true`). -/
def editorRowInsertChar (row : erow) (pos : Int) (c : Nat) : Option erow :=
  (if pos < 0 ∨ pos > row.size then some (row.chars ++ [c])
   else if pos = 0 then
    (makeBytes (row.size + 1)).bind fun t =>
    (setIdx t 0 c).bind fun t1 =>
    (sliceFrom t1 1).bind fun tl =>
    some (t1.take 1 ++ copySlice tl row.chars)
   else
    (sliceTo row.chars pos).bind fun a =>
    (sliceFrom row.chars pos).bind fun b =>
    some (a ++ (([] ++ [c]) ++ b))).bind fun chars1 =>
  editorUpdateRow { row with chars := chars1, size := chars1.length }

/-- Go `editorRowAppendString` on the row (the caller records `E.dirty = true`). -/
def editorRowAppendString (row : erow) (s : List Nat) : Option erow :=
  let chars1 := row.chars ++ s
  editorUpdateRow { row with chars := chars1, size := chars1.length }

/-- Go `editorRowDelChar` on the row (the caller records `E.dirty = true`
when the guard does not return early). -/
def editorRowDelChar (row : erow) (pos : Int) : Option erow :=
  if pos < 0 ∨ pos > row.size then some row
  else
    (sliceTo row.chars pos).bind fun a =>
    (sliceFrom row.chars (pos + 1)).bind fun b =>
    editorUpdateRow { row with chars := a ++ b, size := row.size - 1 }

/-- Whether the guard of `editorRowDelChar` lets the call through, in which
case the source sets `E.dirty = true`. -/
def editorRowDelCharDirties (row : erow) (pos : Int) : Bool :=
  !(decide (pos < 0) || decide (pos > row.size))

/-! ## Editor operations (`kilo.go` 387-421) -/

/-- Go `editorInsertChar`. -/
def editorInsertChar (E : editorConfig) (c : Nat) : Option editorConfig :=
  (if E.cy = E.numRows then editorInsertRow E E.numRows [] else some E).bind fun E1 =>
  (getIdx E1.rows E1.cy).bind fun row =>
  (editorRowInsertChar row E1.cx c).bind fun row1 =>
  (setIdx E1.rows E1.cy row1).bind fun rows1 =>
  some { E1 with rows := rows1, dirty := true, cx := E1.cx + 1 }

/-- Go `editorInsertNewLine`. -/
def editorInsertNewLine (E : editorConfig) : Option editorConfig :=
  (if E.cx = 0 then editorInsertRow E E.cy []
   else
    (getIdx E.rows E.cy).bind fun row =>
    (sliceFrom row.chars E.cx).bind fun tail =>
    (editorInsertRow E (E.cy + 1) tail).bind fun E1 =>
    (getIdx E1.rows E1.cy).bind fun row1 =>
    (sliceTo row1.chars E1.cx).bind fun head =>
    (editorUpdateRow { row1 with chars := head, size := head.length }).bind fun row2 =>
    (setIdx E1.rows E1.cy row2).bind fun rows2 =>
    some { E1 with rows := rows2 }).bind fun E3 =>
  some { E3 with cy := E3.cy + 1, cx := 0 }

/-- Go `editorDelChar`. -/
def editorDelChar (E : editorConfig) : Option editorConfig :=
  if E.cy = E.numRows then some E
  else if E.cx = 0 ∧ E.cy = 0 then some E
  else if E.cx > 0 then
    (getIdx E.rows E.cy).bind fun row =>
    (editorRowDelChar row (E.cx - 1)).bind fun row1 =>
    (setIdx E.rows E.cy row1).bind fun rows1 =>
    some { E with rows := rows1, cx := E.cx - 1,
                  dirty := E.dirty || editorRowDelCharDirties row (E.cx - 1) }
  else
    (getIdx E.rows (E.cy - 1)).bind fun prev =>
    (getIdx E.rows E.cy).bind fun cur =>
    (editorRowAppendString prev cur.chars).bind fun prev1 =>
    (setIdx E.rows (E.cy - 1) prev1).bind fun rows1 =>
    (editorDelRow { E with cx := prev.size, rows := rows1, dirty := true } E.cy).bind fun E2 =>
    some { E2 with cy := E2.cy - 1 }

/-! ## File I/O (`kilo.go` 425-459) -/

/-- Go `editorRowsToString`: the loop over `E.rows`, from the accumulated
`buf` and `totlen`. -/
def rowsToStringLoop : List erow → List Nat → Int → List Nat × Int
  | [], buf, totlen => (buf, totlen)
  | row :: rest, buf, totlen =>
    rowsToStringLoop rest (buf ++ (row.chars ++ [NL])) (totlen + (row.size + 1))

/-- Go `editorRowsToString`. -/
def editorRowsToString (E : editorConfig) : List Nat × Int :=
  rowsToStringLoop E.rows [] 0

/-- Go `bufio.Reader.ReadBytes(delim)` on the unread input: the bytes up to
and including the first `delim`, the input left, and whether the call
returned `io.EOF` (no `delim` before the end; the bytes read so far are
returned with the error). -/
def readBytes (delim : Nat) : List Nat → List Nat × List Nat × Bool
  | [] => ([], [], true)
  | c :: cs =>
    if c = delim then ([c], cs, false)
    else
      let r := readBytes delim cs
      (c :: r.1, r.2.1, r.2.2)

/-- The trimming loop of `editorOpen`
(`for c := line[len(line)-1]; len(line) > 0 && (c == NL || c == CR); { ... }`)
after its init statement, with the current `line` and `c`.  The first
argument bounds the number of iterations; running out is `none`. -/
def trimLoop : Nat → List Nat → Nat → Option (List Nat)
  | 0, line, c => if line.length > 0 ∧ (c = NL ∨ c = CR) then none else some line
  | fuel + 1, line, c =>
    if line.length > 0 ∧ (c = NL ∨ c = CR) then
      (sliceTo line ((line.length : Int) - 1)).bind fun line1 =>
      (if line1.length > 0 then getIdx line1 ((line1.length : Int) - 1) else some c).bind fun c1 =>
      trimLoop fuel line1 c1
    else some line

/-- The trimming statement of `editorOpen`, with its init statement
`c := line[len(line)-1]`. -/
def trimLine (line : List Nat) : Option (List Nat) :=
  (getIdx line ((line.length : Int) - 1)).bind fun c => trimLoop line.length line c

/-- The line loop of `editorOpen` over the unread file content.  The first
argument bounds the number of iterations; running out is `none`. -/
def editorOpenLoop : Nat → editorConfig → List Nat → Option editorConfig
  | 0, _, _ => none
  | fuel + 1, E, input =>
    let r := readBytes NL input
    if r.2.2 then some E
    else
      (trimLine r.1).bind fun line =>
      (editorInsertRow E E.numRows line).bind fun E1 =>
      editorOpenLoop fuel E1 r.2.1

/-- Go `editorOpen` on the content of the opened file (the open itself and
its error path belong to the operating system). -/
def editorOpen (E : editorConfig) (content : List Nat) : Option editorConfig :=
  (editorOpenLoop (content.length + 1) E content).map fun E1 => { E1 with dirty := false }

/-! ## Find (`kilo.go` 491-544) -/

/-- The editor state together with the package-level variables of the find
and quit logic (`lastMatch`, `direction`, `savedHlLine`, `savedHl`,
`quitTimes`).  A nil `savedHl` is the empty list. -/
structure State where
  E : editorConfig
  lastMatch : Int
  direction : Int
  savedHlLine : Int
  savedHl : List Nat
  quitTimes : Int
deriving DecidableEq, Repr

/-- Go `bytes.Index(s, sep)` from offset `i` of the original slice, `s` being
what is left of it: the offset of the first occurrence of `sep`, or `-1`. -/
def bytesIndexFrom (sep : List Nat) : List Nat → Nat → Int
  | [], i => if sep = [] then (i : Int) else -1
  | c :: cs, i => if sep.isPrefixOf (c :: cs) then (i : Int) else bytesIndexFrom sep cs (i + 1)

/-- Go `bytes.Index(s, sep)`. -/
def bytesIndex (s sep : List Nat) : Int := bytesIndexFrom sep s 0

/-- The loop `for i := x; i < max; i++ { row.hl[i] = HL_MATCH }`; the first
argument is the number of iterations left, `max - i` (at the start
`max - x = len(qry)`). -/
def markLoop : Nat → Int → List Nat → Option (List Nat)
  | 0, _, hl => some hl
  | n + 1, i, hl => (setIdx hl i HL_MATCH).bind fun hl1 => markLoop n (i + 1) hl1

/-- The loop `for _ = range E.rows { ... }` of `editorFindCallback`; the first
argument is the number of iterations left. -/
def findLoop (qry : List Nat) : Nat → State → Int → Option State
  | 0, S, _ => some S
  | n + 1, S, current =>
    let cur1 := current + S.direction
    let cur2 := if cur1 = -1 then S.E.numRows - 1 else if cur1 = S.E.numRows then 0 else cur1
    (getIdx S.E.rows cur2).bind fun row =>
    let x := bytesIndex row.render qry
    if x > -1 then
      (editorRowRxToCx row x).bind fun cx1 =>
      (makeBytes row.rsize).bind fun fresh =>
      (markLoop qry.length x row.hl).bind fun hl1 =>
      (setIdx S.E.rows cur2 { row with hl := hl1 }).bind fun rows1 =>
      some { S with
        lastMatch := cur2
        E := { S.E with cy := cur2, cx := cx1, rowoff := S.E.numRows, rows := rows1 }
        savedHlLine := cur2
        savedHl := copySlice fresh row.hl }
    else findLoop qry n S cur2

/-- The first statement of `editorFindCallback` (`kilo.go` 498-502):
`if savedHlLine > 0 { copy(E.rows[savedHlLine].hl, savedHl); savedHlLine = 0; savedHl = nil }`. -/
def restoreOverlay (S : State) : Option State :=
  if S.savedHlLine > 0 then
    (getIdx S.E.rows S.savedHlLine).bind fun row =>
    (setIdx S.E.rows S.savedHlLine { row with hl := copySlice row.hl S.savedHl }).bind fun rows1 =>
    some { S with E := { S.E with rows := rows1 }, savedHlLine := 0, savedHl := [] }
  else some S

/-- Go `editorFindCallback`. -/
def editorFindCallback (S : State) (qry : List Nat) (key : Int) : Option State :=
  (restoreOverlay S).bind fun S1 =>
  if key = 13 ∨ key = ESC then some { S1 with lastMatch := -1, direction := 1 }
  else
    let S2 : State :=
      if key = ARROW_RIGHT ∨ key = ARROW_DOWN then { S1 with direction := 1 }
      else if key = ARROW_LEFT ∨ key = ARROW_UP then { S1 with direction := -1 }
      else { S1 with lastMatch := -1, direction := 1 }
    let S3 : State := if S2.lastMatch = -1 then { S2 with direction := 1 } else S2
    findLoop qry S3.E.rows.length S3 S3.lastMatch

/-! ## Input (`kilo.go` 601-692) -/

/-- Go `editorMoveCursor`. -/
def editorMoveCursor (E : editorConfig) (key : Int) : Option editorConfig :=
  (if key = ARROW_LEFT then
    if E.cx ≠ 0 then some { E with cx := E.cx - 1 }
    else if E.cy > 0 then
      (getIdx E.rows (E.cy - 1)).bind fun row => some { E with cy := E.cy - 1, cx := row.size }
    else some E
   else if key = ARROW_RIGHT then
    if E.cy < E.numRows then
      (getIdx E.rows E.cy).bind fun row =>
      if E.cx < row.size then some { E with cx := E.cx + 1 }
      else if E.cx = row.size then some { E with cy := E.cy + 1, cx := 0 }
      else some E
    else some E
   else if key = ARROW_UP then
    if E.cy ≠ 0 then some { E with cy := E.cy - 1 } else some E
   else if key = ARROW_DOWN then
    if E.cy < E.numRows then some { E with cy := E.cy + 1 } else some E
   else some E).bind fun E1 =>
  (if E1.cy < E1.numRows then (getIdx E1.rows E1.cy).bind fun row => some row.size
   else some 0).bind fun rowlen =>
  some (if E1.cx > rowlen then { E1 with cx := rowlen } else E1)

/-- The loop `for times := E.screenRows; times > 0; times-- { editorMoveCursor(dir) }`;
the first argument is the number of iterations left. -/
def moveCursorTimes : Nat → editorConfig → Int → Option editorConfig
  | 0, E, _ => some E
  | n + 1, E, dir => (editorMoveCursor E dir).bind fun E1 => moveCursorTimes n E1 dir

/-- What one call of `editorProcessKeypress` leaves: the program runs on in
a new state, or it has called `os.Exit(0)`. -/
inductive Step where
  | running (S : State)
  | exited
deriving DecidableEq, Repr

/-- Go `editorProcessKeypress`, given the key `c` that `editorReadKey`
returned.  `editorSave` and `editorFind` talk to the file system and to the
prompt; what they do to the state is the parameters `save` and `find`.
Every branch but the warning branch of Ctrl-Q falls through to
`quitTimes = KILO_QUIT_TIMES`. -/
def editorProcessKeypress (save find : State → Option State) (S : State) (c : Int) :
    Option Step :=
  let done (r : Option State) : Option Step :=
    r.bind fun S1 => some (Step.running { S1 with quitTimes := KILO_QUIT_TIMES })
  let onE (r : Option editorConfig) : Option Step :=
    done (r.bind fun E1 => some { S with E := E1 })
  if c = 13 then onE (editorInsertNewLine S.E)
  else if c = CTRL_KEY 113 then
    if S.E.dirty = true ∧ S.quitTimes > 0 then
      some (Step.running { S with quitTimes := S.quitTimes - 1 })
    else some Step.exited
  else if c = CTRL_KEY 115 then done (save S)
  else if c = HOME_KEY then onE (some { S.E with cx := 0 })
  else if c = END_KEY then
    if S.E.cy < S.E.numRows then
      onE ((getIdx S.E.rows S.E.cy).bind fun row => some { S.E with cx := row.size })
    else onE (some S.E)
  else if c = CTRL_KEY 102 then done (find S)
  else if c = CTRL_KEY 104 ∨ c = BACKSPACE ∨ c = DEL_KEY then
    onE ((if c = DEL_KEY then editorMoveCursor S.E ARROW_RIGHT else some S.E).bind fun E1 =>
      editorDelChar E1)
  else if c = PAGE_UP ∨ c = PAGE_DOWN then
    let E1 : editorConfig :=
      if c = PAGE_UP then { S.E with cy := S.E.rowoff }
      else
        let cy1 := S.E.rowoff + S.E.screenRows - 1
        { S.E with cy := if cy1 > S.E.numRows then S.E.numRows else cy1 }
    let dir := if c = PAGE_UP then ARROW_UP else ARROW_DOWN
    onE (moveCursorTimes S.E.screenRows.toNat E1 dir)
  else if c = ARROW_UP ∨ c = ARROW_DOWN ∨ c = ARROW_LEFT ∨ c = ARROW_RIGHT then
    onE (editorMoveCursor S.E c)
  else if c = CTRL_KEY 108 then onE (some S.E)
  else if c = ESC then onE (some S.E)
  else onE (editorInsertChar S.E (c % 256).toNat)

/-- The effect of one pass of the loop of `editorPrompt` (`kilo.go` 572-594) on
its buffer `buf`, for the key `c` that `editorReadKey` returned: Delete, Ctrl-H
and Backspace drop the last byte, Escape and Enter leave the buffer as it is,
and any other key is appended when `c >= 0x20 && c < 128`. -/
def editorPromptBuf (buf : List Nat) (c : Int) : List Nat :=
  if c = DEL_KEY ∨ c = CTRL_KEY 104 ∨ c = BACKSPACE then
    if buf.length > 0 then buf.take (buf.length - 1) else buf
  else if c = ESC then buf
  else if c = 13 then buf
  else if c ≥ 32 ∧ c < 128 then buf ++ [(c % 256).toNat]
  else buf

/-! ## Terminal (`kilo.go` 132-199) -/

/-- Go `editorReadKey`, as a function of the bytes it reads: `first` is the byte
the spinning first `Read` returns, `rest` the bytes that stand behind it on
stdin.  `os.Stdin.Read(seq[:])` returns two bytes when two are there (`cc != 2`
otherwise), and the third `Read` one byte when one is there. -/
def editorReadKey (first : Nat) (rest : List Nat) : Int :=
  if first = 27 then
    match rest with
    | s0 :: s1 :: rest2 =>
      if s0 = 91 then
        if s1 ≥ 48 ∧ s1 ≤ 57 then
          match rest2 with
          | [] => ESC
          | b :: _ =>
            if b = 126 then
              if s1 = 49 then HOME_KEY
              else if s1 = 51 then DEL_KEY
              else if s1 = 52 then END_KEY
              else if s1 = 53 then PAGE_UP
              else if s1 = 54 then PAGE_DOWN
              else if s1 = 55 then HOME_KEY
              else if s1 = 56 then END_KEY
              else ESC
            else ESC
        else
          if s1 = 65 then ARROW_UP
          else if s1 = 66 then ARROW_DOWN
          else if s1 = 67 then ARROW_RIGHT
          else if s1 = 68 then ARROW_LEFT
          else if s1 = 72 then HOME_KEY
          else if s1 = 70 then END_KEY
          else ESC
      else if s0 = 48 then
        if s1 = 72 then HOME_KEY
        else if s1 = 70 then END_KEY
        else ESC
      else ESC
    | _ => ESC
  else (first : Int)

/-! ## Output (`kilo.go` 696-730) -/

/-- Go `editorScroll`.  The sums and differences of the scroll offsets are wrapped
as a Go `int` wraps them. -/
def editorScroll (E : editorConfig) : Option editorConfig :=
  (if E.cy < E.numRows then
    (getIdx E.rows E.cy).bind fun row => editorRowCxToRx row E.cx
   else some 0).bind fun rx1 =>
  let E1 : editorConfig := { E with rx := rx1 }
  let E2 : editorConfig := if E1.cy < E1.rowoff then { E1 with rowoff := E1.cy } else E1
  let E3 : editorConfig :=
    if E2.cy ≥ wrapInt (E2.rowoff + E2.screenRows) then
      { E2 with rowoff := wrapInt (wrapInt (E2.cy - E2.screenRows) + 1) }
    else E2
  let E4 : editorConfig := if E3.rx < E3.coloff then { E3 with coloff := E3.rx } else E3
  let E5 : editorConfig :=
    if E4.rx ≥ wrapInt (E4.coloff + E4.screenCols) then
      { E4 with coloff := wrapInt (wrapInt (E4.rx - E4.screenCols) + 1) }
    else E4
  some E5

/-- Go `fmt.Sprintf("%d", n)` as bytes: the decimal digits, after a `-` for a
negative number. -/
def fmtInt (n : Int) : List Nat :=
  if n < 0 then 45 :: (Nat.toDigits 10 (-n).toNat).map Char.toNat
  else (Nat.toDigits 10 n.toNat).map Char.toNat

/-- Go `editorRefreshScreen`: the state `editorScroll` leaves and the bytes of the
buffer `ab` that is written to stdout.  What `editorDrawRows`,
`editorDrawStatusBar` and `editorDrawMessageBar` append between the header and
the cursor position depends on the file name, the status message and the
clock; it is the parameter `draw`. -/
def editorRefreshScreen (draw : editorConfig → Option (List Nat)) (E : editorConfig) :
    Option (editorConfig × List Nat) :=
  (editorScroll E).bind fun E1 =>
  (draw E1).bind fun drawn =>
  some (E1,
    [27, 91, 50, 53, 108] ++ [27, 91, 72] ++ drawn
      ++ ([27, 91] ++ fmtInt ((E1.cy - E1.rowoff) + 1) ++ [59]
            ++ fmtInt ((E1.rx - E1.coloff) + 1) ++ [72])
      ++ [27, 91, 63, 50, 53, 104])

/-! ## Reference functions used in the statements -/

/-- The reference tab expansion of the spec, starting at rendered column `col`. -/
def expandTabsFrom : Nat → List Nat → List Nat
  | _, [] => []
  | col, c :: cs =>
    if c = TAB then
      List.replicate (KILO_TAB_STOP - col % KILO_TAB_STOP) SPACE ++
        expandTabsFrom (col + (KILO_TAB_STOP - col % KILO_TAB_STOP)) cs
    else c :: expandTabsFrom (col + 1) cs

/-- The highlight class `editorUpdateSyntax` gives a rendered byte. -/
def hlClass (c : Nat) : Nat := if isDigit c then HL_NUMBER else HL_NORMAL

/-- The reference tab expansion of the spec for a whole row. -/
def expandTabs (chars : List Nat) : List Nat := expandTabsFrom 0 chars

/-- A row in the state `editorUpdateRow` leaves it, up to the classes in `hl`
(which the search overlay rewrites): `size == len(chars)`, `render` is the tab
expansion of `chars` followed by zero bytes, `rsize` is the length of the
expansion and `len(hl) == rsize`. -/
def rowUpdated (row : erow) : Prop :=
  row.size = (row.chars.length : Int) ∧
  row.rsize = ((expandTabs row.chars).length : Int) ∧
  row.hl.length = (expandTabs row.chars).length ∧
  row.render = expandTabs row.chars
    ++ List.replicate (row.render.length - (expandTabs row.chars).length) 0

instance (row : erow) : Decidable (rowUpdated row) := by
  unfold rowUpdated; exact inferInstance

/-- The key loop of `main` (`for { editorRefreshScreen(); editorProcessKeypress() }`)
over the keys `editorReadKey` returns one after the other, as far as
`editorProcessKeypress` is concerned: it stops at the press that exits. -/
def pressKeys (save find : State → Option State) : State → List Int → Option Step
  | S, [] => some (Step.running S)
  | S, c :: cs =>
    (editorProcessKeypress save find S c).bind fun r =>
      match r with
      | Step.exited => some Step.exited
      | Step.running S1 => pressKeys save find S1 cs

/-- An empty editor state with a 24x80 screen (what `initEditor` leaves, minus
the two status lines). -/
def emptyEditor : editorConfig :=
  { cx := 0, cy := 0, rx := 0, rowoff := 0, coloff := 0, screenRows := 22, screenCols := 80,
    numRows := 0, rows := [], dirty := false }

/-- The initial values of the package-level variables around an editor state. -/
def initState (E : editorConfig) : State :=
  { E := E, lastMatch := -1, direction := 1, savedHlLine := 0, savedHl := [],
    quitTimes := KILO_QUIT_TIMES }

/-- A save or find collaborator that leaves the state alone. -/
def idleCollaborator (S : State) : Option State := some S

/-- The document with the given lines, built the way `editorOpen` builds it:
one `editorInsertRow(E.numRows, line)` per line. -/
def loadLines : editorConfig → List (List Nat) → Option editorConfig
  | E, [] => some E
  | E, line :: rest => (editorInsertRow E E.numRows line).bind fun E1 => loadLines E1 rest

/-- The bytes of `"foo"`. -/
def foo : List Nat := [102, 111, 111]

/-- The bytes of `"bar"`. -/
def bar : List Nat := [98, 97, 114]

/-- The offset of the first occurrence of `sep` in `s`, in the words of the spec:
the first `x` among `0, 1, ..., len(s)` at which `sep` is a prefix of `s[x:]`. -/
def firstOccurrence (s sep : List Nat) : Option Nat :=
  (List.range (s.length + 1)).find? (fun x => sep.isPrefixOf (s.drop x))

/-- The rows visited by `n` steps forward from row `start`, wrapping after the
last of `N` rows: `start, start + 1, ...` modulo `N`. -/
def visitOrder (N start n : Nat) : List Nat :=
  (List.range n).map (fun i => (start + i) % N)

/-- Whether the rendered bytes of row `r` contain the query. -/
def rowHasQuery (rows : List erow) (qry : List Nat) (r : Nat) : Bool :=
  match rows.get? r with
  | some row => decide (qry <:+: row.render)
  | none => false

/-- The row a search selects, in the words of the spec: the first row in the
cyclic order `start, start + 1, ..., numRows - 1, 0, ..., start - 1` whose
rendered bytes contain the query. -/
def firstMatchCyclic (rows : List erow) (qry : List Nat) (start : Nat) : Option Nat :=
  (visitOrder rows.length start rows.length).find? (rowHasQuery rows qry)

/-- What of a row the search overlay never changes: everything but the classes
stored in `hl` (whose number it keeps). -/
def rowCore (r : erow) : Int × Int × List Nat × List Nat × Nat :=
  (r.size, r.rsize, r.chars, r.render, r.hl.length)

/-- A state `editorFindCallback` can be called in: `numRows == len(rows) > 0`,
every row as `editorUpdateRow` leaves it (up to the classes in `hl`), and the
overlay row index below `numRows`. -/
def findReady (S : State) : Prop :=
  S.E.numRows = (S.E.rows.length : Int) ∧ 0 < S.E.rows.length ∧
  (∀ row ∈ S.E.rows, rowUpdated row) ∧ S.savedHlLine < S.E.numRows

instance (S : State) : Decidable (findReady S) := by
  unfold findReady; exact inferInstance

/-- The callback selects row `r`: it returns a state whose cursor is on row `r`, at
the column `editorRowRxToCx` gives for the rendered offset `x` of the first
occurrence of the query in that row; `lastMatch` and the overlay are on `r`,
the rendered bytes are untouched and the state is ready for the next call. -/
def selects (S : State) (qry : List Nat) (key : Int) (r : Nat) : Prop :=
  ∃ S1 row x cxv, editorFindCallback S qry key = some S1 ∧
    S.E.rows.get? r = some row ∧ firstOccurrence row.render qry = some x ∧
    editorRowRxToCx row x = some cxv ∧
    S1.E.cy = (r : Int) ∧ S1.E.cx = cxv ∧ S1.lastMatch = (r : Int) ∧ S1.savedHlLine = (r : Int) ∧
    S1.E.rows.map (fun row => row.render) = S.E.rows.map (fun row => row.render) ∧
    findReady S1

/-- The two-row document `"foobar"`, `"barfoo"` as `editorInsertRow` builds it. -/
def fooBarDoc : editorConfig :=
  { emptyEditor with
    numRows := 2
    rows := [⟨6, 6, foo ++ bar, foo ++ bar, [0, 0, 0, 0, 0, 0]⟩,
             ⟨6, 6, bar ++ foo, bar ++ foo, [0, 0, 0, 0, 0, 0]⟩]
    dirty := true }

/-- The state after the search for `"foo"` in `fooBarDoc` has matched row 0. -/
def fooBarMatched : State :=
  { E := { fooBarDoc with
      cy := 0, cx := 0, rowoff := 2
      rows := [⟨6, 6, foo ++ bar, foo ++ bar, [2, 2, 2, 0, 0, 0]⟩,
               ⟨6, 6, bar ++ foo, bar ++ foo, [0, 0, 0, 0, 0, 0]⟩] }
    lastMatch := 0, direction := 1, savedHlLine := 0, savedHl := [0, 0, 0, 0, 0, 0]
    quitTimes := KILO_QUIT_TIMES }

/-- The one-row document `"a\t"` as `editorInsertRow` builds it: the tab expands to
7 spaces, `render` has 9 bytes (the last one a zero byte) and `hl` has 8. -/
def tabDoc : editorConfig :=
  { emptyEditor with
    numRows := 1
    rows := [⟨2, 8, [97, 9], [97, 32, 32, 32, 32, 32, 32, 32, 0], [0, 0, 0, 0, 0, 0, 0, 0]⟩]
    dirty := true }

/-- The part of a file content that ends with its last line feed: the bytes up to
and including the last `NL`, nothing when there is no `NL`. -/
def terminatedPart : List Nat → List Nat
  | [] => []
  | c :: cs => if NL ∈ c :: cs then c :: terminatedPart cs else []

/-- Serialization in the words of the spec: every line followed by a single line
feed, in order. -/
def concatLines : List (List Nat) → List Nat
  | [] => []
  | l :: ls => l ++ NL :: concatLines ls

/-- The inputs after ESC for which the code of `editorReadKey` returns a key other
than ESC: `[ d ~` for a digit `d` of 1, 3, 4, 5, 6, 7, 8; `[ L` for a letter `L` of
A, B, C, D, H, F; and, through the branch `seq[0] == '0'` of `kilo.go` 187, `0 H` and
`0 F` with the digit zero. -/
def isKeySequence (rest : List Nat) : Prop :=
  (∃ d more, rest = 91 :: d :: 126 :: more ∧ d ∈ [49, 51, 52, 53, 54, 55, 56]) ∨
  (∃ l more, rest = 91 :: l :: more ∧ l ∈ [65, 66, 67, 68, 72, 70]) ∨
  (∃ l more, rest = 48 :: l :: more ∧ l ∈ [72, 70])

/-- The scroll offset `editorScroll` leaves for a cursor coordinate `pos`, an offset
`off` and a window of `size` cells: its two `if` statements, one after the
other. -/
def scrollOffset (pos off size : Int) : Int :=
  let o1 := if pos < off then pos else off
  if pos ≥ o1 + size then pos - size + 1 else o1

/-- The package-level search variables point into the document: `numRows ==
len(rows)`, the overlay row index is `<= 0` or below `numRows`, and `lastMatch`
is `-1` or a row index. -/
def findSafe (S : State) : Prop :=
  S.E.numRows = (S.E.rows.length : Int) ∧
  (S.savedHlLine ≤ 0 ∨ S.savedHlLine < S.E.numRows) ∧
  (S.lastMatch = -1 ∨ (0 ≤ S.lastMatch ∧ S.lastMatch < S.E.numRows))

instance (S : State) : Decidable (findSafe S) := by
  unfold findSafe; exact inferInstance

/-- The state after the search for `"foo"` in the one-row document `"foo"` has
matched row 0: the overlay is on row 0. -/
def fooMatched : State :=
  { E := { emptyEditor with
      cy := 0, cx := 0, rowoff := 1, numRows := 1, dirty := true
      rows := [⟨3, 3, foo, foo, [2, 2, 2]⟩] }
    lastMatch := 0, direction := 1, savedHlLine := 0, savedHl := [0, 0, 0]
    quitTimes := KILO_QUIT_TIMES }

/-- The rendered column after one more byte `c`, from the rendered column `rx`: the
body of the loops of `editorRowCxToRx` and `editorRowRxToCx`. -/
def widthStep (rx c : Nat) : Nat :=
  (if c = TAB then rx + ((KILO_TAB_STOP - 1) - (rx % KILO_TAB_STOP)) else rx) + 1

/-- The rendered column after the bytes of a list, from the rendered column `rx`. -/
def widthFrom : Nat → List Nat → Nat
  | rx, [] => rx
  | rx, c :: cs => widthFrom (widthStep rx c) cs

/-- The size of row `cy`, and 0 when there is no row `cy` (the cursor is on the line
after the last row). -/
def rowSizeAt (E : editorConfig) : Int :=
  match getIdx E.rows E.cy with
  | some row => row.size
  | none => 0

/-- The state predicate of the cursor: `numRows == len(rows)`, every row has
`size == len(chars)`, `0 <= cy <= numRows`, and `0 <= cx <= size of row cy`
(`cx == 0` when `cy == numRows`). -/
def cursorValid (E : editorConfig) : Prop :=
  E.numRows = (E.rows.length : Int) ∧
  (∀ row ∈ E.rows, row.size = (row.chars.length : Int)) ∧
  0 ≤ E.cy ∧ E.cy ≤ E.numRows ∧
  0 ≤ E.cx ∧ E.cx ≤ rowSizeAt E

instance (E : editorConfig) : Decidable (cursorValid E) := by
  unfold cursorValid; exact inferInstance

/-! ## The editing functions with backing arrays (`kilo.go` 293-421, 601-636)

The functions above take a `[]byte` for its elements.  Here a `[]byte` is a slice
header over a backing array in a heap, so that two rows can share an array, as
they do after `editorInsertNewLine`.  `E.rows` is still a list: every `append`
on it appends elements of an array made in the same statement or shifts the
elements of `E.rows` itself, and no other slice of its array is kept.  `render`
and `hl` are still lists: each is made anew by `editorUpdateRow` and
`editorUpdateSyntax`. -/

namespace Mem

/-- A Go slice header of a `[]byte`: the backing array (its index in the heap), the
offset of `s[0]` in it, the length, and the capacity. -/
structure slice where
  arr : Nat
  off : Nat
  len : Nat
  cap : Nat
deriving DecidableEq, Repr

/-- The nil slice (`var emptyRow []byte`). -/
def nilSlice : slice := ⟨0, 0, 0, 0⟩

/-- The elements `s[0], ..., s[len(s)-1]` of a slice, read from the heap `h`. -/
def bytes (h : List (List Nat)) (s : slice) : List Nat :=
  ((h.getD s.arr []).drop s.off).take s.len

/-- Go `make([]byte, n)`: a new array of `n` zero bytes; panics when `n < 0`. -/
def makeBytes (h : List (List Nat)) (n : Int) : Option (List (List Nat) × slice) :=
  if 0 ≤ n then some (h ++ [List.replicate n.toNat 0], ⟨h.length, 0, n.toNat, n.toNat⟩)
  else none

/-- Go `s[lo:]`; panics unless `0 <= lo <= len(s)`. -/
def sliceFrom (s : slice) (lo : Int) : Option slice :=
  if 0 ≤ lo ∧ lo ≤ (s.len : Int) then
    some ⟨s.arr, s.off + lo.toNat, s.len - lo.toNat, s.cap - lo.toNat⟩
  else none

/-- Go `s[:hi]`; panics unless `0 <= hi <= cap(s)`. -/
def sliceTo (s : slice) (hi : Int) : Option slice :=
  if 0 ≤ hi ∧ hi ≤ (s.cap : Int) then some ⟨s.arr, s.off, hi.toNat, s.cap⟩ else none

/-- The heap after the bytes `xs` are written into array `a` from index `pos` on. -/
def store (h : List (List Nat)) (a pos : Nat) (xs : List Nat) : List (List Nat) :=
  h.set a ((h.getD a []).take pos ++ xs ++ (h.getD a []).drop (pos + xs.length))

/-- Go `s[i] = v`; panics unless `0 <= i < len(s)`. -/
def setByte (h : List (List Nat)) (s : slice) (i : Int) (v : Nat) :
    Option (List (List Nat)) :=
  if 0 ≤ i ∧ i < (s.len : Int) then some (store h s.arr (s.off + i.toNat) [v]) else none

/-- Go `copy(dst, src)` for the elements `src`: the first `min(len(dst), len(src))`
of them are written into `dst`. -/
def copyBytes (h : List (List Nat)) (dst : slice) (src : List Nat) : List (List Nat) :=
  store h dst.arr dst.off (src.take (min dst.len src.length))

/-- Go `append(s, xs...)` for the elements `xs` (read before anything is written).
When the capacity of `s` suffices, the elements are written into the array of
`s` behind `s[len(s)-1]`, whatever else lives there.  Otherwise a new array is
made; its capacity is the choice of the run time, `grow cap(s) n` if that is at
least the new length `n`. -/
def appendBytes (grow : Nat → Nat → Nat) (h : List (List Nat)) (s : slice) (xs : List Nat) :
    List (List Nat) × slice :=
  if s.len + xs.length ≤ s.cap then
    (store h s.arr (s.off + s.len) xs, ⟨s.arr, s.off, s.len + xs.length, s.cap⟩)
  else
    let n := s.len + xs.length
    let c := max n (grow s.cap n)
    (h ++ [bytes h s ++ xs ++ List.replicate (c - n) 0], ⟨h.length, 0, n, c⟩)

/-- The Go struct `erow`, with `chars` a slice header. -/
structure erow where
  size : Int
  rsize : Int
  chars : slice
  render : List Nat
  hl : List Nat
deriving DecidableEq, Repr

/-- The fields of the Go struct `editorConfig` that the editing functions and
`editorMoveCursor` read or write, together with the heap of backing arrays. -/
structure editorConfig where
  heap : List (List Nat)
  cx : Int
  cy : Int
  numRows : Int
  rows : List erow
  dirty : Bool
deriving DecidableEq, Repr

/-- Go `editorUpdateRow`: `render`, `rsize` and `hl` are computed from the elements
of `row.chars` as they are in the heap now. -/
def editorUpdateRow (h : List (List Nat)) (row : erow) : Option erow :=
  (Kilo.editorUpdateRow ⟨row.size, row.rsize, bytes h row.chars, row.render, row.hl⟩).bind
    fun r => some { row with rsize := r.rsize, render := r.render, hl := r.hl }

/-- Go `editorInsertRow`: the new row keeps the slice `s` it is given (`r.chars = s`),
not a copy of its elements. -/
def editorInsertRow (E : editorConfig) (pos : Int) (s : slice) : Option editorConfig :=
  if pos < 0 ∨ pos > E.numRows then some E
  else
    let r : erow := { size := s.len, rsize := 0, chars := s, render := [], hl := [] }
    (if pos = 0 then some (r :: E.rows)
     else if pos = E.numRows then some (E.rows ++ [r])
     else
      (Kilo.sliceTo E.rows pos).bind fun a =>
      (Kilo.sliceFrom E.rows pos).bind fun b => some (a ++ (r :: b))).bind fun rows1 =>
    (getIdx rows1 pos).bind fun row =>
    (editorUpdateRow E.heap row).bind fun row1 =>
    (setIdx rows1 pos row1).bind fun rows2 =>
    some { E with rows := rows2, numRows := E.numRows + 1, dirty := true }

/-- Go `editorDelRow`. -/
def editorDelRow (E : editorConfig) (pos : Int) : Option editorConfig :=
  if pos < 0 ∨ pos > E.numRows then some E
  else
    (Kilo.sliceTo E.rows pos).bind fun a =>
    (Kilo.sliceFrom E.rows (pos + 1)).bind fun b =>
    some { E with rows := a ++ b, numRows := E.numRows - 1, dirty := true }

/-- Go `editorRowInsertChar` on the heap and the row (the caller records
`E.dirty = true`). -/
def editorRowInsertChar (grow : Nat → Nat → Nat) (h : List (List Nat)) (row : erow)
    (pos : Int) (c : Nat) : Option (List (List Nat) × erow) :=
  (if pos < 0 ∨ pos > row.size then some (appendBytes grow h row.chars [c])
   else if pos = 0 then
    (makeBytes h (row.size + 1)).bind fun p =>
    (setByte p.1 p.2 0 c).bind fun h2 =>
    (sliceFrom p.2 1).bind fun tl =>
    some (copyBytes h2 tl (bytes h2 row.chars), p.2)
   else
    (sliceTo row.chars pos).bind fun a =>
    (sliceFrom row.chars pos).bind fun b =>
    some (appendBytes grow h a (([] ++ [c]) ++ bytes h b))).bind fun q =>
  (editorUpdateRow q.1 { row with chars := q.2, size := q.2.len }).bind fun row1 =>
  some (q.1, row1)

/-- Go `editorRowAppendString` on the heap and the row, for the slice `s` (the caller
records `E.dirty = true`). -/
def editorRowAppendString (grow : Nat → Nat → Nat) (h : List (List Nat)) (row : erow)
    (s : slice) : Option (List (List Nat) × erow) :=
  let q := appendBytes grow h row.chars (bytes h s)
  (editorUpdateRow q.1 { row with chars := q.2, size := q.2.len }).bind fun row1 =>
  some (q.1, row1)

/-- Go `editorRowDelChar` on the heap and the row; the third component is whether
the guard let the call through (and `E.dirty = true` was set). -/
def editorRowDelChar (grow : Nat → Nat → Nat) (h : List (List Nat)) (row : erow)
    (pos : Int) : Option (List (List Nat) × erow × Bool) :=
  if pos < 0 ∨ pos > row.size then some (h, row, false)
  else
    (sliceTo row.chars pos).bind fun a =>
    (sliceFrom row.chars (pos + 1)).bind fun b =>
    let q := appendBytes grow h a (bytes h b)
    (editorUpdateRow q.1 { row with chars := q.2, size := row.size - 1 }).bind fun row1 =>
    some (q.1, row1, true)

/-- Go `editorInsertChar`. -/
def editorInsertChar (grow : Nat → Nat → Nat) (E : editorConfig) (c : Nat) :
    Option editorConfig :=
  (if E.cy = E.numRows then editorInsertRow E E.numRows nilSlice else some E).bind fun E1 =>
  (getIdx E1.rows E1.cy).bind fun row =>
  (editorRowInsertChar grow E1.heap row E1.cx c).bind fun q =>
  (setIdx E1.rows E1.cy q.2).bind fun rows1 =>
  some { E1 with heap := q.1, rows := rows1, dirty := true, cx := E1.cx + 1 }

/-- Go `editorInsertNewLine`: for `cx != 0` the new row is given the reslice
`chars[cx:]` of row `cy`, and row `cy` keeps the reslice `chars[:cx]` of the same
array. -/
def editorInsertNewLine (E : editorConfig) : Option editorConfig :=
  (if E.cx = 0 then
    (makeBytes E.heap 0).bind fun p => editorInsertRow { E with heap := p.1 } E.cy p.2
   else
    (getIdx E.rows E.cy).bind fun row =>
    (sliceFrom row.chars E.cx).bind fun tail =>
    (editorInsertRow E (E.cy + 1) tail).bind fun E1 =>
    (getIdx E1.rows E1.cy).bind fun row1 =>
    (sliceTo row1.chars E1.cx).bind fun head =>
    (editorUpdateRow E1.heap { row1 with chars := head, size := head.len }).bind fun row2 =>
    (setIdx E1.rows E1.cy row2).bind fun rows2 =>
    some { E1 with rows := rows2 }).bind fun E3 =>
  some { E3 with cy := E3.cy + 1, cx := 0 }

/-- Go `editorDelChar`. -/
def editorDelChar (grow : Nat → Nat → Nat) (E : editorConfig) : Option editorConfig :=
  if E.cy = E.numRows then some E
  else if E.cx = 0 ∧ E.cy = 0 then some E
  else if E.cx > 0 then
    (getIdx E.rows E.cy).bind fun row =>
    (editorRowDelChar grow E.heap row (E.cx - 1)).bind fun q =>
    (setIdx E.rows E.cy q.2.1).bind fun rows1 =>
    some { E with heap := q.1, rows := rows1, cx := E.cx - 1, dirty := E.dirty || q.2.2 }
  else
    (getIdx E.rows (E.cy - 1)).bind fun prev =>
    (getIdx E.rows E.cy).bind fun cur =>
    (editorRowAppendString grow E.heap prev cur.chars).bind fun q =>
    (setIdx E.rows (E.cy - 1) q.2).bind fun rows1 =>
    (editorDelRow { E with heap := q.1, cx := prev.size, rows := rows1, dirty := true }
      E.cy).bind fun E2 =>
    some { E2 with cy := E2.cy - 1 }

/-- Go `editorMoveCursor`. -/
def editorMoveCursor (E : editorConfig) (key : Int) : Option editorConfig :=
  (if key = ARROW_LEFT then
    if E.cx ≠ 0 then some { E with cx := E.cx - 1 }
    else if E.cy > 0 then
      (getIdx E.rows (E.cy - 1)).bind fun row => some { E with cy := E.cy - 1, cx := row.size }
    else some E
   else if key = ARROW_RIGHT then
    if E.cy < E.numRows then
      (getIdx E.rows E.cy).bind fun row =>
      if E.cx < row.size then some { E with cx := E.cx + 1 }
      else if E.cx = row.size then some { E with cy := E.cy + 1, cx := 0 }
      else some E
    else some E
   else if key = ARROW_UP then
    if E.cy ≠ 0 then some { E with cy := E.cy - 1 } else some E
   else if key = ARROW_DOWN then
    if E.cy < E.numRows then some { E with cy := E.cy + 1 } else some E
   else some E).bind fun E1 =>
  (if E1.cy < E1.numRows then (getIdx E1.rows E1.cy).bind fun row => some row.size
   else some 0).bind fun rowlen =>
  some (if E1.cx > rowlen then { E1 with cx := rowlen } else E1)

/-- The elements of `chars` of every row, in row order. -/
def rowChars (E : editorConfig) : List (List Nat) :=
  E.rows.map fun row => bytes E.heap row.chars

/-- The state before `editorOpen` inserts the first row of a file whose only line is
`"abcd\n"`: no rows, and the array that `ReadBytes` returned for the line. -/
def abcdLine : editorConfig :=
  { heap := [[97, 98, 99, 100, 10]], cx := 0, cy := 0, numRows := 0, rows := [], dirty := false }

end Mem

/-! # Theorems -/

/-! ## Slices and `editorUpdateRow` -/

theorem setIdx_at_length (pre : List Nat) (m : Nat) (v : Nat) :
    setIdx (pre ++ List.replicate (m + 1) 0) (pre.length : Int) v
      = some ((pre ++ [v]) ++ List.replicate m 0) := by
  unfold setIdx
  have h : (0 : Int) ≤ (pre.length : Int) ∧
      (pre.length : Int) < ((pre ++ List.replicate (m + 1) 0).length : Int) := by
    constructor
    · omega
    · simp
  rw [if_pos h]
  simp [List.replicate_succ]

theorem tabFill_spec : ∀ (fuel : Nat) (pre : List Nat) (m : Nat),
    (KILO_TAB_STOP - pre.length % KILO_TAB_STOP) % KILO_TAB_STOP ≤ fuel →
    (KILO_TAB_STOP - pre.length % KILO_TAB_STOP) % KILO_TAB_STOP ≤ m →
    tabFill fuel (pre ++ List.replicate m 0) pre.length
      = some (pre ++ List.replicate ((KILO_TAB_STOP - pre.length % KILO_TAB_STOP) % KILO_TAB_STOP) SPACE
                ++ List.replicate (m - (KILO_TAB_STOP - pre.length % KILO_TAB_STOP) % KILO_TAB_STOP) 0,
              pre.length + (KILO_TAB_STOP - pre.length % KILO_TAB_STOP) % KILO_TAB_STOP) := by
  intro fuel
  induction fuel with
  | zero =>
    intro pre m hf hm
    have h0 : pre.length % KILO_TAB_STOP = 0 := by
      unfold KILO_TAB_STOP at *; omega
    simp [tabFill, h0]
  | succ n ih =>
    intro pre m hf hm
    by_cases h0 : pre.length % KILO_TAB_STOP = 0
    · simp [tabFill, h0]
    · have hk : (KILO_TAB_STOP - pre.length % KILO_TAB_STOP) % KILO_TAB_STOP
          = (KILO_TAB_STOP - (pre ++ [SPACE]).length % KILO_TAB_STOP) % KILO_TAB_STOP + 1 := by
        simp only [List.length_append, List.length_singleton]
        unfold KILO_TAB_STOP at *; omega
      obtain ⟨m1, rfl⟩ : ∃ m1, m = m1 + 1 := ⟨m - 1, by unfold KILO_TAB_STOP at *; omega⟩
      rw [tabFill, if_pos h0, setIdx_at_length]
      simp only [Option.bind_some, Option.some_bind]
      have e := ih (pre ++ [SPACE]) m1 (by omega) (by omega)
      simp only [List.length_append, List.length_singleton] at e hk
      rw [e, hk]
      simp [List.replicate_succ, Nat.add_assoc, Nat.add_comm 1]

theorem tabStop_eq : KILO_TAB_STOP = 8 := rfl

theorem expandTabsFrom_length_le : ∀ (cs : List Nat) (col : Nat),
    (expandTabsFrom col cs).length ≤ cs.length + (KILO_TAB_STOP - 1) * countTabs cs := by
  intro cs
  induction cs with
  | nil => intro col; simp [expandTabsFrom]
  | cons c cs ih =>
    intro col
    by_cases hc : c = TAB
    · have := ih (col + (KILO_TAB_STOP - col % KILO_TAB_STOP))
      simp only [expandTabsFrom, if_pos hc, countTabs, List.length_append, List.length_replicate,
        List.length_cons, tabStop_eq] at *
      omega
    · have := ih (col + 1)
      simp only [expandTabsFrom, if_neg hc, countTabs, List.length_cons, tabStop_eq] at *
      omega

theorem renderLoop_spec : ∀ (cs pre : List Nat) (m : Nat),
    cs.length + (KILO_TAB_STOP - 1) * countTabs cs ≤ m →
    renderLoop cs (pre ++ List.replicate m 0) pre.length
      = some (pre ++ expandTabsFrom pre.length cs
                ++ List.replicate (m - (expandTabsFrom pre.length cs).length) 0,
              pre.length + (expandTabsFrom pre.length cs).length) := by
  intro cs
  induction cs with
  | nil => intro pre m _; simp [renderLoop, expandTabsFrom]
  | cons c cs ih =>
    intro pre m hm
    obtain ⟨m1, rfl⟩ : ∃ m1, m = m1 + 1 := ⟨m - 1, by simp only [List.length_cons] at hm; omega⟩
    by_cases hc : c = TAB
    · have hlen := expandTabsFrom_length_le cs (pre.length + (KILO_TAB_STOP - pre.length % KILO_TAB_STOP))
      simp only [countTabs, if_pos hc, List.length_cons, tabStop_eq] at hm hlen
      have hk : (KILO_TAB_STOP - (pre.length + 1) % KILO_TAB_STOP) % KILO_TAB_STOP + 1
          = KILO_TAB_STOP - pre.length % KILO_TAB_STOP := by
        simp only [tabStop_eq]; omega
      have hl1 : (pre ++ [SPACE]).length = pre.length + 1 := by simp
      have e1 := tabFill_spec KILO_TAB_STOP (pre ++ [SPACE]) m1
        (by simp only [tabStop_eq]; omega) (by simp only [tabStop_eq, hl1]; omega)
      rw [hl1] at e1
      have hpre : pre ++ [SPACE] ++ List.replicate
            ((KILO_TAB_STOP - (pre.length + 1) % KILO_TAB_STOP) % KILO_TAB_STOP) SPACE
          = pre ++ List.replicate (KILO_TAB_STOP - pre.length % KILO_TAB_STOP) SPACE := by
        rw [← hk, List.replicate_succ]; simp
      have hl2 : (pre ++ List.replicate (KILO_TAB_STOP - pre.length % KILO_TAB_STOP) SPACE).length
          = pre.length + (KILO_TAB_STOP - pre.length % KILO_TAB_STOP) := by simp
      have hidx : pre.length + 1
            + (KILO_TAB_STOP - (pre.length + 1) % KILO_TAB_STOP) % KILO_TAB_STOP
          = (pre ++ List.replicate (KILO_TAB_STOP - pre.length % KILO_TAB_STOP) SPACE).length := by
        rw [hl2, ← hk]; omega
      rw [hpre, hidx] at e1
      have e2 := ih (pre ++ List.replicate (KILO_TAB_STOP - pre.length % KILO_TAB_STOP) SPACE)
        (m1 - (KILO_TAB_STOP - (pre.length + 1) % KILO_TAB_STOP) % KILO_TAB_STOP)
        (by simp only [tabStop_eq] at *; omega)
      rw [renderLoop, if_pos hc, setIdx_at_length]
      simp only [Option.bind_some, Option.some_bind]
      rw [e1]
      simp only [Option.bind_some, Option.some_bind]
      rw [e2, hl2]
      simp only [expandTabsFrom, if_pos hc, List.length_append, List.length_replicate,
        List.append_assoc]
      have ha : m1 - (KILO_TAB_STOP - (pre.length + 1) % KILO_TAB_STOP) % KILO_TAB_STOP
            - (expandTabsFrom (pre.length + (KILO_TAB_STOP - pre.length % KILO_TAB_STOP)) cs).length
          = m1 + 1 - (KILO_TAB_STOP - pre.length % KILO_TAB_STOP
            + (expandTabsFrom (pre.length + (KILO_TAB_STOP - pre.length % KILO_TAB_STOP)) cs).length) := by
        omega
      rw [ha, Nat.add_assoc]
    · have hlen := expandTabsFrom_length_le cs (pre.length + 1)
      simp only [countTabs, if_neg hc, List.length_cons, tabStop_eq] at hm hlen
      have hl2 : (pre ++ [c]).length = pre.length + 1 := by simp
      have e2 := ih (pre ++ [c]) m1 (by simp only [tabStop_eq]; omega)
      rw [hl2] at e2
      rw [renderLoop, if_neg hc, setIdx_at_length]
      simp only [Option.bind_some, Option.some_bind]
      rw [e2]
      simp only [expandTabsFrom, if_neg hc, List.length_cons, List.append_assoc,
        List.singleton_append, Nat.add_sub_add_right]
      rw [Nat.add_assoc, Nat.add_comm 1]

theorem syntaxLoop_zeros : ∀ (k i : Nat) (hl : List Nat),
    syntaxLoop (List.replicate k 0) i hl = some hl := by
  intro k
  induction k with
  | zero => intro i hl; simp [syntaxLoop]
  | succ k ih =>
    intro i hl
    have h0 : isDigit 0 = false := by decide
    simp [List.replicate_succ, syntaxLoop, h0, ih]

theorem syntaxLoop_spec : ∀ (cs done : List Nat) (k : Nat),
    syntaxLoop (cs ++ List.replicate k 0) done.length (done ++ List.replicate cs.length 0)
      = some (done ++ cs.map hlClass) := by
  intro cs
  induction cs with
  | nil => intro done k; simp [syntaxLoop_zeros]
  | cons c cs ih =>
    intro done k
    have hl1 : (done ++ [hlClass c]).length = done.length + 1 := by simp
    have e := ih (done ++ [hlClass c]) k
    rw [hl1] at e
    by_cases hd : isDigit c = true
    · have hcl : hlClass c = HL_NUMBER := by simp [hlClass, hd]
      rw [hcl] at e
      rw [List.cons_append, syntaxLoop, if_pos hd, List.length_cons, setIdx_at_length]
      simpa [hcl] using e
    · have hcl : hlClass c = 0 := by simp [hlClass, hd, HL_NORMAL]
      rw [hcl] at e
      have e' : syntaxLoop (cs ++ List.replicate k 0) (done.length + 1)
          (done ++ List.replicate (cs.length + 1) 0) = some (done ++ [0] ++ cs.map hlClass) := by
        rw [← e]; simp [List.replicate_succ]
      rw [List.cons_append, syntaxLoop, if_neg hd, List.length_cons]
      simpa [hcl] using e'

theorem editorUpdateRow_eq (row : erow) (h : (row.chars.length : Int) ≤ row.size) :
    editorUpdateRow row = some { row with
      render := expandTabs row.chars ++ List.replicate
        ((row.size + countTabs row.chars * (KILO_TAB_STOP - 1)).toNat
          - (expandTabs row.chars).length) 0
      rsize := ((expandTabs row.chars).length : Int)
      hl := (expandTabs row.chars).map hlClass } := by
  have hlen := expandTabsFrom_length_le row.chars 0
  have hm : row.chars.length + (KILO_TAB_STOP - 1) * countTabs row.chars
      ≤ (row.size + countTabs row.chars * (KILO_TAB_STOP - 1)).toNat := by
    simp only [tabStop_eq] at *; omega
  have e := renderLoop_spec row.chars [] _ hm
  simp only [List.nil_append, List.length_nil, Nat.zero_add] at e
  have hnn : (0 : Int) ≤ row.size + ↑(countTabs row.chars) * (↑KILO_TAB_STOP - 1) := by
    simp only [tabStop_eq] at *; omega
  have es := syntaxLoop_spec (expandTabs row.chars) []
    ((row.size + countTabs row.chars * (KILO_TAB_STOP - 1)).toNat - (expandTabs row.chars).length)
  simp only [List.nil_append, List.length_nil] at es
  unfold editorUpdateRow editorUpdateSyntax makeBytes
  simp only [if_pos hnn, Option.bind_some, Option.some_bind, e]
  simp only [expandTabs] at *
  simp [es]

/-! ## Tab expansion, column maps and single-row edits (C2, C6, C7, C8, C10) -/

theorem expandTabsFrom_noTab : ∀ (cs : List Nat) (col : Nat),
    (∀ c ∈ cs, c ≠ TAB) → expandTabsFrom col cs = cs := by
  intro cs
  induction cs with
  | nil => intro col _; rfl
  | cons c cs ih =>
    intro col h
    have hc : c ≠ TAB := h c (List.mem_cons_self _ _)
    rw [expandTabsFrom, if_neg hc, ih (col + 1) (fun d hd => h d (List.mem_cons_of_mem _ hd))]

theorem countTabs_noTab : ∀ (cs : List Nat), (∀ c ∈ cs, c ≠ TAB) → countTabs cs = 0 := by
  intro cs
  induction cs with
  | nil => intro _; rfl
  | cons c cs ih =>
    intro h
    have hc : c ≠ TAB := h c (List.mem_cons_self _ _)
    rw [countTabs, if_neg hc, ih (fun d hd => h d (List.mem_cons_of_mem _ hd))]

/-- C6: for every row (with `size == len(chars)`), `editorUpdateRow` returns, the
first `rsize` bytes of `render` are the reference tab expansion of `chars`
(a non-tab byte copied, a tab at rendered column `r` replaced by
`KILO_TAB_STOP - r % KILO_TAB_STOP` spaces), and `rsize` is the length of
that expansion; the expansion of a tab is 8 spaces at column 0 and 5 spaces
at column 3. -/
theorem C6_updateRow_render_is_tab_expansion :
    (∀ row : erow, row.size = (row.chars.length : Int) →
      ∃ row1, editorUpdateRow row = some row1 ∧
        row1.render.take row1.rsize.toNat = expandTabs row.chars ∧
        row1.rsize = ((expandTabs row.chars).length : Int) ∧
        row1.chars = row.chars ∧ row1.size = row.size) ∧
    expandTabs [TAB] = List.replicate 8 SPACE ∧
    expandTabs [97, 98, 99, TAB] = [97, 98, 99] ++ List.replicate 5 SPACE ∧
    (∀ (col c : Nat) (cs : List Nat), c ≠ TAB →
      expandTabsFrom col (c :: cs) = c :: expandTabsFrom (col + 1) cs) ∧
    (∀ (col : Nat) (cs : List Nat),
      expandTabsFrom col (TAB :: cs)
        = List.replicate (KILO_TAB_STOP - col % KILO_TAB_STOP) SPACE
          ++ expandTabsFrom (col + (KILO_TAB_STOP - col % KILO_TAB_STOP)) cs) := by
  refine ⟨fun row h => ?_, by decide, by decide, fun col c cs hc => ?_, fun col cs => ?_⟩
  · refine ⟨_, editorUpdateRow_eq row (by omega), ?_, rfl, rfl, rfl⟩
    simp
  · rw [expandTabsFrom, if_neg hc]
  · rw [expandTabsFrom, if_pos rfl]

/-- Witness of C6: the row `"abc\t1"`, whose tab is reached at rendered column 3
and becomes 5 spaces. -/
theorem C6_updateRow_render_is_tab_expansion_witness :
    ∃ row1, editorUpdateRow ⟨5, 0, [97, 98, 99, 9, 49], [], []⟩ = some row1 ∧
      row1.render.take row1.rsize.toNat = expandTabs [97, 98, 99, 9, 49] ∧
      row1.rsize = ((expandTabs [97, 98, 99, 9, 49]).length : Int) ∧
      row1.chars = [97, 98, 99, 9, 49] ∧ row1.size = 5 :=
  C6_updateRow_render_is_tab_expansion.1 ⟨5, 0, [97, 98, 99, 9, 49], [], []⟩ (by decide)

theorem expandTabsFrom_take_succ (col c : Nat) (cs : List Nat) (t : Nat) :
    col + (expandTabsFrom col ((c :: cs).take (t + 1))).length
      = (if c = TAB then col + (KILO_TAB_STOP - col % KILO_TAB_STOP) else col + 1)
        + (expandTabsFrom (if c = TAB then col + (KILO_TAB_STOP - col % KILO_TAB_STOP)
            else col + 1) (cs.take t)).length := by
  rw [List.take_succ_cons, expandTabsFrom]
  by_cases hc : c = TAB
  · simp only [hc, if_true, List.length_append, List.length_replicate]
    omega
  · simp only [hc, if_false, List.length_cons]
    omega

/-- The tab expansion has the length `len + 7 * tabs` that `editorUpdateRow` allocates
exactly when every tab stands at a rendered column that is a multiple of the tab
stop, that is, when every tab expands to 8 spaces. -/
theorem expandTabsFrom_length_eq_iff : ∀ (cs : List Nat) (col : Nat),
    (expandTabsFrom col cs).length = cs.length + (KILO_TAB_STOP - 1) * countTabs cs ↔
    ∀ t, cs.get? t = some TAB →
      (col + (expandTabsFrom col (cs.take t)).length) % KILO_TAB_STOP = 0 := by
  intro cs
  induction cs with
  | nil =>
    intro col
    simp [expandTabsFrom, countTabs]
  | cons c cs ih =>
    intro col
    have hle := expandTabsFrom_length_le cs
    by_cases hc : c = TAB
    · have ih1 := ih (col + (KILO_TAB_STOP - col % KILO_TAB_STOP))
      have hle1 := hle (col + (KILO_TAB_STOP - col % KILO_TAB_STOP))
      have hmod : col % KILO_TAB_STOP < KILO_TAB_STOP := Nat.mod_lt _ (by decide)
      constructor
      · intro h
        rw [expandTabsFrom, if_pos hc] at h
        simp only [List.length_append, List.length_replicate, List.length_cons, countTabs,
          if_pos hc] at h
        simp only [tabStop_eq] at *
        have h0 : col % 8 = 0 := by omega
        have h1 := ih1.mp (by omega)
        intro t ht
        rcases t with _ | t
        · simpa [expandTabsFrom] using h0
        · rw [expandTabsFrom_take_succ, if_pos hc]
          simp only [tabStop_eq]
          exact h1 t (by simpa using ht)
      · intro h
        have h0 := h 0 (by simp [hc])
        simp only [List.take_zero, expandTabsFrom, List.length_nil, Nat.add_zero] at h0
        have h1 : ∀ t, cs.get? t = some TAB →
            (col + (KILO_TAB_STOP - col % KILO_TAB_STOP)
              + (expandTabsFrom (col + (KILO_TAB_STOP - col % KILO_TAB_STOP))
                  (cs.take t)).length) % KILO_TAB_STOP = 0 := by
          intro t ht
          have := h (t + 1) (by simpa using ht)
          rw [expandTabsFrom_take_succ, if_pos hc] at this
          exact this
        have h2 := ih1.mpr h1
        rw [expandTabsFrom, if_pos hc]
        simp only [List.length_append, List.length_replicate, List.length_cons, countTabs,
          if_pos hc]
        simp only [tabStop_eq] at *
        omega
    · have ih1 := ih (col + 1)
      constructor
      · intro h
        rw [expandTabsFrom, if_neg hc] at h
        simp only [List.length_cons, countTabs, if_neg hc] at h
        have h1 := ih1.mp (by simp only [tabStop_eq] at *; omega)
        intro t ht
        rcases t with _ | t
        · simp at ht
          exact absurd ht hc
        · rw [expandTabsFrom_take_succ, if_neg hc]
          exact h1 t (by simpa using ht)
      · intro h
        have h1 : ∀ t, cs.get? t = some TAB →
            (col + 1 + (expandTabsFrom (col + 1) (cs.take t)).length) % KILO_TAB_STOP = 0 := by
          intro t ht
          have := h (t + 1) (by simpa using ht)
          rw [expandTabsFrom_take_succ, if_neg hc] at this
          exact this
        have h2 := ih1.mpr h1
        rw [expandTabsFrom, if_neg hc]
        simp only [List.length_cons, countTabs, if_neg hc]
        simp only [tabStop_eq] at *
        omega

/-- Counterexample to C8 as stated: for the row `"a\t"` the tab expands to 7
spaces, `render` is allocated with `2 + 7 = 9` bytes and `hl` with `rsize = 8`. -/
theorem C8_counterexample_render_longer_than_hl :
    ∃ row1, editorUpdateRow ⟨2, 0, [97, 9], [], []⟩ = some row1 ∧
      row1.render.length = 9 ∧ row1.hl.length = 8 ∧ row1.render.length ≠ row1.hl.length :=
  ⟨_, rfl, rfl, rfl, by decide⟩

/-- C8 as amended: after `editorUpdateRow`, `len(hl) == rsize <= len(render)`,
`len(render) == size + 7 * tabs` with zero bytes from `rsize` on, and
`len(render) == len(hl)` exactly when every tab of the row stands at a rendered
column that is a multiple of 8 (so that it expands to 8 spaces), in particular
for a row without tab bytes. -/
theorem C8_updateRow_hl_length_is_rsize (row : erow)
    (h : row.size = (row.chars.length : Int)) :
    ∃ row1, editorUpdateRow row = some row1 ∧
      (row1.hl.length : Int) = row1.rsize ∧
      row1.rsize ≤ (row1.render.length : Int) ∧
      (row1.render.length : Int) = row.size + countTabs row.chars * (KILO_TAB_STOP - 1) ∧
      row1.render.drop row1.rsize.toNat
        = List.replicate (row1.render.length - row1.rsize.toNat) 0 ∧
      ((∀ c ∈ row.chars, c ≠ TAB) → row1.render.length = row1.hl.length) ∧
      (row1.render.length = row1.hl.length ↔
        ∀ t, row.chars.get? t = some TAB →
          (expandTabs (row.chars.take t)).length % KILO_TAB_STOP = 0) := by
  have hlen := expandTabsFrom_length_le row.chars 0
  have hlen' : (expandTabs row.chars).length ≤ row.chars.length + 7 * countTabs row.chars := by
    simpa [expandTabs, tabStop_eq] using hlen
  have hiff := expandTabsFrom_length_eq_iff row.chars 0
  simp only [Nat.zero_add] at hiff
  refine ⟨_, editorUpdateRow_eq row (by omega), ?_, ?_, ?_, ?_, ?_, ?_⟩
  · simp
  · simp
  · simp only [List.length_append, List.length_replicate, tabStop_eq]
    omega
  · simp
  · intro hnt
    have e1 : expandTabs row.chars = row.chars := expandTabsFrom_noTab _ _ hnt
    have e2 := countTabs_noTab _ hnt
    simp only [List.length_append, List.length_replicate, List.length_map, e1, e2, h]
    simp
  · show (expandTabs row.chars ++ List.replicate
        ((row.size + countTabs row.chars * (KILO_TAB_STOP - 1)).toNat
          - (expandTabs row.chars).length) 0).length
        = ((expandTabs row.chars).map hlClass).length ↔ _
    have hiff2 : (expandTabs row.chars).length
          = row.chars.length + (KILO_TAB_STOP - 1) * countTabs row.chars ↔
        ∀ t, row.chars.get? t = some TAB →
          (expandTabs (row.chars.take t)).length % KILO_TAB_STOP = 0 := hiff
    rw [← hiff2]
    simp only [List.length_append, List.length_replicate, List.length_map, tabStop_eq, h] at *
    constructor <;> intro hh <;> omega

/-- Witness of C8 as amended: the rows `"a\t"` (a tab at column 1, expanded to 7
spaces) and `"abc"` (no tab). -/
theorem C8_updateRow_hl_length_is_rsize_witness :
    (∃ row1, editorUpdateRow ⟨2, 0, [97, 9], [], []⟩ = some row1 ∧
      (row1.hl.length : Int) = row1.rsize ∧
      row1.rsize ≤ (row1.render.length : Int) ∧
      (row1.render.length : Int) = 2 + countTabs [97, 9] * (KILO_TAB_STOP - 1) ∧
      row1.render.drop row1.rsize.toNat
        = List.replicate (row1.render.length - row1.rsize.toNat) 0 ∧
      ((∀ c ∈ [97, 9], c ≠ TAB) → row1.render.length = row1.hl.length) ∧
      (row1.render.length = row1.hl.length ↔
        ∀ t, [97, 9].get? t = some TAB →
          (expandTabs ([97, 9].take t)).length % KILO_TAB_STOP = 0)) ∧
    (∃ row1, editorUpdateRow ⟨3, 0, [97, 98, 99], [], []⟩ = some row1 ∧
      (row1.hl.length : Int) = row1.rsize ∧
      row1.rsize ≤ (row1.render.length : Int) ∧
      (row1.render.length : Int) = 3 + countTabs [97, 98, 99] * (KILO_TAB_STOP - 1) ∧
      row1.render.drop row1.rsize.toNat
        = List.replicate (row1.render.length - row1.rsize.toNat) 0 ∧
      ((∀ c ∈ [97, 98, 99], c ≠ TAB) → row1.render.length = row1.hl.length) ∧
      (row1.render.length = row1.hl.length ↔
        ∀ t, [97, 98, 99].get? t = some TAB →
          (expandTabs ([97, 98, 99].take t)).length % KILO_TAB_STOP = 0)) :=
  ⟨C8_updateRow_hl_length_is_rsize ⟨2, 0, [97, 9], [], []⟩ (by decide),
   C8_updateRow_hl_length_is_rsize ⟨3, 0, [97, 98, 99], [], []⟩ (by decide)⟩

theorem cxToRxLoop_noTab : ∀ (rest : List Nat) (size cx : Int) (j rx : Nat),
    (∀ c ∈ rest, c ≠ TAB) → size = (j : Int) + rest.length → (j : Int) ≤ cx → cx ≤ size →
    cxToRxLoop size cx rest j rx = some (rx + (cx - j).toNat) := by
  intro rest
  induction rest with
  | nil =>
    intro size cx j rx _ hs hj hc
    have hcond : ¬ ((j : Int) < size ∧ (j : Int) < cx) := by
      simp only [List.length_nil] at hs; omega
    rw [cxToRxLoop, if_neg hcond]
    have : (cx - j).toNat = 0 := by simp only [List.length_nil] at hs; omega
    rw [this]; rfl
  | cons c cs ih =>
    intro size cx j rx hnt hs hj hc
    simp only [List.length_cons] at hs
    have hct : c ≠ TAB := hnt c (List.mem_cons_self _ _)
    by_cases hlt : (j : Int) < cx
    · have hcond : (j : Int) < size ∧ (j : Int) < cx := ⟨by omega, hlt⟩
      rw [cxToRxLoop, if_pos hcond]
      simp only [if_neg hct]
      rw [ih size cx (j + 1) (rx + 1) (fun d hd => hnt d (List.mem_cons_of_mem _ hd))
        (by push_cast; omega) (by push_cast; omega) hc]
      congr 1
      push_cast
      omega
    · have hcond : ¬ ((j : Int) < size ∧ (j : Int) < cx) := fun hh => hlt hh.2
      rw [cxToRxLoop, if_neg hcond]
      have : (cx - j).toNat = 0 := by omega
      rw [this]; rfl

theorem rxToCxLoop_noTab : ∀ (rest : List Nat) (size rx : Int) (cx : Nat),
    (∀ c ∈ rest, c ≠ TAB) → size = (cx : Int) + rest.length → (cx : Int) ≤ rx → rx ≤ size →
    rxToCxLoop size rx rest cx cx = some rx.toNat := by
  intro rest
  induction rest with
  | nil =>
    intro size rx cx _ hs hj hc
    simp only [List.length_nil] at hs
    have hcond : ¬ ((cx : Int) < size) := by omega
    rw [rxToCxLoop, if_neg hcond]
    congr 1; omega
  | cons c cs ih =>
    intro size rx cx hnt hs hj hc
    simp only [List.length_cons] at hs
    have hct : c ≠ TAB := hnt c (List.mem_cons_self _ _)
    have hcond : (cx : Int) < size := by omega
    rw [rxToCxLoop, if_pos hcond]
    simp only [if_neg hct]
    by_cases hgt : ((cx + 1 : Nat) : Int) > rx
    · rw [if_pos hgt]; congr 1; push_cast at hgt; omega
    · rw [if_neg hgt]
      exact ih size rx (cx + 1) (fun d hd => hnt d (List.mem_cons_of_mem _ hd))
        (by push_cast; omega) (by push_cast at hgt ⊢; omega) hc

/-- C7: for every row (with `size == len(chars)`) whose chars contain no tab
byte, `editorRowCxToRx(row, cx) == cx` for `0 <= cx <= row.size` and
`editorRowRxToCx(row, rx) == rx` for `0 <= rx <= row.size`. -/
theorem C7_noTab_column_maps_are_identity (row : erow)
    (hsize : row.size = (row.chars.length : Int)) (hnt : ∀ c ∈ row.chars, c ≠ TAB) :
    (∀ cx : Int, 0 ≤ cx → cx ≤ row.size → editorRowCxToRx row cx = some cx) ∧
    (∀ rx : Int, 0 ≤ rx → rx ≤ row.size → editorRowRxToCx row rx = some rx) := by
  constructor
  · intro cx h0 h1
    unfold editorRowCxToRx
    rw [cxToRxLoop_noTab row.chars row.size cx 0 0 hnt (by simpa using hsize) (by simpa using h0) h1]
    simp only [Option.map_some', Nat.zero_add, Nat.cast_zero, sub_zero, Int.toNat_of_nonneg h0]
  · intro rx h0 h1
    unfold editorRowRxToCx
    rw [rxToCxLoop_noTab row.chars row.size rx 0 hnt (by simpa using hsize) (by simpa using h0) h1]
    simp only [Option.map_some', Int.toNat_of_nonneg h0]

/-- Witness of C7: the row `"abc"` at columns 2 and 3. -/
theorem C7_noTab_column_maps_are_identity_witness :
    editorRowCxToRx ⟨3, 3, [97, 98, 99], [97, 98, 99], [0, 0, 0]⟩ 2 = some 2 ∧
    editorRowRxToCx ⟨3, 3, [97, 98, 99], [97, 98, 99], [0, 0, 0]⟩ 3 = some 3 :=
  ⟨(C7_noTab_column_maps_are_identity ⟨3, 3, [97, 98, 99], [97, 98, 99], [0, 0, 0]⟩
      (by decide) (by decide)).1 2 (by decide) (by decide),
   (C7_noTab_column_maps_are_identity ⟨3, 3, [97, 98, 99], [97, 98, 99], [0, 0, 0]⟩
      (by decide) (by decide)).2 3 (by decide) (by decide)⟩

theorem sliceTo_nat {α : Type} (a : List α) (k : Nat) (h : k ≤ a.length) :
    sliceTo a (k : Int) = some (a.take k) := by
  unfold sliceTo
  rw [if_pos ⟨by omega, by omega⟩]
  simp

theorem sliceFrom_nat {α : Type} (a : List α) (k : Nat) (h : k ≤ a.length) :
    sliceFrom a (k : Int) = some (a.drop k) := by
  unfold sliceFrom
  rw [if_pos ⟨by omega, by omega⟩]
  simp

theorem sliceFrom_none {α : Type} (a : List α) (i : Int) (h : (a.length : Int) < i) :
    sliceFrom a i = none := by
  unfold sliceFrom
  rw [if_neg (by omega)]

theorem getIdx_nat {α : Type} (a : List α) (k : Nat) : getIdx a (k : Int) = a.get? k := by
  unfold getIdx
  rw [if_pos (by omega)]
  simp

theorem setIdx_nat {α : Type} (a : List α) (k : Nat) (v : α) (h : k < a.length) :
    setIdx a (k : Int) v = some (a.set k v) := by
  unfold setIdx
  rw [if_pos ⟨by omega, by omega⟩]
  simp

theorem copySlice_same_length {α : Type} (dst src : List α) (h : dst.length = src.length) :
    copySlice dst src = src := by
  unfold copySlice
  simp [h]

theorem editorUpdateRow_ok (row : erow) (h : row.size = (row.chars.length : Int)) :
    ∃ row1, editorUpdateRow row = some row1 ∧ row1.chars = row.chars ∧ row1.size = row.size ∧
      row1.hl = (expandTabs row.chars).map hlClass ∧ rowUpdated row1 := by
  refine ⟨_, editorUpdateRow_eq row (by omega), rfl, rfl, rfl, ?_⟩
  refine ⟨h, rfl, by simp, ?_⟩
  simp

theorem editorRowInsertChar_ok (row : erow) (c : Nat) (pos : Int)
    (hsize : row.size = (row.chars.length : Int)) (h0 : 0 ≤ pos) (h1 : pos ≤ row.size) :
    ∃ row1, editorRowInsertChar row pos c = some row1 ∧
      row1.chars = row.chars.take pos.toNat ++ c :: row.chars.drop pos.toNat ∧
      row1.size = row.size + 1 ∧ rowUpdated row1 := by
  obtain ⟨k, rfl⟩ := Int.eq_ofNat_of_zero_le h0
  have hk : k ≤ row.chars.length := by omega
  have hins : (if (k : Int) < 0 ∨ (k : Int) > row.size then some (row.chars ++ [c])
      else if (k : Int) = 0 then
        (makeBytes (row.size + 1)).bind fun t =>
        (setIdx t 0 c).bind fun t1 =>
        (sliceFrom t1 1).bind fun tl => some (t1.take 1 ++ copySlice tl row.chars)
      else
        (sliceTo row.chars k).bind fun a =>
        (sliceFrom row.chars k).bind fun b => some (a ++ (([] ++ [c]) ++ b)))
      = some (row.chars.take k ++ c :: row.chars.drop k) := by
    rw [if_neg (by omega)]
    by_cases hz : (k : Int) = 0
    · have hk0 : k = 0 := by omega
      subst hk0
      rw [if_pos hz]
      have hm : makeBytes (row.size + 1) = some (List.replicate (row.chars.length + 1) 0) := by
        unfold makeBytes
        rw [if_pos (by omega), hsize]
        congr 2
      have hs : setIdx (List.replicate (row.chars.length + 1) 0) 0 c
          = some (c :: List.replicate row.chars.length 0) := by
        have := setIdx_at_length [] row.chars.length c
        simpa using this
      have hf : sliceFrom (c :: List.replicate row.chars.length 0) 1
          = some (List.replicate row.chars.length 0) := by
        have := sliceFrom_nat (c :: List.replicate row.chars.length 0) 1 (by simp)
        simpa using this
      rw [hm]
      simp only [Option.bind_some, Option.some_bind, hs, hf]
      rw [copySlice_same_length _ _ (by simp)]
      simp
    · rw [if_neg hz, sliceTo_nat _ _ hk, sliceFrom_nat _ _ hk]
      simp
  have hlen : (row.chars.take k ++ c :: row.chars.drop k).length = row.chars.length + 1 := by
    simp only [List.length_append, List.length_take, List.length_cons, List.length_drop]
    omega
  obtain ⟨row1, e1, ec, es, _, hu⟩ := editorUpdateRow_ok
    { row with chars := row.chars.take k ++ c :: row.chars.drop k,
               size := ((row.chars.take k ++ c :: row.chars.drop k).length : Int) } rfl
  refine ⟨row1, ?_, ?_, ?_, hu⟩
  · unfold editorRowInsertChar
    rw [hins]
    exact e1
  · simpa using ec
  · rw [es]; simp only [hlen, hsize]; push_cast; rfl

theorem editorRowDelChar_ok (row : erow) (pos : Int)
    (hsize : row.size = (row.chars.length : Int)) (h0 : 0 ≤ pos) (h1 : pos < row.size) :
    ∃ row1, editorRowDelChar row pos = some row1 ∧
      row1.chars = row.chars.take pos.toNat ++ row.chars.drop (pos.toNat + 1) ∧
      row1.size = row.size - 1 ∧ rowUpdated row1 := by
  obtain ⟨k, rfl⟩ := Int.eq_ofNat_of_zero_le h0
  have hk : k < row.chars.length := by omega
  have hlen : (row.chars.take k ++ row.chars.drop (k + 1)).length = row.chars.length - 1 := by
    simp only [List.length_append, List.length_take, List.length_drop]
    omega
  obtain ⟨row1, e1, ec, es, _, hu⟩ := editorUpdateRow_ok
    { row with chars := row.chars.take k ++ row.chars.drop (k + 1), size := row.size - 1 }
    (by simp only [hlen, hsize]; omega)
  refine ⟨row1, ?_, by simpa using ec, by simpa using es, hu⟩
  unfold editorRowDelChar
  rw [if_neg (by omega), sliceTo_nat _ _ (by omega)]
  have := sliceFrom_nat row.chars (k + 1) (by omega)
  rw [show ((k : Int) + 1) = ((k + 1 : Nat) : Int) by push_cast; rfl, this]
  exact e1

/-- C2: for every row (with `size == len(chars)`), byte `c` and column
`0 <= at <= row.size`, `editorRowInsertChar(row, at, c)` puts `c` at index `at`
and `editorRowDelChar(row, at)` after it gives back the chars and the size
the row had before. -/
theorem C2_insert_then_delete_restores_chars (row : erow) (c : Nat) (pos : Int)
    (hsize : row.size = (row.chars.length : Int)) (h0 : 0 ≤ pos) (h1 : pos ≤ row.size) :
    ∃ row1 row2, editorRowInsertChar row pos c = some row1 ∧
      row1.chars = row.chars.take pos.toNat ++ c :: row.chars.drop pos.toNat ∧
      editorRowDelChar row1 pos = some row2 ∧
      row2.chars = row.chars ∧ row2.size = row.size := by
  obtain ⟨row1, e1, ec1, es1, hu1⟩ := editorRowInsertChar_ok row c pos hsize h0 h1
  obtain ⟨row2, e2, ec2, es2, _⟩ := editorRowDelChar_ok row1 pos hu1.1 h0 (by omega)
  refine ⟨row1, row2, e1, ec1, e2, ?_, by omega⟩
  have hk : pos.toNat ≤ row.chars.length := by omega
  rw [ec2, ec1, List.take_append_eq_append_take, List.drop_append_eq_append_drop]
  simp only [hk, List.length_take, min_eq_left, Nat.sub_self, List.take_zero, List.append_nil,
    Nat.add_sub_cancel_left, List.drop_succ_cons, List.drop_zero]
  have a1 : List.take pos.toNat (List.take pos.toNat row.chars) = List.take pos.toNat row.chars := by
    simp [List.take_take]
  have a2 : List.drop (pos.toNat + 1) (List.take pos.toNat row.chars) = [] := by
    apply List.drop_eq_nil_of_le
    simp only [List.length_take]
    omega
  rw [a1, a2, List.nil_append, List.take_append_drop]

/-- Witness of C2: the row `"ab"`, the byte `x` inserted and deleted at column 1. -/
theorem C2_insert_then_delete_restores_chars_witness :
    ∃ row1 row2, editorRowInsertChar ⟨2, 2, [97, 98], [97, 98], [0, 0]⟩ 1 120 = some row1 ∧
      row1.chars = List.take (1 : Int).toNat [97, 98] ++ 120 :: List.drop (1 : Int).toNat [97, 98] ∧
      editorRowDelChar row1 1 = some row2 ∧
      row2.chars = [97, 98] ∧ row2.size = 2 :=
  C2_insert_then_delete_restores_chars ⟨2, 2, [97, 98], [97, 98], [0, 0]⟩ 120 1
    (by decide) (by decide) (by decide)

/-- C10, at the failing input: `editorRowDelChar` on the row `"ab"` with
`at == row.size == 2` passes the guard `at > row.size` and panics on
`row.chars[at+1:]`, where the claim says it is a no-op. -/
theorem C10_delChar_at_size_panics :
    editorRowDelChar ⟨2, 2, [97, 98], [97, 98], [0, 0]⟩ 2 = none := by
  decide

/-- At `at == row.size` the slice `row.chars[at+1:]` is out of range for every
row with `size == len(chars)`. -/
theorem editorRowDelChar_at_size (row : erow) (hsize : row.size = (row.chars.length : Int)) :
    editorRowDelChar row row.size = none := by
  unfold editorRowDelChar
  rw [if_neg (by omega), hsize, sliceTo_nat _ _ (le_refl _), sliceFrom_none _ _ (by omega)]
  rfl

/-- The parts of C10 the code does meet: outside `[0, size]` the call returns the
row unchanged, and for `0 <= at < size` it removes the byte at index `at`. -/
theorem editorRowDelChar_other_cases (row : erow) (pos : Int)
    (hsize : row.size = (row.chars.length : Int)) :
    ((pos < 0 ∨ pos > row.size) → editorRowDelChar row pos = some row) ∧
    (0 ≤ pos → pos < row.size → ∃ row1, editorRowDelChar row pos = some row1 ∧
      row1.chars = row.chars.take pos.toNat ++ row.chars.drop (pos.toNat + 1) ∧
      row1.size = row.size - 1) := by
  constructor
  · intro h
    unfold editorRowDelChar
    rw [if_pos h]
  · intro h0 h1
    obtain ⟨row1, e, ec, es, _⟩ := editorRowDelChar_ok row pos hsize h0 h1
    exact ⟨row1, e, ec, es⟩

/-! ## The quit counter (C5) -/

/-- The Ctrl-Q branch of `editorProcessKeypress`. -/
theorem editorProcessKeypress_quit (save find : State → Option State) (S : State) :
    editorProcessKeypress save find S (CTRL_KEY 113)
      = if S.E.dirty = true ∧ S.quitTimes > 0 then
          some (Step.running { S with quitTimes := S.quitTimes - 1 })
        else some Step.exited := by
  have h1 : ¬ (CTRL_KEY 113 = 13) := by decide
  unfold editorProcessKeypress
  simp only [h1, if_false, if_true]

theorem pressKeys_quit_running (save find : State → Option State) :
    ∀ (n : Nat) (S : State), S.E.dirty = true → (n : Int) ≤ S.quitTimes →
    pressKeys save find S (List.replicate n (CTRL_KEY 113))
      = some (Step.running { S with quitTimes := S.quitTimes - n }) := by
  intro n
  induction n with
  | zero => intro S _ _; simp [pressKeys]
  | succ n ih =>
    intro S hd hq
    have hpos : S.quitTimes > 0 := by push_cast at hq; omega
    rw [List.replicate_succ, pressKeys, editorProcessKeypress_quit, if_pos ⟨hd, hpos⟩]
    simp only [Option.bind_some, Option.some_bind]
    rw [ih { S with quitTimes := S.quitTimes - 1 } hd (by push_cast at hq ⊢; omega)]
    simp only [Nat.cast_add, Nat.cast_one]
    congr 3
    omega

theorem pressKeys_append (save find : State → Option State) :
    ∀ (ks : List Int) (S S1 : State) (more : List Int),
    pressKeys save find S ks = some (Step.running S1) →
    pressKeys save find S (ks ++ more) = pressKeys save find S1 more := by
  intro ks
  induction ks with
  | nil =>
    intro S S1 more h
    simp only [pressKeys, Option.some.injEq, Step.running.injEq] at h
    rw [List.nil_append, h]
  | cons k ks ih =>
    intro S S1 more h
    rw [List.cons_append, pressKeys]
    rw [pressKeys] at h
    cases hstep : editorProcessKeypress save find S k with
    | none => rw [hstep] at h; simp at h
    | some r =>
      rw [hstep] at h
      cases r with
      | exited => simp at h
      | running S2 =>
        simp only [Option.bind_some, Option.some_bind] at h ⊢
        exact ih S2 S1 more h

/-- Counterexample to C5 as stated: on a dirty document with the counter at its
initial value, the third consecutive Ctrl-Q does not exit; the program is
still running, with the counter at 0. -/
theorem C5_counterexample_third_press_does_not_exit :
    pressKeys idleCollaborator idleCollaborator
        (initState { emptyEditor with dirty := true })
        [CTRL_KEY 113, CTRL_KEY 113, CTRL_KEY 113]
      = some (Step.running { initState { emptyEditor with dirty := true } with quitTimes := 0 }) := by
  decide

/-- C5 as amended: from a dirty document with the counter at `KILO_QUIT_TIMES`,
each of the first `KILO_QUIT_TIMES` consecutive Ctrl-Q presses leaves the
program running and takes one off the counter, and press number
`KILO_QUIT_TIMES + 1` exits. -/
theorem C5_quit_needs_one_more_press (save find : State → Option State) (S : State)
    (hd : S.E.dirty = true) (hq : S.quitTimes = KILO_QUIT_TIMES) :
    (∀ n : Nat, (n : Int) ≤ KILO_QUIT_TIMES →
      pressKeys save find S (List.replicate n (CTRL_KEY 113))
        = some (Step.running { S with quitTimes := KILO_QUIT_TIMES - n })) ∧
    pressKeys save find S (List.replicate (KILO_QUIT_TIMES.toNat + 1) (CTRL_KEY 113))
      = some Step.exited := by
  constructor
  · intro n hn
    rw [pressKeys_quit_running save find n S hd (by omega), hq]
  · have h3 := pressKeys_quit_running save find 3 S hd (by rw [hq]; decide)
    have hsplit : List.replicate (KILO_QUIT_TIMES.toNat + 1) (CTRL_KEY 113)
        = List.replicate 3 (CTRL_KEY 113) ++ [CTRL_KEY 113] := by decide
    rw [hsplit, pressKeys_append save find _ S _ _ h3, pressKeys, editorProcessKeypress_quit,
      if_neg (fun h => absurd h.2 (by simp only [hq]; decide))]
    rfl

/-- Witness of C5 as amended: an empty dirty document; three presses leave it
running with the counter at 0, the fourth exits. -/
theorem C5_quit_needs_one_more_press_witness :
    pressKeys idleCollaborator idleCollaborator (initState { emptyEditor with dirty := true })
        (List.replicate 3 (CTRL_KEY 113))
      = some (Step.running { initState { emptyEditor with dirty := true } with
          quitTimes := KILO_QUIT_TIMES - (3 : Nat) }) ∧
    pressKeys idleCollaborator idleCollaborator (initState { emptyEditor with dirty := true })
        (List.replicate (KILO_QUIT_TIMES.toNat + 1) (CTRL_KEY 113))
      = some Step.exited :=
  ⟨(C5_quit_needs_one_more_press idleCollaborator idleCollaborator
      (initState { emptyEditor with dirty := true }) rfl rfl).1 3 (by decide),
   (C5_quit_needs_one_more_press idleCollaborator idleCollaborator
      (initState { emptyEditor with dirty := true }) rfl rfl).2⟩

/-! ## The failing inputs of C9 and C3 -/

/-- C9, at the failing input: the one-row document `"foo"`, query `"foo"`.  The
first callback matches row 0 and overwrites its highlight with `HL_MATCH`;
it records the overlay as `savedHlLine = 0`, which the test `savedHlLine > 0`
of the next callback reads as "no overlay": after Enter row 0 still carries
`HL_MATCH` instead of its pre-search highlight.  On the two-row document
`"bar"`, `"foo"` the match is on row 1 and Enter restores it. -/
theorem C9_overlay_on_row_zero_not_restored :
    (∃ E S1 S2, loadLines emptyEditor [foo] = some E ∧
      E.rows.map (fun r => r.hl) = [[0, 0, 0]] ∧
      editorFindCallback (initState E) foo 111 = some S1 ∧
      S1.E.cy = 0 ∧ S1.savedHlLine = 0 ∧ S1.savedHl = [0, 0, 0] ∧
      S1.E.rows.map (fun r => r.hl) = [[2, 2, 2]] ∧
      editorFindCallback S1 foo 13 = some S2 ∧
      S2.E.rows.map (fun r => r.hl) = [[2, 2, 2]]) ∧
    (∃ E S1 S2, loadLines emptyEditor [bar, foo] = some E ∧
      E.rows.map (fun r => r.hl) = [[0, 0, 0], [0, 0, 0]] ∧
      editorFindCallback (initState E) foo 111 = some S1 ∧
      S1.E.cy = 1 ∧ S1.savedHlLine = 1 ∧
      S1.E.rows.map (fun r => r.hl) = [[0, 0, 0], [2, 2, 2]] ∧
      editorFindCallback S1 foo 13 = some S2 ∧
      S2.E.rows.map (fun r => r.hl) = [[0, 0, 0], [0, 0, 0]]) := by
  refine ⟨⟨_, _, _, rfl, rfl, rfl, rfl, rfl, rfl, rfl, rfl, rfl⟩,
    ⟨_, _, _, rfl, rfl, rfl, rfl, rfl, rfl, rfl, rfl⟩⟩

/-- C3, at the failing input: the file content `"abc"` (no final newline).
`ReadBytes` returns `"abc"` together with `io.EOF`, the loop condition
`err == nil` ends the loop before the line is inserted, and the document
stays empty; serializing gives `""` where the claim says `"abc\n"`.  For
`"a\nbc"` only the row `"a"` is loaded. -/
theorem C3_unterminated_last_line_is_lost :
    (∃ E, editorOpen emptyEditor [97, 98, 99] = some E ∧ E.rows = [] ∧ E.numRows = 0 ∧
      editorRowsToString E = ([], 0)) ∧
    (∃ E, editorOpen emptyEditor [97, 10, 98, 99] = some E ∧
      E.rows.map (fun r => r.chars) = [[97]] ∧
      editorRowsToString E = ([97, 10], 2)) := by
  refine ⟨⟨_, rfl, rfl, rfl, rfl⟩, ⟨_, rfl, rfl, rfl⟩⟩

/-! ## Row lists, split and merge (C1) -/

theorem getIdx_append_length {α : Type} (pre post : List α) (x : α) :
    getIdx (pre ++ x :: post) (pre.length : Int) = some x := by
  rw [getIdx_nat]
  induction pre with
  | nil => rfl
  | cons p ps ih => simpa using ih

theorem setIdx_append_length {α : Type} (pre post : List α) (x v : α) :
    setIdx (pre ++ x :: post) (pre.length : Int) v = some (pre ++ v :: post) := by
  rw [setIdx_nat _ _ _ (by simp)]; simp

theorem sliceTo_append_length {α : Type} (pre post : List α) :
    sliceTo (pre ++ post) (pre.length : Int) = some pre := by
  rw [sliceTo_nat _ _ (by simp)]; simp

theorem sliceFrom_append_length {α : Type} (pre post : List α) :
    sliceFrom (pre ++ post) (pre.length : Int) = some post := by
  rw [sliceFrom_nat _ _ (by simp)]; simp

/-- What `editorInsertRow(at, s)` does for `0 <= at <= numRows`, the rows before
`at` being `pre` and the rows from `at` on being `post`. -/
theorem editorInsertRow_ok (E : editorConfig) (pre post : List erow) (s : List Nat)
    (hn : E.numRows = (E.rows.length : Int)) (hrows : E.rows = pre ++ post) :
    ∃ r, editorInsertRow E (pre.length : Int) s
        = some { E with rows := pre ++ r :: post, numRows := E.numRows + 1, dirty := true } ∧
      r.chars = s ∧ rowUpdated r ∧ r.hl = (expandTabs s).map hlClass := by
  obtain ⟨r, er, ec, _, ehl, hu⟩ := editorUpdateRow_ok
    { size := s.length, rsize := 0, chars := s, render := [], hl := [] } rfl
  have hlenrows : E.rows.length = pre.length + post.length := by rw [hrows]; simp
  refine ⟨r, ?_, ec, hu, ehl⟩
  unfold editorInsertRow
  rw [if_neg (by omega)]
  have hbuild : (if (pre.length : Int) = 0 then
        some (({ size := s.length, rsize := 0, chars := s, render := [], hl := [] } : erow) :: E.rows)
      else if (pre.length : Int) = E.numRows then
        some (E.rows ++ [({ size := s.length, rsize := 0, chars := s, render := [], hl := [] } : erow)])
      else
        (sliceTo E.rows (pre.length : Int)).bind fun a =>
        (sliceFrom E.rows (pre.length : Int)).bind fun b =>
          some (a ++ (({ size := s.length, rsize := 0, chars := s, render := [], hl := [] } : erow) :: b)))
      = some (pre ++ ({ size := s.length, rsize := 0, chars := s, render := [], hl := [] } : erow) :: post) := by
    by_cases h0 : (pre.length : Int) = 0
    · have hp : pre = [] := List.length_eq_zero.mp (by omega)
      rw [if_pos h0, hrows, hp]; rfl
    · rw [if_neg h0]
      by_cases h1 : (pre.length : Int) = E.numRows
      · have hp : post = [] := List.length_eq_zero.mp (by omega)
        rw [if_pos h1, hrows, hp]; simp
      · rw [if_neg h1, hrows, sliceTo_append_length, sliceFrom_append_length]; rfl
  simp only []
  rw [hbuild]
  simp only [Option.bind_some, Option.some_bind]
  rw [getIdx_append_length]
  simp only [Option.bind_some, Option.some_bind]
  rw [er]
  simp only [Option.bind_some, Option.some_bind]
  rw [setIdx_append_length]
  rfl

/-- What `editorRowAppendString` does on a row with `size == len(chars)`. -/
theorem editorRowAppendString_ok (row : erow) (s : List Nat) :
    ∃ r, editorRowAppendString row s = some r ∧ r.chars = row.chars ++ s ∧ rowUpdated r := by
  obtain ⟨r, er, ec, _, _, hu⟩ := editorUpdateRow_ok
    { row with chars := row.chars ++ s, size := ((row.chars ++ s).length : Int) } rfl
  exact ⟨r, er, ec, hu⟩

/-- What `editorDelRow(at)` does for `0 <= at < numRows`. -/
theorem editorDelRow_ok (E : editorConfig) (pre post : List erow) (x : erow)
    (hn : E.numRows = (E.rows.length : Int)) (hrows : E.rows = pre ++ x :: post) :
    editorDelRow E (pre.length : Int)
      = some { E with rows := pre ++ post, numRows := E.numRows - 1, dirty := true } := by
  have hlenrows : E.rows.length = pre.length + (post.length + 1) := by rw [hrows]; simp
  unfold editorDelRow
  rw [if_neg (by omega), hrows, sliceTo_append_length]
  have h2 : sliceFrom (pre ++ x :: post) ((pre.length : Int) + 1) = some post := by
    have := sliceFrom_append_length (pre ++ [x]) post
    simpa using this
  rw [h2]
  rfl

/-- The merge branch of `editorDelChar`: the cursor at column 0 of the row after
`a`, in a document `pre ++ a :: b :: post`. -/
theorem editorDelChar_merge (E : editorConfig) (pre post : List erow) (a b : erow)
    (hn : E.numRows = (E.rows.length : Int)) (hrows : E.rows = pre ++ a :: b :: post)
    (hcy : E.cy = (pre.length : Int) + 1) (hcx : E.cx = 0) :
    ∃ ab, editorDelChar E = some { E with
        rows := pre ++ ab :: post, numRows := E.numRows - 1, dirty := true
        cx := a.size, cy := (pre.length : Int) } ∧
      ab.chars = a.chars ++ b.chars ∧ rowUpdated ab := by
  obtain ⟨ab, eab, ec, hu⟩ := editorRowAppendString_ok a b.chars
  have hlenrows : E.rows.length = pre.length + (post.length + 2) := by rw [hrows]; simp
  refine ⟨ab, ?_, ec, hu⟩
  unfold editorDelChar
  rw [if_neg (by omega), if_neg (by omega), if_neg (by omega)]
  have hprev : getIdx E.rows (E.cy - 1) = some a := by
    rw [hcy, hrows, show (pre.length : Int) + 1 - 1 = (pre.length : Int) by omega]
    exact getIdx_append_length _ _ _
  have hcur : getIdx E.rows E.cy = some b := by
    rw [hcy, hrows]
    have := getIdx_append_length (pre ++ [a]) post b
    simpa using this
  have hset : setIdx E.rows (E.cy - 1) ab = some (pre ++ ab :: b :: post) := by
    rw [hcy, hrows, show (pre.length : Int) + 1 - 1 = (pre.length : Int) by omega]
    exact setIdx_append_length _ _ _ _
  rw [hprev]
  simp only [Option.bind_some, Option.some_bind]
  rw [hcur]
  simp only [Option.bind_some, Option.some_bind]
  rw [eab]
  simp only [Option.bind_some, Option.some_bind]
  rw [hset]
  simp only [Option.bind_some, Option.some_bind]
  have hdel := editorDelRow_ok
    { E with cx := a.size, rows := pre ++ ab :: b :: post, dirty := true } (pre ++ [ab]) post b
    (by simp only [List.length_append, List.length_cons]; push_cast; omega) (by simp)
  have hl : ((pre ++ [ab]).length : Int) = E.cy := by
    rw [hcy]; simp
  rw [hl] at hdel
  rw [hdel]
  simp only [Option.bind_some, Option.some_bind, List.append_assoc, List.singleton_append]
  congr 2
  omega

/-- A list with an element at index `k` splits around it. -/
theorem split_at_getIdx {α : Type} (l : List α) (i : Int) (x : α) (h : getIdx l i = some x) :
    ∃ pre post, l = pre ++ x :: post ∧ (pre.length : Int) = i := by
  unfold getIdx at h
  by_cases h0 : 0 ≤ i
  · rw [if_pos h0] at h
    obtain ⟨k, rfl⟩ := Int.eq_ofNat_of_zero_le h0
    simp only [Int.toNat_ofNat] at h
    have hk : k < l.length := by
      rw [List.get?_eq_some] at h
      exact h.1
    refine ⟨l.take k, l.drop (k + 1), ?_, ?_⟩
    · have hx : l[k] = x := by
        rw [List.get?_eq_some] at h
        obtain ⟨_, h2⟩ := h
        simpa using h2
      rw [← hx, ← List.drop_eq_getElem_cons hk, List.take_append_drop]
    · simp only [List.length_take]
      omega
  · rw [if_neg h0] at h
    exact absurd h (by simp)

/-- What `editorInsertNewLine` does with the cursor on the row `row` between `pre`
and `post`, at a column `0 <= cx <= row.size`. -/
theorem editorInsertNewLine_ok (E : editorConfig) (pre post : List erow) (row : erow)
    (hn : E.numRows = (E.rows.length : Int)) (hrows : E.rows = pre ++ row :: post)
    (hcy : E.cy = (pre.length : Int)) (hsize : row.size = (row.chars.length : Int))
    (hcx0 : 0 ≤ E.cx) (hcx1 : E.cx ≤ row.size) :
    ∃ a b, editorInsertNewLine E = some { E with
        rows := pre ++ a :: b :: post, numRows := E.numRows + 1, dirty := true
        cy := E.cy + 1, cx := 0 } ∧
      a.chars = row.chars.take E.cx.toNat ∧ b.chars = row.chars.drop E.cx.toNat ∧
      a.size = (a.chars.length : Int) ∧ b.size = (b.chars.length : Int) := by
  by_cases hz : E.cx = 0
  · obtain ⟨a, ea, eca, hua, _⟩ := editorInsertRow_ok E pre (row :: post) [] hn hrows
    refine ⟨a, row, ?_, ?_, ?_, hua.1, ?_⟩
    · rw [← hcy] at ea
      unfold editorInsertNewLine
      rw [if_pos hz, ea]
      rfl
    · rw [eca, hz]; rfl
    · rw [hz]; rfl
    · exact hsize
  · obtain ⟨k, hk⟩ := Int.eq_ofNat_of_zero_le hcx0
    have hkl : k ≤ row.chars.length := by omega
    obtain ⟨b, eb, ecb, hub, _⟩ := editorInsertRow_ok E (pre ++ [row]) post (row.chars.drop k) hn
      (by rw [hrows]; simp)
    obtain ⟨a, ea, eca, _, _, hua⟩ := editorUpdateRow_ok
      { row with chars := row.chars.take k, size := ((row.chars.take k).length : Int) } rfl
    have hl : ((pre ++ [row]).length : Int) = E.cy + 1 := by rw [hcy]; simp
    rw [hl] at eb
    refine ⟨a, b, ?_, ?_, ?_, hua.1, hub.1⟩
    · unfold editorInsertNewLine
      rw [if_neg hz]
      have hget : getIdx E.rows E.cy = some row := by
        rw [hcy, hrows]; exact getIdx_append_length _ _ _
      rw [hget]
      simp only [Option.bind_some, Option.some_bind]
      rw [hk, sliceFrom_nat _ _ hkl]
      simp only [Option.bind_some, Option.some_bind]
      rw [eb]
      simp only [Option.bind_some, Option.some_bind, List.append_assoc, List.singleton_append]
      have hget1 : getIdx (pre ++ row :: b :: post) E.cy = some row := by
        rw [hcy]; exact getIdx_append_length _ _ _
      rw [hget1]
      simp only [Option.bind_some, Option.some_bind]
      rw [hk, sliceTo_nat _ _ hkl]
      simp only [Option.bind_some, Option.some_bind]
      rw [ea]
      simp only [Option.bind_some, Option.some_bind]
      rw [hcy, setIdx_append_length]
      rfl
    · rw [eca, hk]; rfl
    · rw [ecb, hk]; rfl

/-- C1: for every editor state (with `numRows == len(rows)`) whose cursor is on an
existing row (`E.rows[cy]` is `row`, so `0 <= cy < numRows`; `size == len(chars)`)
at a column `0 <= cx <= row.size`, `editorInsertNewLine` splits that row at `cx` and
`editorDelChar` after it merges the two halves back: the document has the
same number of rows, every row has the chars it had before the split, and
the cursor is back at `(cx, cy)`.  (In Go the two halves share the backing
array of the split row; the merging `append` copies `chars[cx:]` onto itself,
so the values are the ones computed here.) -/
theorem C1_split_then_merge_restores_document (E : editorConfig) (row : erow)
    (hn : E.numRows = (E.rows.length : Int)) (hrow : getIdx E.rows E.cy = some row)
    (hsize : row.size = (row.chars.length : Int))
    (hcx0 : 0 ≤ E.cx) (hcx1 : E.cx ≤ row.size) :
    ∃ E1 E2, editorInsertNewLine E = some E1 ∧
      E1.numRows = E.numRows + 1 ∧ E1.cy = E.cy + 1 ∧ E1.cx = 0 ∧
      E1.rows.map (fun r => r.chars)
        = (E.rows.take E.cy.toNat).map (fun r => r.chars)
          ++ row.chars.take E.cx.toNat :: row.chars.drop E.cx.toNat
          :: (E.rows.drop (E.cy.toNat + 1)).map (fun r => r.chars) ∧
      editorDelChar E1 = some E2 ∧
      E2.numRows = E.numRows ∧ E2.rows.length = E.rows.length ∧
      E2.rows.map (fun r => r.chars) = E.rows.map (fun r => r.chars) ∧
      E2.cx = E.cx ∧ E2.cy = E.cy := by
  obtain ⟨pre, post, hrows, hpre⟩ := split_at_getIdx E.rows E.cy row hrow
  obtain ⟨a, b, e1, eca, ecb, hsa, hsb⟩ :=
    editorInsertNewLine_ok E pre post row hn hrows hpre.symm hsize hcx0 hcx1
  obtain ⟨ab, e2, ecab, _⟩ := editorDelChar_merge
    { E with rows := pre ++ a :: b :: post, numRows := E.numRows + 1, dirty := true
             cy := E.cy + 1, cx := 0 } pre post a b
    (by simp only [List.length_append, List.length_cons, hn, hrows]; push_cast; omega) rfl
    (by simp only [hpre]) rfl
  have hk : E.cx.toNat ≤ row.chars.length := by omega
  have htake : E.rows.take E.cy.toNat = pre := by
    rw [hrows, ← hpre]; simp
  have hdrop : E.rows.drop (E.cy.toNat + 1) = post := by
    rw [hrows, ← hpre]
    simp
  refine ⟨_, _, e1, rfl, rfl, rfl, ?_, e2, ?_, ?_, ?_, ?_, ?_⟩
  · simp only [List.map_append, List.map_cons, htake, hdrop, eca, ecb]
  · simp only []; omega
  · simp only [hrows, List.length_append, List.length_cons]
  · simp only [hrows, List.map_append, List.map_cons, ecab, eca, ecb, List.take_append_drop]
  · simp only [hsa, eca, List.length_take]
    omega
  · simp only [hpre]

/-- Witness of C1: the one-row document `"abcd"` with the cursor at column 2. -/
theorem C1_split_then_merge_restores_document_witness :
    ∃ E1 E2, editorInsertNewLine
        { cx := 2, cy := 0, rx := 0, rowoff := 0, coloff := 0, screenRows := 22, screenCols := 80,
          numRows := 1, rows := [⟨4, 4, [97, 98, 99, 100], [97, 98, 99, 100], [0, 0, 0, 0]⟩],
          dirty := false } = some E1 ∧
      E1.numRows = 1 + 1 ∧ E1.cy = 0 + 1 ∧ E1.cx = 0 ∧
      E1.rows.map (fun r => r.chars)
        = (List.take (0 : Int).toNat
            [(⟨4, 4, [97, 98, 99, 100], [97, 98, 99, 100], [0, 0, 0, 0]⟩ : erow)]).map
              (fun r => r.chars)
          ++ List.take (2 : Int).toNat [97, 98, 99, 100]
          :: List.drop (2 : Int).toNat [97, 98, 99, 100]
          :: (List.drop ((0 : Int).toNat + 1)
              [(⟨4, 4, [97, 98, 99, 100], [97, 98, 99, 100], [0, 0, 0, 0]⟩ : erow)]).map
                (fun r => r.chars) ∧
      editorDelChar E1 = some E2 ∧
      E2.numRows = 1 ∧ E2.rows.length = 1 ∧
      E2.rows.map (fun r => r.chars) = [[97, 98, 99, 100]] ∧
      E2.cx = 2 ∧ E2.cy = 0 :=
  C1_split_then_merge_restores_document
    { cx := 2, cy := 0, rx := 0, rowoff := 0, coloff := 0, screenRows := 22, screenCols := 80,
      numRows := 1, rows := [⟨4, 4, [97, 98, 99, 100], [97, 98, 99, 100], [0, 0, 0, 0]⟩],
      dirty := false }
    ⟨4, 4, [97, 98, 99, 100], [97, 98, 99, 100], [0, 0, 0, 0]⟩
    (by decide) (by decide) (by decide) (by decide) (by decide)

/-! ## Search: `bytes.Index` -/

theorem firstOccurrence_nil (sep : List Nat) :
    firstOccurrence [] sep = if sep = [] then some 0 else none := by
  cases sep with
  | nil => rfl
  | cons b bs => rfl

theorem firstOccurrence_cons (c : Nat) (cs sep : List Nat) :
    firstOccurrence (c :: cs) sep
      = if sep.isPrefixOf (c :: cs) then some 0
        else (firstOccurrence cs sep).map (fun x => x + 1) := by
  unfold firstOccurrence
  rw [List.length_cons, List.range_succ_eq_map, List.find?_cons]
  by_cases h : sep.isPrefixOf (c :: cs) = true
  · simp [h]
  · simp only [List.drop_zero, h, Bool.false_eq_true, if_false]
    rw [List.find?_map]
    rfl

theorem bytesIndexFrom_eq : ∀ (s sep : List Nat) (i : Nat),
    bytesIndexFrom sep s i
      = match firstOccurrence s sep with
        | some x => ((i + x : Nat) : Int)
        | none => -1 := by
  intro s
  induction s with
  | nil =>
    intro sep i
    rw [bytesIndexFrom, firstOccurrence_nil]
    by_cases h : sep = [] <;> simp [h]
  | cons c cs ih =>
    intro sep i
    rw [bytesIndexFrom, firstOccurrence_cons]
    by_cases h : sep.isPrefixOf (c :: cs) = true
    · simp [h]
    · simp only [h, Bool.false_eq_true, if_false]
      rw [ih sep (i + 1)]
      cases firstOccurrence cs sep with
      | none => rfl
      | some x => simp only [Option.map_some']; congr 1; omega

theorem bytesIndex_eq (s sep : List Nat) :
    bytesIndex s sep
      = match firstOccurrence s sep with
        | some x => (x : Int)
        | none => -1 := by
  unfold bytesIndex
  rw [bytesIndexFrom_eq]
  cases firstOccurrence s sep with
  | none => rfl
  | some x => simp

theorem firstOccurrence_some_prefix (s sep : List Nat) (x : Nat)
    (h : firstOccurrence s sep = some x) : sep <+: s.drop x ∧ x ≤ s.length := by
  unfold firstOccurrence at h
  have h1 := List.find?_some h
  have h2 := List.mem_of_find?_eq_some h
  rw [List.mem_range] at h2
  exact ⟨List.isPrefixOf_iff_prefix.mp h1, by omega⟩

theorem firstOccurrence_isSome_iff (s sep : List Nat) :
    (firstOccurrence s sep).isSome = true ↔ sep <:+: s := by
  unfold firstOccurrence
  rw [List.find?_isSome]
  constructor
  · rintro ⟨x, _, hx⟩
    obtain ⟨t, ht⟩ := List.isPrefixOf_iff_prefix.mp hx
    exact ⟨s.take x, t, by rw [List.append_assoc, ht, List.take_append_drop]⟩
  · rintro ⟨a, t, h⟩
    refine ⟨a.length, ?_, ?_⟩
    · rw [List.mem_range, ← h]
      simp only [List.length_append]
      omega
    · rw [List.isPrefixOf_iff_prefix, ← h, List.append_assoc, List.drop_left]
      exact List.prefix_append _ _

/-! ## Search: the loop of `editorFindCallback` -/

theorem prefix_of_zeros (q : List Nat) (m : Nat) (hq : ∀ b ∈ q, b ≠ 0)
    (h : q <+: List.replicate m 0) : q = [] := by
  cases q with
  | nil => rfl
  | cons b bs =>
    have hb : b ∈ List.replicate m 0 := h.subset (List.mem_cons_self _ _)
    exact absurd (List.eq_of_mem_replicate hb) (hq b (List.mem_cons_self _ _))

/-- A query without zero bytes that occurs in `R ++ 0...0` at offset `x` lies
inside `R` (or is empty). -/
theorem match_inside (R qry : List Nat) (k x : Nat) (hq : ∀ b ∈ qry, b ≠ 0)
    (h : qry <+: (R ++ List.replicate k 0).drop x) :
    qry = [] ∨ x + qry.length ≤ R.length := by
  by_cases hx : x ≤ R.length
  · rw [List.drop_append_of_le_length hx] at h
    rcases List.prefix_or_prefix_of_prefix h (List.prefix_append (R.drop x) _) with h1 | h1
    · right
      have := h1.length_le
      simp only [List.length_drop] at this
      omega
    · obtain ⟨q2, hq2⟩ := h1
      rw [← hq2] at h
      have h3 : q2 <+: List.replicate k 0 := (List.prefix_append_right_inj _).mp h
      have h4 : q2 = [] := prefix_of_zeros q2 k
        (fun b hb => hq b (by rw [← hq2]; exact List.mem_append_right _ hb)) h3
      right
      rw [← hq2, h4]
      simp only [List.append_nil, List.length_drop]
      omega
  · left
    have hd : (R ++ List.replicate k 0).drop x = List.replicate (k - (x - R.length)) 0 := by
      rw [List.drop_append_eq_append_drop, List.drop_eq_nil_of_le (by omega)]
      simp
    rw [hd] at h
    exact prefix_of_zeros qry _ hq h

theorem markLoop_ok : ∀ (n x : Nat) (hl : List Nat), x + n ≤ hl.length →
    ∃ hl1, markLoop n (x : Int) hl = some hl1 ∧ hl1.length = hl.length := by
  intro n
  induction n with
  | zero => intro x hl _; exact ⟨hl, rfl, rfl⟩
  | succ n ih =>
    intro x hl h
    obtain ⟨hl1, e1, l1⟩ := ih (x + 1) (hl.set x HL_MATCH) (by simp only [List.length_set]; omega)
    refine ⟨hl1, ?_, by rw [l1, List.length_set]⟩
    rw [markLoop, setIdx_nat _ _ _ (by omega)]
    simp only [Option.bind_some, Option.some_bind]
    rw [show ((x : Int) + 1) = ((x + 1 : Nat) : Int) by push_cast; rfl]
    exact e1

theorem rxToCxLoop_total : ∀ (rest : List Nat) (size rx : Int) (cx cur : Nat),
    size = (cx : Int) + rest.length → ∃ r, rxToCxLoop size rx rest cx cur = some r := by
  intro rest
  induction rest with
  | nil =>
    intro size rx cx cur hs
    simp only [List.length_nil] at hs
    refine ⟨cx, ?_⟩
    rw [rxToCxLoop, if_neg (by omega)]
  | cons c cs ih =>
    intro size rx cx cur hs
    simp only [List.length_cons] at hs
    rw [rxToCxLoop, if_pos (by omega)]
    simp only []
    generalize (if c = TAB then cur + (KILO_TAB_STOP - 1 - cur % KILO_TAB_STOP) else cur) = cur1
    by_cases hgt : ((cur1 + 1 : Nat) : Int) > rx
    · exact ⟨cx, by rw [if_pos hgt]⟩
    · rw [if_neg hgt]
      exact ih size rx (cx + 1) _ (by push_cast; omega)

theorem editorRowRxToCx_total (row : erow) (rx : Int)
    (hsize : row.size = (row.chars.length : Int)) : ∃ cx, editorRowRxToCx row rx = some cx := by
  obtain ⟨r, hr⟩ := rxToCxLoop_total row.chars row.size rx 0 0 (by simpa using hsize)
  exact ⟨(r : Int), by unfold editorRowRxToCx; rw [hr]; rfl⟩

theorem visitOrder_succ (N start n : Nat) :
    visitOrder N start (n + 1) = (start % N) :: visitOrder N (start % N + 1) n := by
  unfold visitOrder
  rw [List.range_succ_eq_map, List.map_cons, List.map_map]
  simp only [Nat.add_zero, List.cons.injEq, true_and]
  apply List.map_congr_left
  intro i _
  simp only [Function.comp]
  rw [Nat.add_assoc, Nat.add_comm 1 i, ← Nat.add_assoc, Nat.add_mod (start % N + i),
    Nat.add_mod (start % N), Nat.mod_mod, ← Nat.add_mod start, ← Nat.add_mod, Nat.add_assoc]

theorem rowHasQuery_of_get (rows : List erow) (qry : List Nat) (r : Nat) (row : erow)
    (h : rows.get? r = some row) :
    rowHasQuery rows qry r = (firstOccurrence row.render qry).isSome := by
  unfold rowHasQuery
  rw [h]
  simp only []
  rw [Bool.eq_iff_iff, decide_eq_true_iff, firstOccurrence_isSome_iff]

/-- The search loop of `editorFindCallback` going forward from row `c + 1`, on a
document whose rows are as `editorUpdateRow` leaves them and a query without
zero bytes: it stops at the first visited row whose render contains the query
and installs the match there, or leaves the state alone when there is none. -/
theorem findLoop_spec (qry : List Nat) (hq : ∀ b ∈ qry, b ≠ 0) :
    ∀ (n : Nat) (S : State) (c : Int), S.direction = 1 →
    S.E.numRows = (S.E.rows.length : Int) → 0 < S.E.rows.length →
    (∀ row ∈ S.E.rows, rowUpdated row) → -1 ≤ c → c < S.E.numRows →
    ((visitOrder S.E.rows.length (c + 1).toNat n).find? (rowHasQuery S.E.rows qry) = none →
      findLoop qry n S c = some S) ∧
    (∀ r, (visitOrder S.E.rows.length (c + 1).toNat n).find? (rowHasQuery S.E.rows qry) = some r →
      ∃ row x cxv hl1, S.E.rows.get? r = some row ∧ firstOccurrence row.render qry = some x ∧
        editorRowRxToCx row x = some cxv ∧ markLoop qry.length x row.hl = some hl1 ∧
        hl1.length = row.hl.length ∧
        findLoop qry n S c = some { S with
          lastMatch := (r : Int)
          E := { S.E with cy := (r : Int), cx := cxv, rowoff := S.E.numRows,
                          rows := S.E.rows.set r { row with hl := hl1 } }
          savedHlLine := (r : Int)
          savedHl := row.hl }) := by
  intro n
  induction n with
  | zero =>
    intro S c _ _ _ _ _ _
    refine ⟨fun _ => rfl, fun r hr => ?_⟩
    simp [visitOrder] at hr
  | succ n ih =>
    intro S c hdir hn hpos hrows hc0 hc1
    obtain ⟨s, hs⟩ := Int.eq_ofNat_of_zero_le (show 0 ≤ c + 1 by omega)
    have hsN : s ≤ S.E.rows.length := by omega
    have hmodlt : s % S.E.rows.length < S.E.rows.length := Nat.mod_lt _ hpos
    have hcur2 : (if c + S.direction = -1 then S.E.numRows - 1
        else if c + S.direction = S.E.numRows then 0 else c + S.direction)
        = ((s % S.E.rows.length : Nat) : Int) := by
      rw [hdir, if_neg (by omega)]
      by_cases he : c + 1 = S.E.numRows
      · rw [if_pos he]
        have : s = S.E.rows.length := by omega
        rw [this, Nat.mod_self]; rfl
      · rw [if_neg he]
        have : s < S.E.rows.length := by omega
        rw [Nat.mod_eq_of_lt this]; exact hs
    obtain ⟨row, hrow⟩ : ∃ row, S.E.rows.get? (s % S.E.rows.length) = some row :=
      ⟨_, List.get?_eq_get hmodlt⟩
    have hmem : row ∈ S.E.rows := List.get?_mem hrow
    have hupd := hrows row hmem
    have hvis : visitOrder S.E.rows.length (c + 1).toNat (n + 1)
        = (s % S.E.rows.length)
          :: visitOrder S.E.rows.length (((s % S.E.rows.length : Nat) : Int) + 1).toNat n := by
      rw [hs, Int.toNat_ofNat, visitOrder_succ]
      congr 2
    have hunfold : findLoop qry (n + 1) S c
        = (getIdx S.E.rows ((s % S.E.rows.length : Nat) : Int)).bind fun row =>
            if bytesIndex row.render qry > -1 then
              (editorRowRxToCx row (bytesIndex row.render qry)).bind fun cx1 =>
              (makeBytes row.rsize).bind fun fresh =>
              (markLoop qry.length (bytesIndex row.render qry) row.hl).bind fun hl1 =>
              (setIdx S.E.rows ((s % S.E.rows.length : Nat) : Int) { row with hl := hl1 }).bind
                fun rows1 =>
              some { S with
                lastMatch := ((s % S.E.rows.length : Nat) : Int)
                E := { S.E with cy := ((s % S.E.rows.length : Nat) : Int), cx := cx1,
                                rowoff := S.E.numRows, rows := rows1 }
                savedHlLine := ((s % S.E.rows.length : Nat) : Int)
                savedHl := copySlice fresh row.hl }
            else findLoop qry n S ((s % S.E.rows.length : Nat) : Int) := by
      rw [findLoop]
      simp only []
      rw [hcur2]
    have hp := rowHasQuery_of_get _ qry _ _ hrow
    rw [hunfold, getIdx_nat, hrow, hvis]
    simp only [Option.bind_some, Option.some_bind]
    rw [bytesIndex_eq]
    cases hfo : firstOccurrence row.render qry with
    | none =>
      rw [hfo] at hp
      rw [List.find?_cons_of_neg _ (by rw [hp]; simp)]
      simp only []
      rw [if_neg (by decide)]
      exact ih S _ hdir hn hpos hrows (by omega) (by omega)
    | some x =>
      rw [hfo] at hp
      rw [List.find?_cons_of_pos _ (by rw [hp]; simp)]
      simp only []
      rw [if_pos (Int.lt_of_lt_of_le (by decide : (-1 : Int) < 0) (Int.ofNat_zero_le x))]
      refine ⟨fun h => by simp at h, fun r hr => ?_⟩
      simp only [Option.some.injEq] at hr
      subst hr
      obtain ⟨hpre, hxle⟩ := firstOccurrence_some_prefix _ _ _ hfo
      obtain ⟨hsz, hrs, hhl, hren⟩ := hupd
      obtain ⟨cxv, hcxv⟩ := editorRowRxToCx_total row (x : Int) hsz
      have hmark : ∃ hl1, markLoop qry.length (x : Int) row.hl = some hl1 ∧
          hl1.length = row.hl.length := by
        rw [hren] at hpre
        rcases match_inside _ _ _ _ hq hpre with h0 | h1
        · rw [h0]; exact ⟨row.hl, rfl, rfl⟩
        · exact markLoop_ok _ _ _ (by omega)
      obtain ⟨hl1, hm, hml⟩ := hmark
      refine ⟨row, x, cxv, hl1, hrow, hfo, hcxv, hm, hml, ?_⟩
      have hmk : makeBytes row.rsize = some (List.replicate row.hl.length 0) := by
        unfold makeBytes
        rw [if_pos (by omega), hrs, hhl]
        rfl
      rw [hcxv]
      simp only [Option.bind_some, Option.some_bind]
      rw [hmk]
      simp only [Option.bind_some, Option.some_bind]
      rw [hm]
      simp only [Option.bind_some, Option.some_bind]
      rw [setIdx_nat _ _ _ hmodlt]
      simp only [Option.bind_some, Option.some_bind]
      rw [copySlice_same_length _ _ (by simp)]

/-! ## Search: the overlay restore and the forward search -/

theorem rowUpdated_of_core (a b : erow) (h : rowCore a = rowCore b) (hb : rowUpdated b) :
    rowUpdated a := by
  simp only [rowCore, Prod.mk.injEq] at h
  obtain ⟨h1, h2, h3, h4, h5⟩ := h
  obtain ⟨b1, b2, b3, b4⟩ := hb
  unfold rowUpdated
  rw [h1, h2, h3, h4, h5]
  exact ⟨b1, b2, b3, b4⟩

theorem map_set_same {α β : Type} (f : α → β) : ∀ (l : List α) (r : Nat) (a b : α),
    l.get? r = some a → f b = f a → (l.set r b).map f = l.map f := by
  intro l
  induction l with
  | nil => intro r a b h _; simp at h
  | cons x xs ih =>
    intro r a b h hf
    cases r with
    | zero =>
      simp only [List.get?_cons_zero, Option.some.injEq] at h
      simp only [List.set_cons_zero, List.map_cons, hf, h]
    | succ r =>
      simp only [List.get?_cons_succ] at h
      simp only [List.set_cons_succ, List.map_cons, ih r a b h hf]

theorem get_of_map_core (rows1 rows : List erow) (h : rows1.map rowCore = rows.map rowCore)
    (r : Nat) (row1 : erow) (h1 : rows1.get? r = some row1) :
    ∃ row, rows.get? r = some row ∧ rowCore row1 = rowCore row := by
  have h2 : (rows1.map rowCore).get? r = some (rowCore row1) := by
    rw [List.get?_eq_getElem?, List.getElem?_map, ← List.get?_eq_getElem?, h1]; rfl
  rw [h, List.get?_eq_getElem?, List.getElem?_map, ← List.get?_eq_getElem?] at h2
  cases hr : rows.get? r with
  | none => rw [hr] at h2; simp at h2
  | some row =>
    rw [hr] at h2
    simp only [Option.map_some', Option.some.injEq] at h2
    exact ⟨row, rfl, h2.symm⟩

theorem rowHasQuery_of_core (rows1 rows : List erow) (h : rows1.map rowCore = rows.map rowCore)
    (qry : List Nat) : rowHasQuery rows1 qry = rowHasQuery rows qry := by
  funext r
  unfold rowHasQuery
  cases h1 : rows1.get? r with
  | none =>
    have hlen : rows1.length = rows.length := by
      have := congrArg List.length h
      simpa using this
    have : rows.get? r = none := by
      rw [List.get?_eq_none] at h1 ⊢
      omega
    rw [this]
  | some row1 =>
    obtain ⟨row, hr, hc⟩ := get_of_map_core rows1 rows h r row1 h1
    rw [hr]
    simp only [rowCore, Prod.mk.injEq] at hc
    simp only [hc.2.2.2.1]

theorem firstMatchCyclic_of_core (rows1 rows : List erow)
    (h : rows1.map rowCore = rows.map rowCore) (qry : List Nat) (start : Nat) :
    firstMatchCyclic rows1 qry start = firstMatchCyclic rows qry start := by
  have hlen : rows1.length = rows.length := by
    have := congrArg List.length h
    simpa using this
  unfold firstMatchCyclic
  rw [rowHasQuery_of_core rows1 rows h, hlen]

theorem copySlice_length {α : Type} (dst src : List α) :
    (copySlice dst src).length = dst.length := by
  unfold copySlice
  simp only [List.length_append, List.length_take, List.length_drop]
  omega

theorem rowsUpdated_of_core (rows1 rows : List erow) (h : rows1.map rowCore = rows.map rowCore)
    (hu : ∀ row ∈ rows, rowUpdated row) : ∀ row ∈ rows1, rowUpdated row := by
  intro row1 hm
  obtain ⟨r, hr⟩ := List.get?_of_mem hm
  obtain ⟨row, h2, hc⟩ := get_of_map_core rows1 rows h r row1 hr
  exact rowUpdated_of_core row1 row hc (hu row (List.get?_mem h2))

theorem length_of_core (rows1 rows : List erow) (h : rows1.map rowCore = rows.map rowCore) :
    rows1.length = rows.length := by
  have := congrArg List.length h
  simpa using this

/-- The overlay restore of `editorFindCallback` on a ready state: it returns, and
changes nothing but classes in `hl` and the overlay variables. -/
theorem restoreOverlay_ok (S : State) (h : findReady S) :
    ∃ S1, restoreOverlay S = some S1 ∧ S1.E.rows.map rowCore = S.E.rows.map rowCore ∧
      S1.E.numRows = S.E.numRows ∧ S1.lastMatch = S.lastMatch ∧ findReady S1 := by
  obtain ⟨hn, hpos, hu, hov⟩ := h
  by_cases hs : S.savedHlLine > 0
  · obtain ⟨k, hk⟩ := Int.eq_ofNat_of_zero_le (show 0 ≤ S.savedHlLine by omega)
    have hkl : k < S.E.rows.length := by omega
    obtain ⟨row, hrow⟩ : ∃ row, S.E.rows.get? k = some row := ⟨_, List.get?_eq_get hkl⟩
    have hcore : (S.E.rows.set k { row with hl := copySlice row.hl S.savedHl }).map rowCore
        = S.E.rows.map rowCore :=
      map_set_same rowCore _ _ row _ hrow (by simp only [rowCore, copySlice_length])
    refine ⟨{ S with
        E := { S.E with rows := S.E.rows.set k { row with hl := copySlice row.hl S.savedHl } }
        savedHlLine := 0, savedHl := [] }, ?_, hcore, rfl, rfl, ?_⟩
    · unfold restoreOverlay
      rw [if_pos hs, hk, getIdx_nat, hrow]
      simp only [Option.bind_some, Option.some_bind]
      rw [setIdx_nat _ _ _ hkl]
      rfl
    · refine ⟨?_, ?_, rowsUpdated_of_core _ _ hcore hu, ?_⟩
      · simp only [List.length_set]; exact hn
      · simp only [List.length_set]; exact hpos
      · simp only []; omega
  · refine ⟨S, ?_, rfl, rfl, rfl, hn, hpos, hu, hov⟩
    unfold restoreOverlay
    rw [if_neg hs]

/-- The callback after a key that neither ends the search nor turns it backward:
the overlay restore, then the loop forward from `lastMatch`. -/
theorem editorFindCallback_forward (S : State) (qry : List Nat) (key : Int)
    (hkey : key ≠ 13 ∧ key ≠ ESC)
    (hfwd : S.lastMatch = -1 ∨ key = ARROW_RIGHT ∨ key = ARROW_DOWN) :
    editorFindCallback S qry key
      = (restoreOverlay S).bind fun S1 =>
          findLoop qry S1.E.rows.length { S1 with direction := 1 } S1.lastMatch := by
  unfold editorFindCallback
  cases hr : restoreOverlay S with
  | none => rfl
  | some S1 =>
    have hlm : S1.lastMatch = S.lastMatch := by
      unfold restoreOverlay at hr
      by_cases hs : S.savedHlLine > 0
      · rw [if_pos hs] at hr
        cases hg : getIdx S.E.rows S.savedHlLine with
        | none => rw [hg] at hr; simp at hr
        | some row =>
          rw [hg] at hr
          simp only [Option.bind_some, Option.some_bind] at hr
          cases hset : setIdx S.E.rows S.savedHlLine { row with hl := copySlice row.hl S.savedHl } with
          | none => rw [hset] at hr; simp at hr
          | some rows1 =>
            rw [hset] at hr
            simp only [Option.bind_some, Option.some_bind, Option.some.injEq] at hr
            rw [← hr]
      · rw [if_neg hs] at hr
        simp only [Option.some.injEq] at hr
        rw [hr]
    simp only [Option.bind_some, Option.some_bind]
    rw [if_neg (by intro h; rcases h with h | h; exact hkey.1 h; exact hkey.2 h)]
    by_cases hk : key = ARROW_RIGHT ∨ key = ARROW_DOWN
    · simp only [if_pos hk]
      by_cases hm : S1.lastMatch = -1
      · simp only [hm, if_true]
      · simp only [hm, if_false]
    · have hm : S1.lastMatch = -1 := by
        rcases hfwd with h | h
        · rw [hlm, h]
        · exact absurd h hk
      simp only [if_neg hk]
      by_cases hk2 : key = ARROW_LEFT ∨ key = ARROW_UP
      · simp only [if_pos hk2, hm, if_true]
      · simp only [if_neg hk2, if_true]
        cases S1
        simp only [] at hm
        subst hm
        rfl

theorem renders_of_core (rows1 rows : List erow) (h : rows1.map rowCore = rows.map rowCore) :
    rows1.map (fun row => row.render) = rows.map (fun row => row.render) := by
  have := congrArg (List.map (fun c : Int × Int × List Nat × List Nat × Nat => c.2.2.2.1)) h
  simpa [List.map_map, Function.comp, rowCore] using this

/-- The forward search of `editorFindCallback` from `lastMatch`: when some row
contains the query, the first one in cyclic order after `lastMatch` is selected;
when none does, the call returns what the overlay restore left, with
`direction = 1`. -/
theorem editorFindCallback_selects (S : State) (qry : List Nat) (key : Int)
    (hready : findReady S) (hq : ∀ b ∈ qry, b ≠ 0) (hkey : key ≠ 13 ∧ key ≠ ESC)
    (hfwd : S.lastMatch = -1 ∨ key = ARROW_RIGHT ∨ key = ARROW_DOWN)
    (hlm0 : -1 ≤ S.lastMatch) (hlm1 : S.lastMatch < S.E.numRows) :
    (firstMatchCyclic S.E.rows qry (S.lastMatch + 1).toNat = none →
      ∃ S1, restoreOverlay S = some S1 ∧
        editorFindCallback S qry key = some { S1 with direction := 1 }) ∧
    (∀ r, firstMatchCyclic S.E.rows qry (S.lastMatch + 1).toNat = some r →
      selects S qry key r) := by
  obtain ⟨S1, hr, hcore, hnum, hlm, hready1⟩ := restoreOverlay_ok S hready
  obtain ⟨hn1, hpos1, hu1, hov1⟩ := hready1
  have hcb := editorFindCallback_forward S qry key hkey hfwd
  rw [hr] at hcb
  simp only [Option.bind_some, Option.some_bind] at hcb
  have hspec := findLoop_spec qry hq S1.E.rows.length { S1 with direction := 1 } S1.lastMatch
    rfl hn1 hpos1 hu1 (by omega) (by show S1.lastMatch < S1.E.numRows; omega)
  have hfm : firstMatchCyclic S.E.rows qry (S.lastMatch + 1).toNat
      = (visitOrder S1.E.rows.length (S1.lastMatch + 1).toNat S1.E.rows.length).find?
          (rowHasQuery S1.E.rows qry) := by
    rw [← firstMatchCyclic_of_core _ _ hcore, hlm]; rfl
  rw [hfm]
  refine ⟨fun hnone => ⟨S1, hr, ?_⟩, fun r hsome => ?_⟩
  · rw [hcb]; exact hspec.1 hnone
  · obtain ⟨row1, x, cxv, hl1, hrow1, hfo, hcx, _, hml, hloop⟩ := hspec.2 r hsome
    obtain ⟨row, hrow, hc⟩ := get_of_map_core _ _ hcore r row1 hrow1
    have hc' := hc
    simp only [rowCore, Prod.mk.injEq] at hc'
    obtain ⟨c1, _, c3, c4, _⟩ := hc'
    have hrl : r < S1.E.rows.length := by
      rw [List.get?_eq_some] at hrow1
      exact hrow1.1
    have hcore2 : (S1.E.rows.set r { row1 with hl := hl1 }).map rowCore = S.E.rows.map rowCore := by
      rw [map_set_same rowCore _ _ row1 _ hrow1 (by simp only [rowCore, hml]), hcore]
    refine ⟨_, row, x, cxv, hcb.trans hloop, hrow, by rw [← c4]; exact hfo, ?_, rfl, rfl, rfl, rfl,
      renders_of_core _ _ hcore2, ?_⟩
    · unfold editorRowRxToCx at hcx ⊢
      rw [← c1, ← c3]; exact hcx
    · refine ⟨?_, ?_, rowsUpdated_of_core _ _ hcore2 hready.2.2.1, ?_⟩
      · simp only [List.length_set]; exact hn1
      · simp only [List.length_set]; exact hpos1
      · simp only []; omega

/-! ## Search: cyclic order (C4) -/

/-- The byte filter of `editorPrompt`: a buffer whose bytes are in `0x20..0x7f` stays so
whatever key comes next. -/
theorem editorPromptBuf_bytes (buf : List Nat) (c : Int)
    (h : ∀ b ∈ buf, 32 ≤ b ∧ b ≤ 127) : ∀ b ∈ editorPromptBuf buf c, 32 ≤ b ∧ b ≤ 127 := by
  unfold editorPromptBuf
  split_ifs with h1 h2 h3 h4 h5
  · intro b hb; exact h b (List.mem_of_mem_take hb)
  · exact h
  · exact h
  · exact h
  · intro b hb
    rcases List.mem_append.mp hb with hb | hb
    · exact h b hb
    · rw [List.mem_singleton] at hb
      rw [hb]
      omega
  · exact h

theorem editorPromptBuf_foldl (keys : List Int) : ∀ (buf : List Nat),
    (∀ b ∈ buf, 32 ≤ b ∧ b ≤ 127) →
    ∀ b ∈ keys.foldl editorPromptBuf buf, 32 ≤ b ∧ b ≤ 127 := by
  induction keys with
  | nil => intro buf h; exact h
  | cons k ks ih =>
    intro buf h
    rw [List.foldl_cons]
    exact ih _ (editorPromptBuf_bytes buf k h)

/-- C4: on every non-empty document whose rows are as `editorUpdateRow` leaves them and
for every query the callback can be handed (`editorPrompt`, its only caller,
admits the bytes `0x20..0x7f` into the query, so a query holds no zero byte),
`editorFindCallback` with a key other than Enter and Escape selects in cyclic
row order: from `lastMatch = -1` the first row counting from row 0 whose
rendered bytes contain the query; on Right/Down after a match on row `m` the
first such row in the order `m+1, ..., numRows-1, 0, ..., m`; `cy` is that row
and `cx` is `editorRowRxToCx` of the first occurrence's rendered offset.  For
`"foobar"`, `"barfoo"` and `"foo"` this is (0, 0), then (1, 3), then (0, 0). -/
theorem C4_find_selects_in_cyclic_order :
    (∀ (S : State) (qry : List Nat) (key : Int), findReady S → (∀ b ∈ qry, b ≠ 0) →
      key ≠ 13 ∧ key ≠ ESC →
      (S.lastMatch = -1 →
        ∀ r, firstMatchCyclic S.E.rows qry 0 = some r → selects S qry key r) ∧
      (key = ARROW_RIGHT ∨ key = ARROW_DOWN →
        ∀ m : Nat, S.lastMatch = (m : Int) → m < S.E.rows.length →
        ∀ r, firstMatchCyclic S.E.rows qry (m + 1) = some r → selects S qry key r)) ∧
    visitOrder 5 3 5 = [3, 4, 0, 1, 2] ∧
    (∃ S2 S3, loadLines emptyEditor [foo ++ bar, bar ++ foo] = some fooBarDoc ∧
      editorFindCallback (initState fooBarDoc) foo 111 = some fooBarMatched ∧
      fooBarMatched.E.cy = 0 ∧ fooBarMatched.E.cx = 0 ∧
      editorFindCallback fooBarMatched foo ARROW_RIGHT = some S2 ∧
      S2.E.cy = 1 ∧ S2.E.cx = 3 ∧
      editorFindCallback S2 foo ARROW_RIGHT = some S3 ∧
      S3.E.cy = 0 ∧ S3.E.cx = 0) ∧
    (∀ (keys : List Int), ∀ b ∈ keys.foldl editorPromptBuf [], b ≠ 0) := by
  refine ⟨fun S qry key hready hq hkey => ⟨fun h0 r hr => ?_, fun hk m hm hml r hr => ?_⟩,
    by decide, ⟨_, _, rfl, rfl, rfl, rfl, rfl, rfl, rfl, rfl, rfl, rfl⟩,
    fun keys b hb => ?_⟩
  · have h := (editorFindCallback_selects S qry key hready hq hkey (Or.inl h0)
      (by omega) (by have := hready.1; have := hready.2.1; omega)).2 r
    rw [h0] at h
    exact h hr
  · have h := (editorFindCallback_selects S qry key hready hq hkey (Or.inr hk)
      (by omega) (by have := hready.1; omega)).2 r
    rw [hm] at h
    exact h hr
  · have h := editorPromptBuf_foldl keys [] (fun x hx => absurd hx (List.not_mem_nil x)) b hb
    omega

/-- Witness of C4: the fresh search and the next search in `"foobar"`, `"barfoo"`. -/
theorem C4_find_selects_in_cyclic_order_witness :
    (findReady (initState fooBarDoc) ∧ selects (initState fooBarDoc) foo 111 0) ∧
    (findReady fooBarMatched ∧ selects fooBarMatched foo ARROW_RIGHT 1) :=
  ⟨⟨by decide, (C4_find_selects_in_cyclic_order.1 (initState fooBarDoc) foo 111
      (by decide) (by decide) (by decide)).1 rfl 0 (by decide)⟩,
   ⟨by decide, (C4_find_selects_in_cyclic_order.1 fooBarMatched foo ARROW_RIGHT
      (by decide) (by decide) (by decide)).2 (Or.inl rfl) 0 rfl (by decide) 1 (by decide)⟩⟩

/-! ## Search: a query with a zero byte, which no caller passes -/

/-- Why the queries are restricted to those `editorPrompt` builds: `render` keeps zero
bytes behind `rsize`, so in the document `"a\t"` a query `" \x00"` (a space and a
zero byte) would occur in `render` at offset 7, reaching into the padding
behind `rsize = 8`, and `row.hl[8] = HL_MATCH` would be out of range. -/
theorem editorFindCallback_zero_byte_query :
    loadLines emptyEditor [[97, 9]] = some tabDoc ∧ findReady (initState tabDoc) ∧
    firstMatchCyclic tabDoc.rows [32, 0] 0 = some 0 ∧
    bytesIndex [97, 32, 32, 32, 32, 32, 32, 32, 0] [32, 0] = 7 ∧
    editorFindCallback (initState tabDoc) [32, 0] 111 = none :=
  ⟨rfl, by decide, by decide, rfl, rfl⟩

/-! ## Load and serialize: what `editorOpen` keeps (C3) -/

theorem terminatedPart_append (text rest : List Nat) :
    terminatedPart (text ++ NL :: rest) = text ++ NL :: terminatedPart rest := by
  induction text with
  | nil => simp [terminatedPart]
  | cons c cs ih =>
    rw [List.cons_append, terminatedPart, if_pos (by simp), ih]
    rfl

theorem terminatedPart_of_not_mem (input : List Nat) (h : NL ∉ input) :
    terminatedPart input = [] := by
  cases input with
  | nil => rfl
  | cons c cs => rw [terminatedPart, if_neg h]

theorem readBytes_eof (d : Nat) : ∀ input : List Nat,
    (readBytes d input).2.2 = true → d ∉ input := by
  intro input
  induction input with
  | nil => intro _; simp
  | cons c cs ih =>
    intro h
    rw [readBytes] at h
    by_cases hc : c = d
    · rw [if_pos hc] at h; simp at h
    · rw [if_neg hc] at h
      simp only [] at h
      simp only [List.mem_cons, not_or]
      exact ⟨fun e => hc e.symm, ih h⟩

theorem readBytes_line (d : Nat) : ∀ input : List Nat,
    (readBytes d input).2.2 = false →
    ∃ text, d ∉ text ∧ (readBytes d input).1 = text ++ [d] ∧
      input = text ++ d :: (readBytes d input).2.1 := by
  intro input
  induction input with
  | nil => intro h; simp [readBytes] at h
  | cons c cs ih =>
    intro h
    rw [readBytes] at h ⊢
    by_cases hc : c = d
    · rw [if_pos hc]
      exact ⟨[], by simp, by simp [hc], by simp [hc]⟩
    · rw [if_neg hc] at h ⊢
      simp only [] at h ⊢
      obtain ⟨text, h1, h2, h3⟩ := ih h
      refine ⟨c :: text, ?_, by rw [h2]; rfl, by rw [List.cons_append, ← h3]⟩
      simp only [List.mem_cons, not_or]
      exact ⟨fun e => hc e.symm, h1⟩

theorem trimLine_line (text : List Nat) (hnl : NL ∉ text) (hcr : CR ∉ text) :
    trimLine (text ++ [NL]) = some text := by
  have hlen : (text ++ [NL]).length = text.length + 1 := by simp
  have hlast : getIdx (text ++ [NL]) (((text ++ [NL]).length : Int) - 1) = some NL := by
    rw [hlen, show (((text.length + 1 : Nat) : Int) - 1) = (text.length : Int) by push_cast; omega]
    exact getIdx_append_length text [] NL
  have hcut : sliceTo (text ++ [NL]) (((text ++ [NL]).length : Int) - 1) = some text := by
    rw [hlen, show (((text.length + 1 : Nat) : Int) - 1) = (text.length : Int) by push_cast; omega]
    exact sliceTo_append_length text [NL]
  unfold trimLine
  rw [hlast]
  simp only [Option.bind_some, Option.some_bind]
  rw [hlen, trimLoop, if_pos ⟨by omega, Or.inl rfl⟩, hcut]
  simp only [Option.bind_some, Option.some_bind]
  rcases List.eq_nil_or_concat text with h0 | ⟨init, z, hz⟩
  · subst h0
    rfl
  · have hz1 : z ≠ NL := fun e => hnl (by rw [hz, e]; simp)
    have hz2 : z ≠ CR := fun e => hcr (by rw [hz, e]; simp)
    have hl : text.length = init.length + 1 := by rw [hz]; simp
    have hget : getIdx text ((text.length : Int) - 1) = some z := by
      rw [hl, show (((init.length + 1 : Nat) : Int) - 1) = (init.length : Int) by push_cast; omega,
        hz, List.concat_eq_append]
      exact getIdx_append_length init [] z
    rw [if_pos (by omega), hget]
    simp only [Option.bind_some, Option.some_bind]
    rw [hl, trimLoop, if_neg (by
      intro h
      rcases h.2 with e | e
      · exact hz1 e
      · exact hz2 e)]

theorem concatLines_append (a b : List (List Nat)) :
    concatLines (a ++ b) = concatLines a ++ concatLines b := by
  induction a with
  | nil => rfl
  | cons l ls ih => simp [concatLines, ih]

theorem rowsToStringLoop_eq : ∀ (rows : List erow) (buf : List Nat) (tot : Int),
    (∀ r ∈ rows, r.size = (r.chars.length : Int)) →
    rowsToStringLoop rows buf tot
      = (buf ++ concatLines (rows.map fun r => r.chars),
         tot + ((concatLines (rows.map fun r => r.chars)).length : Int)) := by
  intro rows
  induction rows with
  | nil => intro buf tot _; simp [rowsToStringLoop, concatLines]
  | cons r rs ih =>
    intro buf tot h
    rw [rowsToStringLoop, ih _ _ (fun x hx => h x (List.mem_cons_of_mem _ hx)),
      h r (List.mem_cons_self _ _)]
    refine Prod.ext ?_ ?_
    · simp [concatLines]
    · simp only [List.map_cons, concatLines, List.length_append, List.length_cons]
      push_cast
      omega

/-- The line loop of `editorOpen` on content without carriage returns: it returns,
and appends to the document the lines of the content that end with a line
feed; what follows the last line feed is not loaded. -/
theorem editorOpenLoop_spec : ∀ (fuel : Nat) (E : editorConfig) (input : List Nat),
    input.length < fuel → E.numRows = (E.rows.length : Int) → CR ∉ input →
    (∀ r ∈ E.rows, r.size = (r.chars.length : Int)) →
    ∃ E1, editorOpenLoop fuel E input = some E1 ∧ E1.numRows = (E1.rows.length : Int) ∧
      (∀ r ∈ E1.rows, r.size = (r.chars.length : Int)) ∧
      concatLines (E1.rows.map fun r => r.chars)
        = concatLines (E.rows.map fun r => r.chars) ++ terminatedPart input := by
  intro fuel
  induction fuel with
  | zero => intro E input h; omega
  | succ fuel ih =>
    intro E input hf hn hcr hsz
    rw [editorOpenLoop]
    cases herr : (readBytes NL input).2.2 with
    | true =>
      refine ⟨E, by simp, hn, hsz, ?_⟩
      rw [terminatedPart_of_not_mem _ (readBytes_eof NL input herr), List.append_nil]
    | false =>
      obtain ⟨text, hnl, hline, hsplit⟩ := readBytes_line NL input herr
      have hcr1 : CR ∉ text := fun h => hcr (by rw [hsplit]; exact List.mem_append_left _ h)
      have hcr2 : CR ∉ (readBytes NL input).2.1 := fun h =>
        hcr (by rw [hsplit]; exact List.mem_append_right _ (List.mem_cons_of_mem _ h))
      obtain ⟨row, hins, hchars, hupd, _⟩ := editorInsertRow_ok E E.rows [] text hn (by simp)
      rw [← hn] at hins
      have hlen : (readBytes NL input).2.1.length < fuel := by
        have := congrArg List.length hsplit
        simp only [List.length_append, List.length_cons] at this
        omega
      obtain ⟨E1, h1, h2, h3, h4⟩ := ih
        { E with rows := E.rows ++ [row], numRows := E.numRows + 1, dirty := true }
        (readBytes NL input).2.1 hlen (by simp only [List.length_append, List.length_singleton]; push_cast; omega)
        hcr2
        (by
          intro r hr
          rcases List.mem_append.mp hr with h | h
          · exact hsz r h
          · rw [List.mem_singleton.mp h]; exact hupd.1)
      refine ⟨E1, ?_, h2, h3, ?_⟩
      · simp only [Bool.false_eq_true, if_false]
        rw [hline, trimLine_line text hnl hcr1]
        simp only [Option.bind_some, Option.some_bind]
        rw [hins]
        exact h1
      · rw [h4]
        simp only [List.map_append, List.map_cons, List.map_nil, concatLines_append, concatLines,
          hchars]
        conv_rhs => rw [hsplit, terminatedPart_append]
        simp

/-- What `editorOpen` does get right, and the exact extent of the loss: for
content without carriage returns, loading into the empty document and
serializing returns the content up to and including its last line feed, and
the returned count is the length of that; content that ends with a line feed
comes back unchanged. -/
theorem editorOpen_then_rowsToString (content : List Nat) (hcr : CR ∉ content) :
    (∃ E, editorOpen emptyEditor content = some E ∧
      editorRowsToString E
        = (terminatedPart content, ((terminatedPart content).length : Int))) ∧
    (∀ body, content = body ++ [NL] → terminatedPart content = content) := by
  constructor
  · obtain ⟨E1, h1, _, h3, h4⟩ := editorOpenLoop_spec (content.length + 1) emptyEditor content
      (by omega) rfl hcr (by intro r hr; simp [emptyEditor] at hr)
    refine ⟨{ E1 with dirty := false }, by unfold editorOpen; rw [h1]; rfl, ?_⟩
    unfold editorRowsToString
    rw [rowsToStringLoop_eq _ _ _ h3, h4]
    simp [emptyEditor, concatLines]
  · intro body hb
    rw [hb, terminatedPart_append]
    rfl

/-! ## The overlay restore (C9) -/

theorem set_get_self {α : Type} : ∀ (l : List α) (r : Nat) (a : α),
    l.get? r = some a → l.set r a = l := by
  intro l
  induction l with
  | nil => intro r a h; simp at h
  | cons x xs ih =>
    intro r a h
    cases r with
    | zero =>
      simp only [List.get?_cons_zero, Option.some.injEq] at h
      rw [List.set_cons_zero, h]
    | succ r =>
      simp only [List.get?_cons_succ] at h
      rw [List.set_cons_succ, ih r a h]

/-- The part of C9 the code does meet: an overlay installed on a row `r > 0`
(its highlight replaced by `hl1`, the old one saved) is undone by the overlay
restore of the next callback, which gives back the rows as they were. -/
theorem restoreOverlay_restores (S : State) (r : Nat) (row : erow) (hl1 : List Nat)
    (hr : 0 < r) (hrow : S.E.rows.get? r = some row) (hml : hl1.length = row.hl.length) :
    restoreOverlay { S with
        E := { S.E with rows := S.E.rows.set r { row with hl := hl1 } }
        savedHlLine := (r : Int), savedHl := row.hl }
      = some { S with savedHlLine := 0, savedHl := [] } := by
  have hrl : r < S.E.rows.length := by
    rw [List.get?_eq_some] at hrow
    exact hrow.1
  unfold restoreOverlay
  simp only []
  rw [if_pos (by omega), getIdx_nat, List.get?_eq_getElem?, List.getElem?_set_self hrl]
  simp only [Option.bind_some, Option.some_bind]
  rw [setIdx_nat _ _ _ (by simp only [List.length_set]; exact hrl), List.set_set,
    copySlice_same_length _ _ hml]
  have : ({ row with hl := row.hl } : erow) = row := rfl
  rw [this, set_get_self _ _ _ hrow]
  rfl

/-- The defect behind C9: with the overlay on row 0 (`savedHlLine == 0`) the restore
does nothing, whatever was saved. -/
theorem restoreOverlay_row_zero (S : State) (h : S.savedHlLine = 0) :
    restoreOverlay S = some S := by
  unfold restoreOverlay
  rw [if_neg (by omega)]

/-! ## Merge-up (C11) and serialization (C16) -/

/-- C11, at a failing input that the editor builds itself.  The file line `"abcd"` is
split at column 2 (Enter), an empty row is inserted between the two halves
(Enter again), `X` is typed into it and the cursor is put back at its column 0:
the rows are `"ab"`, `"X"`, `"cd"` with `cx == 0` and `cy == 1`.  The rows `"ab"`
and `"cd"` are reslices of one array and `"ab"` has capacity left, so the
`append` of `editorRowAppendString` writes `X` into that array where `"cd"`
begins.  `editorDelChar` leaves `cx == 2`, `cy == 0`, `numRows == 2` and the
merged row `"abX"`, but the row that was `"cd"` now reads `"Xd"`.  No array is
grown on the way, so this is so whatever capacity the run time would choose
(`grow`). -/
theorem C11_merge_overwrites_row_sharing_the_array (grow : Nat → Nat → Nat) :
    ∃ E1 E2 E3 E4 E5 E6 E7 E8 E9 : Mem.editorConfig,
      Mem.editorInsertRow Mem.abcdLine 0 ⟨0, 0, 4, 5⟩ = some E1 ∧
      Mem.editorMoveCursor E1 ARROW_RIGHT = some E2 ∧
      Mem.editorMoveCursor E2 ARROW_RIGHT = some E3 ∧
      Mem.editorInsertNewLine E3 = some E4 ∧
      Mem.rowChars E4 = [[97, 98], [99, 100]] ∧
      Mem.editorInsertNewLine E4 = some E5 ∧
      Mem.editorMoveCursor E5 ARROW_UP = some E6 ∧
      Mem.editorInsertChar grow E6 88 = some E7 ∧
      Mem.editorMoveCursor E7 ARROW_LEFT = some E8 ∧
      Mem.rowChars E8 = [[97, 98], [88], [99, 100]] ∧
      E8.cx = 0 ∧ E8.cy = 1 ∧ E8.numRows = 3 ∧
      Mem.editorDelChar grow E8 = some E9 ∧
      E9.cx = 2 ∧ E9.cy = 0 ∧ E9.numRows = 2 ∧
      Mem.rowChars E9 = [[97, 98, 88], [88, 100]] :=
  ⟨_, _, _, _, _, _, _, _, _, rfl, rfl, rfl, rfl, rfl, rfl, rfl, rfl, rfl, rfl, rfl, rfl, rfl,
    rfl, rfl, rfl, rfl, rfl⟩

/-- C16: for every document in which each row has `size == len(chars)`,
`editorRowsToString` returns the chars of every row, in row order, each
followed by one line feed, and the returned count is the length of that
string; for the lines `"ab"`, `""`, `"c"` the string is `"ab\n\nc\n"`. -/
theorem C16_rowsToString_is_lines_with_newlines :
    (∀ E : editorConfig, (∀ r ∈ E.rows, r.size = (r.chars.length : Int)) →
      (editorRowsToString E).1 = concatLines (E.rows.map fun r => r.chars) ∧
      (editorRowsToString E).2 = (((editorRowsToString E).1).length : Int)) ∧
    concatLines [[97, 98], [], [99]] = [97, 98, 10, 10, 99, 10] := by
  refine ⟨fun E hsz => ?_, by decide⟩
  unfold editorRowsToString
  rw [rowsToStringLoop_eq _ _ _ hsz]
  simp

/-- Witness of C16: the document `"ab"`, `""`, `"c"`. -/
theorem C16_rowsToString_is_lines_with_newlines_witness :
    (editorRowsToString { emptyEditor with
        numRows := 3
        rows := [⟨2, 2, [97, 98], [97, 98], [0, 0]⟩, ⟨0, 0, [], [], []⟩, ⟨1, 1, [99], [99], [0]⟩] }).1
      = concatLines ([(⟨2, 2, [97, 98], [97, 98], [0, 0]⟩ : erow), ⟨0, 0, [], [], []⟩,
          ⟨1, 1, [99], [99], [0]⟩].map fun r => r.chars) ∧
    (editorRowsToString { emptyEditor with
        numRows := 3
        rows := [⟨2, 2, [97, 98], [97, 98], [0, 0]⟩, ⟨0, 0, [], [], []⟩, ⟨1, 1, [99], [99], [0]⟩] }).2
      = (((editorRowsToString { emptyEditor with
        numRows := 3
        rows := [⟨2, 2, [97, 98], [97, 98], [0, 0]⟩, ⟨0, 0, [], [], []⟩,
          ⟨1, 1, [99], [99], [0]⟩] }).1).length : Int) :=
  C16_rowsToString_is_lines_with_newlines.1 _ (by decide)

/-! ## Row insertion (C13) and key decoding (C14) -/

/-- Counterexample to C13 as stated: on the empty document `editorInsertRow(-1, "a")`
and `editorInsertRow(1, "a")` return at the guard `at < 0 || at > E.numRows`
and insert nothing, where clamping would insert at index 0. -/
theorem C13_counterexample_out_of_range_inserts_nothing :
    editorInsertRow emptyEditor (-1) [97] = some emptyEditor ∧
    editorInsertRow emptyEditor 1 [97] = some emptyEditor ∧
    emptyEditor.rows = [] ∧ emptyEditor.numRows = 0 :=
  ⟨rfl, rfl, rfl, rfl⟩

/-- C13 as amended: `editorInsertRow(at, s)` (on a state with `numRows == len(rows)`)
inserts for `0 <= at <= numRows` a new row with chars `s` at index `at`, the
rows before `at`, then the new row with render and highlight computed, then
the rows from `at` on, adds one to `numRows` and sets `dirty`; for `at < 0` or
`at > numRows` it changes nothing. -/
theorem C13_insertRow_in_range_inserts_else_nothing (E : editorConfig) (pos : Int)
    (s : List Nat) (hn : E.numRows = (E.rows.length : Int)) :
    (0 ≤ pos → pos ≤ E.numRows →
      ∃ r, editorInsertRow E pos s
          = some { E with
              rows := E.rows.take pos.toNat ++ r :: E.rows.drop pos.toNat
              numRows := E.numRows + 1, dirty := true } ∧
        r.chars = s ∧ r.size = (s.length : Int) ∧ rowUpdated r ∧
        r.hl = (expandTabs s).map hlClass) ∧
    ((pos < 0 ∨ pos > E.numRows) → editorInsertRow E pos s = some E) := by
  constructor
  · intro h0 h1
    obtain ⟨k, rfl⟩ := Int.eq_ofNat_of_zero_le h0
    have hk : k ≤ E.rows.length := by omega
    obtain ⟨r, e, ec, hu, ehl⟩ := editorInsertRow_ok E (E.rows.take k) (E.rows.drop k) s hn
      (List.take_append_drop k E.rows).symm
    have hl : ((E.rows.take k).length : Int) = (k : Int) := by
      simp only [List.length_take]; omega
    rw [hl] at e
    refine ⟨r, ?_, ec, ?_, hu, ehl⟩
    · simpa using e
    · rw [hu.1, ec]
  · intro h
    unfold editorInsertRow
    rw [if_pos h]

/-- Witness of C13 as amended: `"x"` inserted at index 1 of the document `"foobar"`,
`"barfoo"`, and the call with index 3, which changes nothing. -/
theorem C13_insertRow_in_range_inserts_else_nothing_witness :
    (∃ r, editorInsertRow fooBarDoc 1 [120]
          = some { fooBarDoc with
              rows := fooBarDoc.rows.take (1 : Int).toNat ++ r :: fooBarDoc.rows.drop (1 : Int).toNat
              numRows := fooBarDoc.numRows + 1, dirty := true } ∧
        r.chars = [120] ∧ r.size = (([120] : List Nat).length : Int) ∧ rowUpdated r ∧
        r.hl = (expandTabs [120]).map hlClass) ∧
    editorInsertRow fooBarDoc 3 [120] = some fooBarDoc :=
  ⟨(C13_insertRow_in_range_inserts_else_nothing fooBarDoc 1 [120] (by decide)).1
      (by decide) (by decide),
   (C13_insertRow_in_range_inserts_else_nothing fooBarDoc 3 [120] (by decide)).2
      (Or.inr (by decide))⟩

/-- C14, at the failing inputs: behind ESC the code tests the first byte for the digit
`0` (`seq[0] == '0'`, `kilo.go` 187) where the sequences that terminals send for
Home and End are `ESC O H` and `ESC O F` with the letter `O`.  So `ESC 0 H` and
`ESC 0 F`, which are none of the sequences of the claim, return Home and End and
not the bare ESC key, while `ESC O H` and `ESC O F` return the bare ESC key. -/
theorem C14_esc_digit_zero_returns_home_end :
    editorReadKey 27 [48, 72] = HOME_KEY ∧ editorReadKey 27 [48, 70] = END_KEY ∧
    HOME_KEY ≠ ESC ∧ END_KEY ≠ ESC ∧
    editorReadKey 27 [79, 72] = ESC ∧ editorReadKey 27 [79, 70] = ESC := by
  decide

/-- What the code of `editorReadKey` returns on every input: a first byte other than
`0x1b` as its value; the keys of `ESC [ d ~` and `ESC [ L`; Home and End for
`ESC 0 H` and `ESC 0 F` (the branch with the digit zero); the bare ESC key for
everything else that starts with ESC. -/
theorem editorReadKey_decodes :
    (∀ first rest, first ≠ 27 → editorReadKey first rest = (first : Int)) ∧
    (∀ more, editorReadKey 27 (91 :: 49 :: 126 :: more) = HOME_KEY ∧
      editorReadKey 27 (91 :: 51 :: 126 :: more) = DEL_KEY ∧
      editorReadKey 27 (91 :: 52 :: 126 :: more) = END_KEY ∧
      editorReadKey 27 (91 :: 53 :: 126 :: more) = PAGE_UP ∧
      editorReadKey 27 (91 :: 54 :: 126 :: more) = PAGE_DOWN ∧
      editorReadKey 27 (91 :: 55 :: 126 :: more) = HOME_KEY ∧
      editorReadKey 27 (91 :: 56 :: 126 :: more) = END_KEY) ∧
    (∀ more, editorReadKey 27 (91 :: 65 :: more) = ARROW_UP ∧
      editorReadKey 27 (91 :: 66 :: more) = ARROW_DOWN ∧
      editorReadKey 27 (91 :: 67 :: more) = ARROW_RIGHT ∧
      editorReadKey 27 (91 :: 68 :: more) = ARROW_LEFT ∧
      editorReadKey 27 (91 :: 72 :: more) = HOME_KEY ∧
      editorReadKey 27 (91 :: 70 :: more) = END_KEY) ∧
    (∀ more, editorReadKey 27 (48 :: 72 :: more) = HOME_KEY ∧
      editorReadKey 27 (48 :: 70 :: more) = END_KEY) ∧
    (∀ rest, ¬ isKeySequence rest → editorReadKey 27 rest = ESC) := by
  refine ⟨fun first rest h => ?_, fun more => ?_, fun more => ?_, fun more => ?_, fun rest h => ?_⟩
  · unfold editorReadKey
    rw [if_neg h]
  · refine ⟨?_, ?_, ?_, ?_, ?_, ?_, ?_⟩ <;> simp [editorReadKey]
  · refine ⟨?_, ?_, ?_, ?_, ?_, ?_⟩ <;> simp [editorReadKey]
  · refine ⟨?_, ?_⟩ <;> simp [editorReadKey]
  · rcases rest with _ | ⟨s0, _ | ⟨s1, rest2⟩⟩
    · simp [editorReadKey]
    · simp [editorReadKey]
    · by_cases h0 : s0 = 91
      · subst h0
        by_cases hd : s1 ≥ 48 ∧ s1 ≤ 57
        · rcases rest2 with _ | ⟨b, more⟩
          · simp [editorReadKey, hd]
          · by_cases hb : b = 126
            · subst hb
              have hs : s1 ∉ [49, 51, 52, 53, 54, 55, 56] :=
                fun hm => h (Or.inl ⟨s1, more, rfl, hm⟩)
              simp only [List.mem_cons, List.mem_singleton, not_or, List.not_mem_nil,
                or_false] at hs
              simp [editorReadKey, hd, hs]
            · simp [editorReadKey, hd, hb]
        · have hs : s1 ∉ [65, 66, 67, 68, 72, 70] :=
            fun hm => h (Or.inr (Or.inl ⟨s1, rest2, rfl, hm⟩))
          simp only [List.mem_cons, List.mem_singleton, not_or, List.not_mem_nil,
            or_false] at hs
          have hd' : ¬ (48 ≤ s1 ∧ s1 ≤ 57) := hd
          simp [editorReadKey, hd', hs]
      · by_cases h48 : s0 = 48
        · subst h48
          have hs : s1 ∉ [72, 70] :=
            fun hm => h (Or.inr (Or.inr ⟨s1, rest2, rfl, hm⟩))
          simp only [List.mem_cons, List.mem_singleton, not_or, List.not_mem_nil,
            or_false] at hs
          simp [editorReadKey, hs]
        · simp [editorReadKey, h0, h48]

/-! ## Scrolling: the offset that keeps a coordinate in its window -/

theorem cxToRxLoop_total : ∀ (rest : List Nat) (size cx : Int) (j rx : Nat),
    size = (j : Int) + rest.length → ∃ r, cxToRxLoop size cx rest j rx = some r := by
  intro rest
  induction rest with
  | nil =>
    intro size cx j rx hs
    simp only [List.length_nil] at hs
    exact ⟨rx, by rw [cxToRxLoop, if_neg (by omega)]⟩
  | cons c cs ih =>
    intro size cx j rx hs
    simp only [List.length_cons] at hs
    by_cases hlt : (j : Int) < size ∧ (j : Int) < cx
    · rw [cxToRxLoop, if_pos hlt]
      exact ih size cx (j + 1) _ (by push_cast; omega)
    · exact ⟨rx, by rw [cxToRxLoop, if_neg hlt]⟩

theorem editorRowCxToRx_total (row : erow) (cx : Int)
    (hsize : row.size = (row.chars.length : Int)) :
    ∃ rx, editorRowCxToRx row cx = some rx ∧ 0 ≤ rx := by
  obtain ⟨r, hr⟩ := cxToRxLoop_total row.chars row.size cx 0 0 (by simpa using hsize)
  exact ⟨(r : Int), by unfold editorRowCxToRx; rw [hr]; rfl, by omega⟩

theorem scrollOffset_spec (pos off size : Int) (h : 1 ≤ size) :
    scrollOffset pos off size ≤ pos ∧ pos < scrollOffset pos off size + size ∧
    (off ≤ pos → pos < off + size → scrollOffset pos off size = off) := by
  unfold scrollOffset
  simp only []
  split_ifs <;> refine ⟨?_, ?_, ?_⟩ <;> omega

/-! ## The frame of `editorRefreshScreen` (C19) -/

/-- The frame of `editorRefreshScreen`, whatever is drawn: the five bytes
`ESC [ 2 5 l`, cursor-home, the drawn bytes, the cursor position after the
scroll, and show-cursor `ESC [ ? 2 5 h`. -/
theorem editorRefreshScreen_frame (draw : editorConfig → Option (List Nat))
    (E E1 : editorConfig) (frame : List Nat)
    (h : editorRefreshScreen draw E = some (E1, frame)) :
    editorScroll E = some E1 ∧
    ∃ drawn, draw E1 = some drawn ∧
      frame = [27, 91, 50, 53, 108] ++ [27, 91, 72] ++ drawn
        ++ ([27, 91] ++ fmtInt ((E1.cy - E1.rowoff) + 1) ++ [59]
              ++ fmtInt ((E1.rx - E1.coloff) + 1) ++ [72])
        ++ [27, 91, 63, 50, 53, 104] ∧
      ¬ ([27, 91, 63, 50, 53, 108] <+: frame) := by
  unfold editorRefreshScreen at h
  cases hs : editorScroll E with
  | none => rw [hs] at h; simp at h
  | some E2 =>
    rw [hs] at h
    simp only [Option.bind_some, Option.some_bind] at h
    cases hd : draw E2 with
    | none => rw [hd] at h; simp at h
    | some drawn =>
      rw [hd] at h
      simp only [Option.bind_some, Option.some_bind, Option.some.injEq, Prod.mk.injEq] at h
      obtain ⟨h1, h2⟩ := h
      subst h1
      refine ⟨rfl, drawn, hd, h2.symm, ?_⟩
      rw [← h2]
      intro hp
      obtain ⟨t, ht⟩ := hp
      simp only [List.cons_append, List.nil_append, List.cons.injEq] at ht
      omega

/-- C19, at a failing input (every input is one): the frame for the cursor on row 1,
column 3 of `"foobar"`, `"barfoo"`, with nothing drawn in between.  It starts
with `ESC [ 2 5 l`, without the `?` of the hide-cursor sequence
`ESC [ ? 2 5 l`; cursor-home, the cursor position `ESC [ 2 ; 4 H` and the
show-cursor sequence `ESC [ ? 2 5 h` are as the claim says. -/
theorem C19_frame_hides_cursor_without_question_mark :
    editorRefreshScreen (fun _ => some []) { fooBarDoc with cy := 1, cx := 3 }
      = some ({ fooBarDoc with cy := 1, cx := 3, rx := 3 },
          [27, 91, 50, 53, 108] ++ [27, 91, 72]
            ++ [27, 91, 50, 59, 52, 72] ++ [27, 91, 63, 50, 53, 104]) ∧
    List.isPrefixOf [27, 91, 63, 50, 53, 108]
      ([27, 91, 50, 53, 108] ++ [27, 91, 72]
        ++ [27, 91, 50, 59, 52, 72] ++ [27, 91, 63, 50, 53, 104]) = false := by
  decide

/-! ## Search in either direction and the no-match case (C15) -/

/-- The row index one step of the search loop moves to, from a position that is
valid for the direction. -/
theorem findLoop_next (S : State) (c : Int) (hn : S.E.numRows = (S.E.rows.length : Int))
    (hpos : 0 < S.E.rows.length)
    (hdir : S.direction = 1 ∧ -1 ≤ c ∨ S.direction = -1 ∧ 0 ≤ c) (hc : c < S.E.numRows) :
    ∃ k : Nat, (if c + S.direction = -1 then S.E.numRows - 1
        else if c + S.direction = S.E.numRows then 0 else c + S.direction) = (k : Int) ∧
      k < S.E.rows.length := by
  rcases hdir with ⟨hd, h0⟩ | ⟨hd, h0⟩
  · rw [hd, if_neg (by omega)]
    by_cases he : c + 1 = S.E.numRows
    · rw [if_pos he]; exact ⟨0, rfl, by omega⟩
    · rw [if_neg he]
      exact ⟨(c + 1).toNat, by omega, by omega⟩
  · rw [hd]
    by_cases he : c + -1 = -1
    · rw [if_pos he]; exact ⟨(S.E.numRows - 1).toNat, by omega, by omega⟩
    · rw [if_neg he, if_neg (by omega)]
      exact ⟨(c + -1).toNat, by omega, by omega⟩

theorem findLoop_succ (qry : List Nat) (n : Nat) (S : State) (c : Int) (k : Nat)
    (hk : (if c + S.direction = -1 then S.E.numRows - 1
        else if c + S.direction = S.E.numRows then 0 else c + S.direction) = (k : Int)) :
    findLoop qry (n + 1) S c
      = (S.E.rows.get? k).bind fun row =>
          if bytesIndex row.render qry > -1 then
            (editorRowRxToCx row (bytesIndex row.render qry)).bind fun cx1 =>
            (makeBytes row.rsize).bind fun fresh =>
            (markLoop qry.length (bytesIndex row.render qry) row.hl).bind fun hl1 =>
            (setIdx S.E.rows (k : Int) { row with hl := hl1 }).bind fun rows1 =>
            some { S with
              lastMatch := (k : Int)
              E := { S.E with cy := (k : Int), cx := cx1, rowoff := S.E.numRows, rows := rows1 }
              savedHlLine := (k : Int)
              savedHl := copySlice fresh row.hl }
          else findLoop qry n S (k : Int) := by
  rw [findLoop]
  simp only []
  rw [hk, getIdx_nat]

/-- The search loop when no row contains the query: it visits rows in either
direction without leaving the document and returns the state it was given. -/
theorem findLoop_no_match (qry : List Nat) :
    ∀ (n : Nat) (S : State) (c : Int), S.E.numRows = (S.E.rows.length : Int) →
    0 < S.E.rows.length →
    (S.direction = 1 ∧ -1 ≤ c ∨ S.direction = -1 ∧ 0 ≤ c) → c < S.E.numRows →
    (∀ row ∈ S.E.rows, bytesIndex row.render qry = -1) →
    findLoop qry n S c = some S := by
  intro n
  induction n with
  | zero => intro S c _ _ _ _ _; rfl
  | succ n ih =>
    intro S c hn hpos hdir hc hno
    obtain ⟨k, hk, hkl⟩ := findLoop_next S c hn hpos hdir hc
    obtain ⟨row, hrow⟩ : ∃ row, S.E.rows.get? k = some row := ⟨_, List.get?_eq_get hkl⟩
    rw [findLoop_succ qry n S c k hk, hrow]
    simp only [Option.bind_some, Option.some_bind]
    rw [hno row (List.get?_mem hrow), if_neg (by decide)]
    refine ih S k hn hpos ?_ (by omega) hno
    rcases hdir with ⟨hd, _⟩ | ⟨hd, _⟩
    · exact Or.inl ⟨hd, by omega⟩
    · exact Or.inr ⟨hd, by omega⟩

/-- The search loop on rows as `editorUpdateRow` leaves them, for a query without
zero bytes: every index it uses is in range, in either direction. -/
theorem findLoop_total (qry : List Nat) (hq : ∀ b ∈ qry, b ≠ 0) :
    ∀ (n : Nat) (S : State) (c : Int), S.E.numRows = (S.E.rows.length : Int) →
    0 < S.E.rows.length →
    (S.direction = 1 ∧ -1 ≤ c ∨ S.direction = -1 ∧ 0 ≤ c) → c < S.E.numRows →
    (∀ row ∈ S.E.rows, rowUpdated row) →
    ∃ S1, findLoop qry n S c = some S1 := by
  intro n
  induction n with
  | zero => intro S c _ _ _ _ _; exact ⟨S, rfl⟩
  | succ n ih =>
    intro S c hn hpos hdir hc hu
    obtain ⟨k, hk, hkl⟩ := findLoop_next S c hn hpos hdir hc
    obtain ⟨row, hrow⟩ : ∃ row, S.E.rows.get? k = some row := ⟨_, List.get?_eq_get hkl⟩
    rw [findLoop_succ qry n S c k hk, hrow]
    simp only [Option.bind_some, Option.some_bind]
    by_cases hx : bytesIndex row.render qry > -1
    · rw [if_pos hx]
      obtain ⟨hsz, hrs, hhl, hren⟩ := hu row (List.get?_mem hrow)
      rw [bytesIndex_eq] at hx ⊢
      cases hfo : firstOccurrence row.render qry with
      | none => rw [hfo] at hx; exact absurd hx (by decide)
      | some x =>
        simp only []
        obtain ⟨hpre, _⟩ := firstOccurrence_some_prefix _ _ _ hfo
        obtain ⟨cxv, hcxv⟩ := editorRowRxToCx_total row (x : Int) hsz
        have hmark : ∃ hl1, markLoop qry.length (x : Int) row.hl = some hl1 ∧
            hl1.length = row.hl.length := by
          rw [hren] at hpre
          rcases match_inside _ _ _ _ hq hpre with h0 | h1
          · rw [h0]; exact ⟨row.hl, rfl, rfl⟩
          · exact markLoop_ok _ _ _ (by omega)
        obtain ⟨hl1, hm, _⟩ := hmark
        have hmk : makeBytes row.rsize = some (List.replicate row.hl.length 0) := by
          unfold makeBytes
          rw [if_pos (by omega), hrs, hhl]
          rfl
        rw [hcxv]
        simp only [Option.bind_some, Option.some_bind]
        rw [hmk]
        simp only [Option.bind_some, Option.some_bind]
        rw [hm]
        simp only [Option.bind_some, Option.some_bind]
        rw [setIdx_nat _ _ _ hkl]
        exact ⟨_, rfl⟩
    · rw [if_neg hx]
      refine ih S k hn hpos ?_ (by omega) hu
      rcases hdir with ⟨hd, _⟩ | ⟨hd, _⟩
      · exact Or.inl ⟨hd, by omega⟩
      · exact Or.inr ⟨hd, by omega⟩

/-- The overlay restore when the overlay row index is in range: it returns, changes
nothing but classes in `hl` and the overlay variables, clears the overlay
variables when `savedHlLine > 0` and does nothing at all otherwise. -/
theorem restoreOverlay_safe (S : State) (hn : S.E.numRows = (S.E.rows.length : Int))
    (hov : S.savedHlLine ≤ 0 ∨ S.savedHlLine < S.E.numRows) :
    ∃ S1, restoreOverlay S = some S1 ∧ S1.E.rows.map rowCore = S.E.rows.map rowCore ∧
      S1.E = { S.E with rows := S1.E.rows } ∧ S1.lastMatch = S.lastMatch ∧
      (S.savedHlLine > 0 → S1.savedHlLine = 0 ∧ S1.savedHl = []) ∧
      (S.savedHlLine ≤ 0 → S1 = S) := by
  by_cases hs : S.savedHlLine > 0
  · obtain ⟨k, hk⟩ := Int.eq_ofNat_of_zero_le (show 0 ≤ S.savedHlLine by omega)
    have hkl : k < S.E.rows.length := by omega
    obtain ⟨row, hrow⟩ : ∃ row, S.E.rows.get? k = some row := ⟨_, List.get?_eq_get hkl⟩
    have hcore : (S.E.rows.set k { row with hl := copySlice row.hl S.savedHl }).map rowCore
        = S.E.rows.map rowCore :=
      map_set_same rowCore _ _ row _ hrow (by simp only [rowCore, copySlice_length])
    refine ⟨{ S with
        E := { S.E with rows := S.E.rows.set k { row with hl := copySlice row.hl S.savedHl } }
        savedHlLine := 0, savedHl := [] }, ?_, hcore, rfl, rfl, fun _ => ⟨rfl, rfl⟩,
        fun h => by omega⟩
    unfold restoreOverlay
    rw [if_pos hs, hk, getIdx_nat, hrow]
    simp only [Option.bind_some, Option.some_bind]
    rw [setIdx_nat _ _ _ hkl]
    rfl
  · refine ⟨S, ?_, rfl, rfl, rfl, fun h => absurd h hs, fun _ => rfl⟩
    unfold restoreOverlay
    rw [if_neg hs]

/-- The callback after the overlay restore, for a key other than Enter and Escape:
the search loop is started from `lastMatch` on a state that differs from the
restored one in `lastMatch` and `direction` only, and goes backward only from
a row index. -/
theorem editorFindCallback_search (S S1 : State) (qry : List Nat) (key : Int)
    (hr : restoreOverlay S = some S1) (hkey : key ≠ 13 ∧ key ≠ ESC) :
    ∃ S3, editorFindCallback S qry key = findLoop qry S1.E.rows.length S3 S3.lastMatch ∧
      S3.E = S1.E ∧ S3.savedHlLine = S1.savedHlLine ∧ S3.savedHl = S1.savedHl ∧
      (S3.lastMatch = -1 ∨ S3.lastMatch = S1.lastMatch) ∧
      (S3.direction = 1 ∨ (S3.direction = -1 ∧ S3.lastMatch ≠ -1)) := by
  unfold editorFindCallback
  rw [hr]
  simp only [Option.bind_some, Option.some_bind]
  rw [if_neg (by intro h; rcases h with h | h; exact hkey.1 h; exact hkey.2 h)]
  by_cases hk : key = ARROW_RIGHT ∨ key = ARROW_DOWN
  · simp only [if_pos hk]
    by_cases hm : S1.lastMatch = -1
    · simp only [hm, if_true]
      exact ⟨_, rfl, rfl, rfl, rfl, Or.inl rfl, Or.inl rfl⟩
    · simp only [hm, if_false]
      exact ⟨_, rfl, rfl, rfl, rfl, Or.inr rfl, Or.inl rfl⟩
  · simp only [if_neg hk]
    by_cases hk2 : key = ARROW_LEFT ∨ key = ARROW_UP
    · simp only [if_pos hk2]
      by_cases hm : S1.lastMatch = -1
      · simp only [hm, if_true]
        exact ⟨_, rfl, rfl, rfl, rfl, Or.inl rfl, Or.inl rfl⟩
      · simp only [hm, if_false]
        exact ⟨_, rfl, rfl, rfl, rfl, Or.inr rfl, Or.inr ⟨rfl, hm⟩⟩
    · simp only [if_neg hk2, if_true]
      exact ⟨_, rfl, rfl, rfl, rfl, Or.inl rfl, Or.inl rfl⟩

theorem bytesIndex_of_not_infix (s sep : List Nat) (h : ¬ sep <:+: s) :
    bytesIndex s sep = -1 := by
  rw [bytesIndex_eq]
  cases hfo : firstOccurrence s sep with
  | none => rfl
  | some x =>
    exact absurd ((firstOccurrence_isSome_iff s sep).mp (by rw [hfo]; rfl)) h

/-- What the callback does when no row contains the query (the part of C15 the
code meets): for a key other than Enter and Escape it returns the state the
overlay restore left, up to `lastMatch` and `direction`; `cx`, `cy`, `rowoff`
and `coloff` are unchanged, and no overlay is left when the previous one was
on a row `> 0` or there was none. -/
theorem editorFindCallback_no_match (S : State) (qry : List Nat) (key : Int)
    (hs : findSafe S) (hkey : key ≠ 13 ∧ key ≠ ESC)
    (hno : ∀ row ∈ S.E.rows, ¬ qry <:+: row.render) :
    ∃ S1 S2, restoreOverlay S = some S1 ∧ editorFindCallback S qry key = some S2 ∧
      S2.E = S1.E ∧ S2.savedHlLine = S1.savedHlLine ∧ S2.savedHl = S1.savedHl ∧
      S2.E.cx = S.E.cx ∧ S2.E.cy = S.E.cy ∧ S2.E.rowoff = S.E.rowoff ∧
      S2.E.coloff = S.E.coloff ∧
      (S.savedHlLine ≤ 0 → S2.E.rows = S.E.rows) ∧
      ((S.savedHlLine > 0 ∨ S.savedHl = []) → S2.savedHlLine ≤ 0 ∧ S2.savedHl = []) := by
  obtain ⟨hn, hov, hlm⟩ := hs
  obtain ⟨S1, hr, hcore, hE, hl1, hclr, hid⟩ := restoreOverlay_safe S hn hov
  obtain ⟨S3, hcb, h3E, h3a, h3b, h3lm, h3dir⟩ := editorFindCallback_search S S1 qry key hr hkey
  have hlen := length_of_core _ _ hcore
  have hn3 : S3.E.numRows = (S3.E.rows.length : Int) := by
    rw [h3E, hE]; simp only []; rw [hn, hlen]
  have hloop : findLoop qry S1.E.rows.length S3 S3.lastMatch = some S3 := by
    by_cases hz : S1.E.rows.length = 0
    · rw [hz]; rfl
    · refine findLoop_no_match qry _ S3 _ hn3 (by rw [h3E]; omega) ?_ ?_ ?_
      · rcases h3dir with hd | ⟨hd, hne⟩
        · refine Or.inl ⟨hd, ?_⟩
          rcases h3lm with h | h
          · omega
          · rw [h, hl1]; omega
        · refine Or.inr ⟨hd, ?_⟩
          rcases h3lm with h | h
          · exact absurd h hne
          · rw [h, hl1]; rw [h, hl1] at hne; omega
      · rw [hn3, h3E]
        rcases h3lm with h | h
        · rw [h]; omega
        · rw [h, hl1]; omega
      · intro row1 hm
        rw [h3E] at hm
        obtain ⟨r, hr1⟩ := List.get?_of_mem hm
        obtain ⟨row, h2, hc⟩ := get_of_map_core _ _ hcore r row1 hr1
        simp only [rowCore, Prod.mk.injEq] at hc
        rw [hc.2.2.2.1]
        exact bytesIndex_of_not_infix _ _ (hno row (List.get?_mem h2))
  refine ⟨S1, S3, hr, hcb.trans hloop, h3E, h3a, h3b, ?_, ?_, ?_, ?_, ?_, ?_⟩
  · rw [h3E, hE]
  · rw [h3E, hE]
  · rw [h3E, hE]
  · rw [h3E, hE]
  · intro h; rw [h3E, hid h]
  · intro h
    rw [h3a, h3b]
    by_cases hp : S.savedHlLine > 0
    · obtain ⟨a, b⟩ := hclr hp
      exact ⟨by omega, b⟩
    · have hS := hid (by omega)
      rw [hS]
      rcases h with h | h
      · exact absurd h hp
      · exact ⟨by omega, h⟩

/-- C15, at the failing input: the one-row document `"foo"` after the query `"foo"`
has matched row 0 (`fooMatched`), and then the callback for the query
`"foox"` with the key `x`, which no row contains.  The cursor and the scroll
offsets stay, but the overlay of row 0 stays too: `savedHlLine == 0` is read
as "no overlay", so the saved highlight is not put back, `savedHl` still holds
it and row 0 still carries `HL_MATCH`. -/
theorem C15_overlay_on_row_zero_survives_no_match :
    (∃ E, loadLines emptyEditor [foo] = some E ∧
      editorFindCallback (initState E) foo 111 = some fooMatched) ∧
    (∀ row ∈ fooMatched.E.rows, ¬ (foo ++ [120]) <:+: row.render) ∧
    findSafe fooMatched ∧
    (∃ S2, editorFindCallback fooMatched (foo ++ [120]) 120 = some S2 ∧
      S2.E.cx = 0 ∧ S2.E.cy = 0 ∧ S2.E.rowoff = 1 ∧ S2.E.coloff = 0 ∧
      S2.savedHlLine = 0 ∧ S2.savedHl = [0, 0, 0] ∧
      S2.E.rows.map (fun r => r.hl) = [[2, 2, 2]]) := by
  refine ⟨⟨_, rfl, rfl⟩, by decide, by decide, ⟨_, rfl, rfl, rfl, rfl, rfl, rfl, rfl, rfl⟩⟩

/-! ## Highlight writes are in bounds (C20) -/

theorem firstOccurrence_empty (s : List Nat) : firstOccurrence s [] = some 0 := by
  unfold firstOccurrence
  rw [List.range_succ_eq_map, List.find?_cons_of_pos]
  simp [List.isPrefixOf]

/-- C20: for every document whose rows are as `editorUpdateRow` leaves them (with the
search variables pointing into the document) and every query whose bytes lie
in `0x20..0x7f`: wherever `bytes.Index` finds the query in a row's `render`,
at offset `x`, `x + len(query) <= row.rsize == len(row.hl)`, and
`editorFindCallback` returns for every key, that is, none of its index and
slice expressions is out of range.  The buffer of `editorPrompt` holds only
such bytes, whatever keys are pressed. -/
theorem C20_find_highlight_writes_in_bounds :
    (∀ (S : State) (qry : List Nat) (key : Int), findSafe S →
      (∀ row ∈ S.E.rows, rowUpdated row) → (∀ b ∈ qry, 32 ≤ b ∧ b ≤ 127) →
      (∀ row ∈ S.E.rows, ∀ x : Int, bytesIndex row.render qry = x → x > -1 →
        x + (qry.length : Int) ≤ row.rsize ∧ row.rsize = (row.hl.length : Int)) ∧
      ∃ S1, editorFindCallback S qry key = some S1) ∧
    (∀ (keys : List Int), ∀ b ∈ keys.foldl editorPromptBuf [], 32 ≤ b ∧ b ≤ 127) := by
  refine ⟨fun S qry key hs hu hq => ⟨fun row hrow x hx hpos => ?_, ?_⟩,
    fun keys => editorPromptBuf_foldl keys [] (by simp)⟩
  · obtain ⟨_, hrs, hhl, hren⟩ := hu row hrow
    have hq0 : ∀ b ∈ qry, b ≠ 0 := fun b hb => by have := hq b hb; omega
    rw [bytesIndex_eq] at hx
    cases hfo : firstOccurrence row.render qry with
    | none => rw [hfo] at hx; simp only [] at hx; omega
    | some y =>
      rw [hfo] at hx
      simp only [] at hx
      obtain ⟨hpre, _⟩ := firstOccurrence_some_prefix _ _ _ hfo
      rw [hren] at hpre
      refine ⟨?_, by rw [hrs, hhl]⟩
      rcases match_inside _ _ _ _ hq0 hpre with h0 | h1
      · rw [h0, firstOccurrence_empty] at hfo
        simp only [Option.some.injEq] at hfo
        rw [h0, hrs, ← hx, ← hfo]
        simp
      · rw [hrs, ← hx]
        omega
  · obtain ⟨hn, hov, hlm⟩ := hs
    have hq0 : ∀ b ∈ qry, b ≠ 0 := fun b hb => by have := hq b hb; omega
    obtain ⟨S1, hr, hcore, hE, hl1, _, _⟩ := restoreOverlay_safe S hn hov
    by_cases hkey : key ≠ 13 ∧ key ≠ ESC
    · obtain ⟨S3, hcb, h3E, _, _, h3lm, h3dir⟩ := editorFindCallback_search S S1 qry key hr hkey
      have hlen := length_of_core _ _ hcore
      have hn3 : S3.E.numRows = (S3.E.rows.length : Int) := by
        rw [h3E, hE]; simp only []; rw [hn, hlen]
      rw [hcb]
      by_cases hz : S1.E.rows.length = 0
      · rw [hz]; exact ⟨S3, rfl⟩
      · refine findLoop_total qry hq0 _ S3 _ hn3 (by rw [h3E]; omega) ?_ ?_ ?_
        · rcases h3dir with hd | ⟨hd, hne⟩
          · refine Or.inl ⟨hd, ?_⟩
            rcases h3lm with h | h
            · omega
            · rw [h, hl1]; omega
          · refine Or.inr ⟨hd, ?_⟩
            rcases h3lm with h | h
            · exact absurd h hne
            · rw [h, hl1]; rw [h, hl1] at hne; omega
        · rw [hn3, h3E]
          rcases h3lm with h | h
          · rw [h]; omega
          · rw [h, hl1]; omega
        · rw [h3E]
          exact rowsUpdated_of_core _ _ hcore hu
    · unfold editorFindCallback
      rw [hr]
      simp only [Option.bind_some, Option.some_bind]
      rw [if_pos (by
        by_cases h13 : key = 13
        · exact Or.inl h13
        · by_cases h27 : key = ESC
          · exact Or.inr h27
          · exact absurd ⟨h13, h27⟩ hkey)]
      exact ⟨_, rfl⟩

/-- Witness of C20: the search for `" "` in the document `"a\t"`, whose render has a
zero byte behind `rsize`. -/
theorem C20_find_highlight_writes_in_bounds_witness :
    (∀ row ∈ (initState tabDoc).E.rows, ∀ x : Int, bytesIndex row.render [32] = x → x > -1 →
        x + (([32] : List Nat).length : Int) ≤ row.rsize ∧ row.rsize = (row.hl.length : Int)) ∧
      ∃ S1, editorFindCallback (initState tabDoc) [32] 32 = some S1 :=
  C20_find_highlight_writes_in_bounds.1 (initState tabDoc) [32] 32
    (by decide) (by decide) (by decide)

/-! ## Column maps on rows with tabs (C12) -/

theorem widthFrom_append (rx : Nat) (l : List Nat) (c : Nat) :
    widthFrom rx (l ++ [c]) = widthStep (widthFrom rx l) c := by
  induction l generalizing rx with
  | nil => rfl
  | cons x xs ih => exact ih (widthStep rx x)

theorem widthStep_gt (rx c : Nat) : rx < widthStep rx c := by
  unfold widthStep
  split_ifs <;> omega

theorem widthFrom_take_succ (rx : Nat) (l : List Nat) (i : Nat) (h : i < l.length) :
    widthFrom rx (l.take i) < widthFrom rx (l.take (i + 1)) := by
  rw [List.take_succ, List.getElem?_eq_getElem h]
  simp only [Option.toList_some]
  rw [widthFrom_append]
  exact widthStep_gt _ _

theorem widthFrom_take_mono (rx : Nat) (l : List Nat) : ∀ (d i : Nat), i + d ≤ l.length →
    widthFrom rx (l.take i) + d ≤ widthFrom rx (l.take (i + d)) := by
  intro d
  induction d with
  | zero => intro i _; simp
  | succ d ih =>
    intro i h
    have h1 := ih i (by omega)
    have h2 := widthFrom_take_succ rx l (i + d) (by omega)
    rw [show i + (d + 1) = i + d + 1 from rfl]
    omega

theorem cxToRxLoop_eq : ∀ (rest : List Nat) (size cx : Int) (j rx : Nat),
    size = (j : Int) + rest.length →
    cxToRxLoop size cx rest j rx = some (widthFrom rx (rest.take (cx - j).toNat)) := by
  intro rest
  induction rest with
  | nil =>
    intro size cx j rx hs
    simp only [List.length_nil] at hs
    rw [cxToRxLoop, if_neg (by omega), List.take_nil]
    rfl
  | cons c cs ih =>
    intro size cx j rx hs
    simp only [List.length_cons] at hs
    by_cases hlt : (j : Int) < size ∧ (j : Int) < cx
    · rw [cxToRxLoop, if_pos hlt]
      simp only []
      rw [ih size cx (j + 1) _ (by push_cast; omega)]
      obtain ⟨m, hm⟩ : ∃ m, (cx - (j : Int)).toNat = m + 1 := ⟨(cx - j).toNat - 1, by omega⟩
      have hm2 : (cx - ((j + 1 : Nat) : Int)).toNat = m := by push_cast; omega
      rw [hm, hm2, List.take_succ_cons]
      rfl
    · rw [cxToRxLoop, if_neg hlt]
      have : (cx - (j : Int)).toNat = 0 := by omega
      rw [this]
      rfl

theorem rxToCxLoop_spec : ∀ (rest : List Nat) (size rx : Int) (cx cur : Nat),
    size = (cx : Int) + rest.length →
    ∃ k, k ≤ rest.length ∧ rxToCxLoop size rx rest cx cur = some (cx + k) ∧
      (∀ i, 1 ≤ i → i ≤ k → ((widthFrom cur (rest.take i) : Nat) : Int) ≤ rx) ∧
      (k < rest.length → ((widthFrom cur (rest.take (k + 1)) : Nat) : Int) > rx) := by
  intro rest
  induction rest with
  | nil =>
    intro size rx cx cur hs
    simp only [List.length_nil] at hs
    refine ⟨0, le_refl _, ?_, fun i h1 h2 => by omega, fun h => by simp at h⟩
    rw [rxToCxLoop, if_neg (by omega)]
    rfl
  | cons c cs ih =>
    intro size rx cx cur hs
    simp only [List.length_cons] at hs
    have hstep : rxToCxLoop size rx (c :: cs) cx cur
        = if ((widthStep cur c : Nat) : Int) > rx then some cx
          else rxToCxLoop size rx cs (cx + 1) (widthStep cur c) := by
      rw [rxToCxLoop, if_pos (by omega)]
      rfl
    by_cases hgt : ((widthStep cur c : Nat) : Int) > rx
    · refine ⟨0, by omega, ?_, fun i h1 h2 => by omega, fun _ => ?_⟩
      · rw [hstep, if_pos hgt]; rfl
      · exact hgt
    · obtain ⟨k, hk, e, p1, p2⟩ := ih size rx (cx + 1) (widthStep cur c) (by push_cast; omega)
      refine ⟨k + 1, by simp only [List.length_cons]; omega, ?_, fun i h1 h2 => ?_, fun h => ?_⟩
      · rw [hstep, if_neg hgt, e]
        congr 1
        omega
      · obtain ⟨m, rfl⟩ : ∃ m, i = m + 1 := ⟨i - 1, by omega⟩
        rw [List.take_succ_cons]
        show ((widthFrom (widthStep cur c) (cs.take m) : Nat) : Int) ≤ rx
        by_cases hm : m = 0
        · subst hm
          simp only [List.take_zero, widthFrom]
          omega
        · exact p1 m (by omega) (by omega)
      · rw [List.take_succ_cons]
        exact p2 (by simp only [List.length_cons] at h; omega)

theorem editorRowCxToRx_eq (row : erow) (cx : Int)
    (hsize : row.size = (row.chars.length : Int)) :
    editorRowCxToRx row cx = some ((widthFrom 0 (row.chars.take cx.toNat) : Nat) : Int) := by
  unfold editorRowCxToRx
  rw [cxToRxLoop_eq row.chars row.size cx 0 0 (by simpa using hsize)]
  simp

theorem editorRowRxToCx_spec (row : erow) (rx : Int)
    (hsize : row.size = (row.chars.length : Int)) :
    ∃ k : Nat, k ≤ row.chars.length ∧ editorRowRxToCx row rx = some (k : Int) ∧
      (∀ i, 1 ≤ i → i ≤ k → ((widthFrom 0 (row.chars.take i) : Nat) : Int) ≤ rx) ∧
      (k < row.chars.length → ((widthFrom 0 (row.chars.take (k + 1)) : Nat) : Int) > rx) := by
  obtain ⟨k, hk, e, p1, p2⟩ := rxToCxLoop_spec row.chars row.size rx 0 0 (by simpa using hsize)
  refine ⟨k, hk, ?_, p1, p2⟩
  unfold editorRowRxToCx
  rw [e]
  simp

theorem widthFrom_take_le (l : List Nat) (i j : Nat) (hij : i ≤ j) (hj : j ≤ l.length) :
    widthFrom 0 (l.take i) + (j - i) ≤ widthFrom 0 (l.take j) := by
  have h := widthFrom_take_mono 0 l (j - i) i (by omega)
  rwa [Nat.add_sub_cancel' hij] at h

theorem editorRowRxToCx_largest (row : erow) (rx : Int)
    (hsize : row.size = (row.chars.length : Int)) (hrx : 0 ≤ rx) :
    ∃ k : Nat, k ≤ row.chars.length ∧ editorRowRxToCx row rx = some (k : Int) ∧
      ((widthFrom 0 (row.chars.take k) : Nat) : Int) ≤ rx ∧
      (∀ m, m ≤ row.chars.length →
        ((widthFrom 0 (row.chars.take m) : Nat) : Int) ≤ rx → m ≤ k) := by
  obtain ⟨k, hk, e, p1, p2⟩ := editorRowRxToCx_spec row rx hsize
  refine ⟨k, hk, e, ?_, ?_⟩
  · by_cases h0 : k = 0
    · subst h0
      simpa [widthFrom] using hrx
    · exact p1 k (by omega) (le_refl _)
  · intro m hm hw
    by_contra hlt
    have h1 : k < row.chars.length := by omega
    have h2 := p2 h1
    have h3 := widthFrom_take_le row.chars (k + 1) m (by omega) hm
    omega

/-- C12: for every row (tabs allowed, `size == len(chars)`) and every `rx >= 0`,
`editorRowRxToCx(row, rx)` is the largest `cx` in `[0, row.size]` with
`editorRowCxToRx(row, cx) <= rx`; so `editorRowRxToCx(row, editorRowCxToRx(row, cx)) == cx`
for `cx` in `[0, row.size]`, and when `chars[t]` is a tab, rendered from column `r0` up to
the next tab stop `r1`, every `rx` with `r0 <= rx < r1` maps to `t`. -/
theorem C12_rxToCx_is_largest_column_not_past_rx (row : erow)
    (hsize : row.size = (row.chars.length : Int)) :
    (∀ rx : Int, 0 ≤ rx → ∃ cx, editorRowRxToCx row rx = some cx ∧ 0 ≤ cx ∧ cx ≤ row.size ∧
      (∃ r, editorRowCxToRx row cx = some r ∧ r ≤ rx) ∧
      (∀ cx2 r2, 0 ≤ cx2 → cx2 ≤ row.size → editorRowCxToRx row cx2 = some r2 → r2 ≤ rx →
        cx2 ≤ cx)) ∧
    (∀ cx : Int, 0 ≤ cx → cx ≤ row.size →
      ∃ r, editorRowCxToRx row cx = some r ∧ editorRowRxToCx row r = some cx) ∧
    (∀ (t : Nat) (rx : Int), row.chars.get? t = some TAB →
      ∃ r0 r1, editorRowCxToRx row (t : Int) = some r0 ∧
        editorRowCxToRx row ((t : Int) + 1) = some r1 ∧
        r1 = r0 + (KILO_TAB_STOP - r0 % KILO_TAB_STOP) ∧
        (r0 ≤ rx → rx < r1 → editorRowRxToCx row rx = some (t : Int))) := by
  refine ⟨?_, ?_, ?_⟩
  · intro rx hrx
    obtain ⟨k, hk, e, hle, hmax⟩ := editorRowRxToCx_largest row rx hsize hrx
    refine ⟨(k : Int), e, by omega, by omega, ⟨_, editorRowCxToRx_eq row k hsize, ?_⟩, ?_⟩
    · simpa using hle
    · intro cx2 r2 h0 h1 he hr
      rw [editorRowCxToRx_eq row cx2 hsize] at he
      have he2 := Option.some.inj he
      have := hmax cx2.toNat (by omega) (by rw [he2]; exact hr)
      omega
  · intro cx h0 h1
    refine ⟨_, editorRowCxToRx_eq row cx hsize, ?_⟩
    obtain ⟨k, hk, e, hle, hmax⟩ := editorRowRxToCx_largest row
      ((widthFrom 0 (row.chars.take cx.toNat) : Nat) : Int) hsize (by omega)
    have a := hmax cx.toNat (by omega) (le_refl _)
    have b := widthFrom_take_le row.chars cx.toNat k a hk
    rw [e]
    congr 1
    omega
  · intro t rx ht
    have hlt : t < row.chars.length := by
      rcases Nat.lt_or_ge t row.chars.length with h | h
      · exact h
      · rw [List.get?_eq_none.mpr h] at ht
        exact absurd ht (by simp)
    have e0 := editorRowCxToRx_eq row (t : Int) hsize
    have e1 := editorRowCxToRx_eq row ((t : Int) + 1) hsize
    have t0 : ((t : Int)).toNat = t := by omega
    have t1 : ((t : Int) + 1).toNat = t + 1 := by omega
    rw [t0] at e0
    rw [t1] at e1
    have hw : widthFrom 0 (row.chars.take (t + 1))
        = widthStep (widthFrom 0 (row.chars.take t)) TAB := by
      rw [List.take_succ, ← List.get?_eq_getElem?, ht]
      simp only [Option.toList_some]
      rw [widthFrom_append]
    refine ⟨_, _, e0, e1, ?_, ?_⟩
    · rw [hw]
      unfold widthStep
      rw [if_pos rfl]
      simp only [tabStop_eq]
      push_cast
      omega
    · intro h0 h1
      obtain ⟨k, hk, e, hle, hmax⟩ := editorRowRxToCx_largest row rx hsize (by omega)
      have a := hmax t (by omega) h0
      have b : k ≤ t := by
        by_contra hc
        have := widthFrom_take_le row.chars (t + 1) k (by omega) hk
        omega
      rw [e]
      congr 1
      omega

/-- Witness of C12: the row `"a\tb"`, whose tab is rendered in columns 1 to 7; the
rendered column 4 lies inside it. -/
theorem C12_rxToCx_is_largest_column_not_past_rx_witness :
    ∃ r0 r1, editorRowCxToRx ⟨3, 9, [97, 9, 98], [97, 32, 32, 32, 32, 32, 32, 32, 98, 0],
        [0, 0, 0, 0, 0, 0, 0, 0, 0]⟩ ((1 : Nat) : Int) = some r0 ∧
      editorRowCxToRx ⟨3, 9, [97, 9, 98], [97, 32, 32, 32, 32, 32, 32, 32, 98, 0],
        [0, 0, 0, 0, 0, 0, 0, 0, 0]⟩ (((1 : Nat) : Int) + 1) = some r1 ∧
      r1 = r0 + (KILO_TAB_STOP - r0 % KILO_TAB_STOP) ∧
      (r0 ≤ 4 → 4 < r1 →
        editorRowRxToCx ⟨3, 9, [97, 9, 98], [97, 32, 32, 32, 32, 32, 32, 32, 98, 0],
          [0, 0, 0, 0, 0, 0, 0, 0, 0]⟩ 4 = some ((1 : Nat) : Int)) :=
  (C12_rxToCx_is_largest_column_not_past_rx
    ⟨3, 9, [97, 9, 98], [97, 32, 32, 32, 32, 32, 32, 32, 98, 0], [0, 0, 0, 0, 0, 0, 0, 0, 0]⟩
    (by decide)).2.2 1 4 (by decide)

/-! ## The cursor invariant (C18) -/

theorem bind_ok {α β : Type} (x : Option α) (f : α → Option β) (Q : α → Prop) (P : β → Prop)
    (hx : ∃ a, x = some a ∧ Q a) (hf : ∀ a, Q a → ∃ b, f a = some b ∧ P b) :
    ∃ b, x.bind f = some b ∧ P b := by
  obtain ⟨a, ha, hq⟩ := hx
  rw [ha]
  exact hf a hq

theorem getIdx_mem {α : Type} (l : List α) (i : Int) (x : α) (h : getIdx l i = some x) :
    x ∈ l := by
  unfold getIdx at h
  split_ifs at h
  exact List.get?_mem h

theorem getIdx_some_of_lt {α : Type} (l : List α) (i : Int) (h0 : 0 ≤ i)
    (h1 : i < (l.length : Int)) : ∃ x, getIdx l i = some x := by
  unfold getIdx
  rw [if_pos h0]
  have hlt : i.toNat < l.length := by omega
  exact ⟨l.get ⟨i.toNat, hlt⟩, List.get?_eq_get hlt⟩

theorem getIdx_none_of_ge {α : Type} (l : List α) (i : Int) (h : (l.length : Int) ≤ i) :
    getIdx l i = none := by
  unfold getIdx
  split_ifs
  · exact List.get?_eq_none.mpr (by omega)
  · rfl

theorem rowSizeAt_some (E : editorConfig) (row : erow) (h : getIdx E.rows E.cy = some row) :
    rowSizeAt E = row.size := by
  unfold rowSizeAt
  rw [h]

theorem rowSizeAt_none (E : editorConfig) (h : getIdx E.rows E.cy = none) :
    rowSizeAt E = 0 := by
  unfold rowSizeAt
  rw [h]

theorem cursorValid_at_row (E : editorConfig) (row : erow)
    (hn : E.numRows = (E.rows.length : Int))
    (hall : ∀ r ∈ E.rows, r.size = (r.chars.length : Int))
    (hget : getIdx E.rows E.cy = some row) (hcx0 : 0 ≤ E.cx) (hcx1 : E.cx ≤ row.size) :
    cursorValid E := by
  have hcy0 : 0 ≤ E.cy := by
    by_contra hc
    unfold getIdx at hget
    rw [if_neg hc] at hget
    exact absurd hget (by simp)
  have hcy1 : E.cy < E.numRows := by
    by_contra hc
    rw [getIdx_none_of_ge E.rows E.cy (by omega)] at hget
    exact absurd hget (by simp)
  exact ⟨hn, hall, hcy0, by omega, hcx0, by rw [rowSizeAt_some E row hget]; exact hcx1⟩

theorem cursorValid_at_end (E : editorConfig)
    (hn : E.numRows = (E.rows.length : Int))
    (hall : ∀ r ∈ E.rows, r.size = (r.chars.length : Int))
    (hcy : E.cy = E.numRows) (hcx : E.cx = 0) : cursorValid E :=
  ⟨hn, hall, by omega, by omega, by omega,
    by rw [rowSizeAt_none E (getIdx_none_of_ge E.rows E.cy (by omega))]; omega⟩

theorem cursorValid_cases (E : editorConfig) (h : cursorValid E) :
    (E.cy = E.numRows ∧ E.cx = 0) ∨
    ∃ pre row post, E.rows = pre ++ row :: post ∧ E.cy = (pre.length : Int) ∧
      E.cx ≤ row.size ∧ row.size = (row.chars.length : Int) := by
  obtain ⟨hn, hall, hcy0, hcy1, hcx0, hcx1⟩ := h
  by_cases hlt : E.cy < E.numRows
  · right
    obtain ⟨row, hrow⟩ := getIdx_some_of_lt E.rows E.cy hcy0 (by omega)
    obtain ⟨pre, post, hsplit, hlen⟩ := split_at_getIdx E.rows E.cy row hrow
    rw [rowSizeAt_some E row hrow] at hcx1
    exact ⟨pre, row, post, hsplit, hlen.symm, hcx1, hall row (getIdx_mem _ _ _ hrow)⟩
  · left
    rw [rowSizeAt_none E (getIdx_none_of_ge E.rows E.cy (by omega))] at hcx1
    exact ⟨by omega, by omega⟩

theorem editorMoveCursor_ok (E : editorConfig) (key : Int) (h : cursorValid E) :
    ∃ E2, editorMoveCursor E key = some E2 ∧ cursorValid E2 := by
  obtain ⟨hn, hall, hcy0, hcy1, hcx0, hcx1⟩ := h
  unfold editorMoveCursor
  apply bind_ok _ _ (fun E1 => E1.rows = E.rows ∧ E1.numRows = E.numRows ∧ 0 ≤ E1.cy ∧
      E1.cy ≤ E1.numRows ∧ 0 ≤ E1.cx)
  · by_cases hl : key = ARROW_LEFT
    · rw [if_pos hl]
      by_cases hcx : E.cx ≠ 0
      · rw [if_pos hcx]
        exact ⟨_, rfl, rfl, rfl, hcy0, hcy1, by show 0 ≤ E.cx - 1; omega⟩
      · rw [if_neg hcx]
        by_cases hcy : E.cy > 0
        · rw [if_pos hcy]
          obtain ⟨row, hrow⟩ := getIdx_some_of_lt E.rows (E.cy - 1) (by omega) (by omega)
          rw [hrow]
          have hs := hall row (getIdx_mem _ _ _ hrow)
          exact ⟨_, rfl, rfl, rfl, by show 0 ≤ E.cy - 1; omega, by show E.cy - 1 ≤ E.numRows; omega,
            by show 0 ≤ row.size; omega⟩
        · rw [if_neg hcy]
          exact ⟨_, rfl, rfl, rfl, hcy0, hcy1, hcx0⟩
    · rw [if_neg hl]
      by_cases hr : key = ARROW_RIGHT
      · rw [if_pos hr]
        by_cases hlt : E.cy < E.numRows
        · rw [if_pos hlt]
          obtain ⟨row, hrow⟩ := getIdx_some_of_lt E.rows E.cy hcy0 (by omega)
          rw [hrow]
          simp only [Option.some_bind]
          by_cases h1 : E.cx < row.size
          · rw [if_pos h1]
            exact ⟨_, rfl, rfl, rfl, hcy0, hcy1, by show 0 ≤ E.cx + 1; omega⟩
          · rw [if_neg h1]
            by_cases h2 : E.cx = row.size
            · rw [if_pos h2]
              exact ⟨_, rfl, rfl, rfl, by show 0 ≤ E.cy + 1; omega,
                by show E.cy + 1 ≤ E.numRows; omega, le_refl _⟩
            · rw [if_neg h2]
              exact ⟨_, rfl, rfl, rfl, hcy0, hcy1, hcx0⟩
        · rw [if_neg hlt]
          exact ⟨_, rfl, rfl, rfl, hcy0, hcy1, hcx0⟩
      · rw [if_neg hr]
        by_cases hu : key = ARROW_UP
        · rw [if_pos hu]
          by_cases hcy : E.cy ≠ 0
          · rw [if_pos hcy]
            exact ⟨_, rfl, rfl, rfl, by show 0 ≤ E.cy - 1; omega,
              by show E.cy - 1 ≤ E.numRows; omega, hcx0⟩
          · rw [if_neg hcy]
            exact ⟨_, rfl, rfl, rfl, hcy0, hcy1, hcx0⟩
        · rw [if_neg hu]
          by_cases hd : key = ARROW_DOWN
          · rw [if_pos hd]
            by_cases hlt : E.cy < E.numRows
            · rw [if_pos hlt]
              exact ⟨_, rfl, rfl, rfl, by show 0 ≤ E.cy + 1; omega,
                by show E.cy + 1 ≤ E.numRows; omega, hcx0⟩
            · rw [if_neg hlt]
              exact ⟨_, rfl, rfl, rfl, hcy0, hcy1, hcx0⟩
          · rw [if_neg hd]
            exact ⟨_, rfl, rfl, rfl, hcy0, hcy1, hcx0⟩
  · intro E1 ⟨hrows, hnum, h0, h1, hx⟩
    have hn1 : E1.numRows = (E1.rows.length : Int) := by rw [hrows, hnum]; exact hn
    have hall1 : ∀ r ∈ E1.rows, r.size = (r.chars.length : Int) := by rw [hrows]; exact hall
    by_cases hlt : E1.cy < E1.numRows
    · rw [if_pos hlt]
      obtain ⟨row, hrow⟩ := getIdx_some_of_lt E1.rows E1.cy h0 (by omega)
      rw [hrow]
      simp only [Option.some_bind]
      have hs := hall1 row (getIdx_mem _ _ _ hrow)
      by_cases hgt : E1.cx > row.size
      · rw [if_pos hgt]
        exact ⟨_, rfl, cursorValid_at_row _ row hn1 hall1 hrow (by show 0 ≤ row.size; omega)
          (le_refl _)⟩
      · rw [if_neg hgt]
        exact ⟨_, rfl, cursorValid_at_row _ row hn1 hall1 hrow hx (by omega)⟩
    · rw [if_neg hlt]
      simp only [Option.some_bind]
      by_cases hgt : E1.cx > 0
      · rw [if_pos hgt]
        exact ⟨_, rfl, cursorValid_at_end _ hn1 hall1 (by show E1.cy = E1.numRows; omega) rfl⟩
      · rw [if_neg hgt]
        exact ⟨_, rfl, cursorValid_at_end _ hn1 hall1 (by omega) (by omega)⟩

theorem sized_replace (pre post : List erow) (x y : erow)
    (hall : ∀ r ∈ pre ++ x :: post, r.size = (r.chars.length : Int))
    (hy : y.size = (y.chars.length : Int)) :
    ∀ r ∈ pre ++ y :: post, r.size = (r.chars.length : Int) := by
  intro r hr
  rcases List.mem_append.mp hr with h | h
  · exact hall r (List.mem_append_left _ h)
  · rcases List.mem_cons.mp h with h | h
    · rw [h]; exact hy
    · exact hall r (List.mem_append_right _ (List.mem_cons_of_mem _ h))

theorem editorInsertChar_ok (E : editorConfig) (c : Nat) (h : cursorValid E) :
    ∃ E2, editorInsertChar E c = some E2 ∧ cursorValid E2 := by
  have hv := h
  obtain ⟨hn, hall, hcy0, hcy1, hcx0, hcx1⟩ := h
  unfold editorInsertChar
  apply bind_ok _ _ (fun E1 => E1.numRows = (E1.rows.length : Int) ∧
      (∀ r ∈ E1.rows, r.size = (r.chars.length : Int)) ∧ 0 ≤ E1.cx ∧
      ∃ pre row post, E1.rows = pre ++ row :: post ∧ E1.cy = (pre.length : Int) ∧
        E1.cx ≤ row.size ∧ row.size = (row.chars.length : Int))
  · rcases cursorValid_cases E hv with ⟨hcy, hcx⟩ | ⟨pre, row, post, hs, hc, hx, hsz⟩
    · rw [if_pos hcy]
      obtain ⟨r, he, hch, hru, _⟩ := editorInsertRow_ok E E.rows [] [] hn (by simp)
      rw [← hn] at he
      rw [he]
      have hr0 : r.size = 0 := by rw [hru.1, hch]; rfl
      refine ⟨_, rfl, ?_, ?_, hcx0, E.rows, r, [], rfl, ?_, ?_, hru.1⟩
      · show E.numRows + 1 = ((E.rows ++ [r]).length : Int)
        rw [List.length_append, hn]
        simp
      · intro x hx
        rcases List.mem_append.mp hx with h | h
        · exact hall x h
        · rw [List.mem_singleton.mp h]; exact hru.1
      · show E.cy = (E.rows.length : Int)
        omega
      · show E.cx ≤ r.size
        omega
    · have hlen : (E.rows.length : Int) = pre.length + post.length + 1 := by
        rw [hs]; simp; omega
      rw [if_neg (by omega)]
      exact ⟨E, rfl, hn, hall, hcx0, pre, row, post, hs, hc, hx, hsz⟩
  · intro E1 ⟨hn1, hall1, hx0, pre, row, post, hs, hc, hx, hsz⟩
    obtain ⟨row1, he, hch, hsz1, hru⟩ := editorRowInsertChar_ok row c E1.cx hsz hx0 hx
    have hg : getIdx E1.rows E1.cy = some row := by rw [hs, hc]; exact getIdx_append_length _ _ _
    have hset : setIdx E1.rows E1.cy row1 = some (pre ++ row1 :: post) := by
      rw [hs, hc]; exact setIdx_append_length _ _ _ _
    rw [hg]
    simp only [Option.some_bind]
    rw [he]
    simp only [Option.some_bind]
    rw [hset]
    simp only [Option.some_bind]
    refine ⟨_, rfl, cursorValid_at_row _ row1 ?_ ?_ ?_ ?_ ?_⟩
    · show E1.numRows = ((pre ++ row1 :: post).length : Int)
      rw [hn1, hs]
      simp
    · exact sized_replace pre post row row1 (by rw [← hs]; exact hall1) hru.1
    · show getIdx (pre ++ row1 :: post) E1.cy = some row1
      rw [hc]
      exact getIdx_append_length _ _ _
    · show 0 ≤ E1.cx + 1
      omega
    · show E1.cx + 1 ≤ row1.size
      omega

theorem editorInsertNewLine_valid (E : editorConfig) (h : cursorValid E) :
    ∃ E2, editorInsertNewLine E = some E2 ∧ cursorValid E2 := by
  have hv := h
  obtain ⟨hn, hall, hcy0, hcy1, hcx0, hcx1⟩ := h
  rcases cursorValid_cases E hv with ⟨hcy, hcx⟩ | ⟨pre, row, post, hs, hc, hx, hsz⟩
  · obtain ⟨r, he, hch, hru, _⟩ := editorInsertRow_ok E E.rows [] [] hn (by simp)
    have he2 : ∀ p : Int, p = (E.rows.length : Int) → editorInsertRow E p []
        = some { E with rows := E.rows ++ [r], numRows := E.numRows + 1, dirty := true } := by
      intro p hp
      rw [hp]
      exact he
    unfold editorInsertNewLine
    rw [if_pos hcx, he2 E.cy (by omega)]
    simp only [Option.some_bind]
    refine ⟨_, rfl, cursorValid_at_end _ ?_ ?_ ?_ rfl⟩
    · show E.numRows + 1 = ((E.rows ++ [r]).length : Int)
      rw [List.length_append, hn]
      simp
    · intro x hx
      rcases List.mem_append.mp hx with h | h
      · exact hall x h
      · rw [List.mem_singleton.mp h]; exact hru.1
    · show E.cy + 1 = E.numRows + 1
      omega
  · obtain ⟨a, b, he, ha, hb, hsa, hsb⟩ :=
      editorInsertNewLine_ok E pre post row hn hs hc hsz hcx0 hx
    rw [he]
    refine ⟨_, rfl, cursorValid_at_row _ b ?_ ?_ ?_ (le_refl _) ?_⟩
    · show E.numRows + 1 = ((pre ++ a :: b :: post).length : Int)
      rw [hn, hs]
      simp
      omega
    · have h1 := sized_replace pre (b :: post) a a (by
        intro r hr
        rcases List.mem_append.mp hr with h | h
        · exact hall r (by rw [hs]; exact List.mem_append_left _ h)
        · rcases List.mem_cons.mp h with h | h
          · rw [h]; exact hsa
          · rcases List.mem_cons.mp h with h | h
            · rw [h]; exact hsb
            · exact hall r (by
                rw [hs]; exact List.mem_append_right _ (List.mem_cons_of_mem _ h))) hsa
      exact h1
    · show getIdx (pre ++ a :: b :: post) (E.cy + 1) = some b
      have e : pre ++ a :: b :: post = (pre ++ [a]) ++ b :: post := by simp
      have e2 : E.cy + 1 = (((pre ++ [a]).length : Nat) : Int) := by
        rw [hc]; simp
      rw [e, e2]
      exact getIdx_append_length _ _ _
    · show (0 : Int) ≤ b.size
      omega

theorem editorDelChar_valid (E : editorConfig) (h : cursorValid E) :
    ∃ E2, editorDelChar E = some E2 ∧ cursorValid E2 := by
  have hv := h
  obtain ⟨hn, hall, hcy0, hcy1, hcx0, hcx1⟩ := h
  rcases cursorValid_cases E hv with ⟨hcy, hcx⟩ | ⟨pre, row, post, hs, hc, hx, hsz⟩
  · unfold editorDelChar
    rw [if_pos hcy]
    exact ⟨E, rfl, hv⟩
  · have hlen : (E.rows.length : Int) = pre.length + post.length + 1 := by
      rw [hs]; simp; omega
    by_cases h00 : E.cx = 0 ∧ E.cy = 0
    · unfold editorDelChar
      rw [if_neg (by omega), if_pos h00]
      exact ⟨E, rfl, hv⟩
    · by_cases hpos : E.cx > 0
      · obtain ⟨row1, he, hch, hsz1, hru⟩ :=
          editorRowDelChar_ok row (E.cx - 1) hsz (by omega) (by omega)
        have hg : getIdx E.rows E.cy = some row := by
          rw [hs, hc]; exact getIdx_append_length _ _ _
        have hset : setIdx E.rows E.cy row1 = some (pre ++ row1 :: post) := by
          rw [hs, hc]; exact setIdx_append_length _ _ _ _
        unfold editorDelChar
        rw [if_neg (by omega), if_neg h00, if_pos hpos, hg]
        simp only [Option.some_bind]
        rw [he]
        simp only [Option.some_bind]
        rw [hset]
        simp only [Option.some_bind]
        refine ⟨_, rfl, cursorValid_at_row _ row1 ?_ ?_ ?_ ?_ ?_⟩
        · show E.numRows = ((pre ++ row1 :: post).length : Int)
          rw [hn, hs]
          simp
        · exact sized_replace pre post row row1 (by rw [← hs]; exact hall) hru.1
        · show getIdx (pre ++ row1 :: post) E.cy = some row1
          rw [hc]
          exact getIdx_append_length _ _ _
        · show 0 ≤ E.cx - 1
          omega
        · show E.cx - 1 ≤ row1.size
          omega
      · have hcx : E.cx = 0 := by omega
        rcases List.eq_nil_or_concat pre with hnil | ⟨pre2, a, hcat⟩
        · rw [hnil] at hc
          exact absurd ⟨hcx, by simpa using hc⟩ h00
        · have hs2 : E.rows = pre2 ++ a :: row :: post := by rw [hs, hcat]; simp
          have hc2 : E.cy = (pre2.length : Int) + 1 := by rw [hc, hcat]; simp
          obtain ⟨ab, he, hab, hru⟩ := editorDelChar_merge E pre2 post a row hn hs2 hc2 hcx
          have hsa : a.size = (a.chars.length : Int) := hall a (by rw [hs2]; simp)
          rw [he]
          refine ⟨_, rfl, cursorValid_at_row _ ab ?_ ?_ ?_ ?_ ?_⟩
          · show E.numRows - 1 = ((pre2 ++ ab :: post).length : Int)
            rw [hn, hs2]
            simp only [List.length_append, List.length_cons]
            push_cast
            omega
          · intro r hr
            rcases List.mem_append.mp hr with h | h
            · exact hall r (by rw [hs2]; exact List.mem_append_left _ h)
            · rcases List.mem_cons.mp h with h | h
              · rw [h]; exact hru.1
              · exact hall r (by
                  rw [hs2]
                  exact List.mem_append_right _
                    (List.mem_cons_of_mem _ (List.mem_cons_of_mem _ h)))
          · show getIdx (pre2 ++ ab :: post) (pre2.length : Int) = some ab
            exact getIdx_append_length _ _ _
          · show (0 : Int) ≤ a.size
            omega
          · show a.size ≤ ab.size
            rw [hru.1, hab, List.length_append, hsa]
            push_cast
            omega

/-- C18: the state predicate `cursorValid` (`numRows == len(rows)`, every row has
`size == len(chars)`, `0 <= cy <= numRows`, `0 <= cx <= size of row cy`, with `cx == 0`
when `cy == numRows`) is preserved by `editorMoveCursor` for every key (the four arrow
keys included), by `editorInsertChar` for every byte, by `editorInsertNewLine` and by
`editorDelChar`; each of them returns, so none indexes `rows` or `chars` out of range. -/
theorem C18_cursor_invariant_is_preserved (E : editorConfig) (h : cursorValid E) :
    (∀ key : Int, ∃ E1, editorMoveCursor E key = some E1 ∧ cursorValid E1) ∧
    (∀ c : Nat, ∃ E1, editorInsertChar E c = some E1 ∧ cursorValid E1) ∧
    (∃ E1, editorInsertNewLine E = some E1 ∧ cursorValid E1) ∧
    (∃ E1, editorDelChar E = some E1 ∧ cursorValid E1) :=
  ⟨fun key => editorMoveCursor_ok E key h, fun c => editorInsertChar_ok E c h,
    editorInsertNewLine_valid E h, editorDelChar_valid E h⟩

/-- Witness of C18: the cursor at the end of the last row of `fooBarDoc`. -/
theorem C18_cursor_invariant_is_preserved_witness :
    cursorValid { fooBarDoc with cy := 1, cx := 6 } ∧
    (∀ key : Int, ∃ E1,
      editorMoveCursor { fooBarDoc with cy := 1, cx := 6 } key = some E1 ∧ cursorValid E1) ∧
    (∀ c : Nat, ∃ E1,
      editorInsertChar { fooBarDoc with cy := 1, cx := 6 } c = some E1 ∧ cursorValid E1) ∧
    (∃ E1, editorInsertNewLine { fooBarDoc with cy := 1, cx := 6 } = some E1 ∧ cursorValid E1) ∧
    (∃ E1, editorDelChar { fooBarDoc with cy := 1, cx := 6 } = some E1 ∧ cursorValid E1) :=
  ⟨by decide, C18_cursor_invariant_is_preserved { fooBarDoc with cy := 1, cx := 6 } (by decide)⟩

/-! ## Scrolling within the range of an `int` (C17) -/

theorem wrapInt_id (x : Int) (h0 : minInt ≤ x) (h1 : x ≤ maxInt) : wrapInt x = x := by
  unfold wrapInt
  unfold minInt at h0
  unfold maxInt at h1
  omega

/-- One axis of `editorScroll`: within the range of an `int` its two `if` statements
leave `scrollOffset`. -/
theorem scrollAxis_eq (pos off size : Int) (hp : 0 ≤ pos) (hs : 1 ≤ size)
    (hb : pos + size ≤ maxInt) (ho : minInt ≤ off) :
    (if pos ≥ wrapInt ((if pos < off then pos else off) + size) then
        wrapInt (wrapInt (pos - size) + 1)
      else (if pos < off then pos else off)) = scrollOffset pos off size := by
  have e1 : wrapInt ((if pos < off then pos else off) + size)
      = (if pos < off then pos else off) + size := by
    apply wrapInt_id <;> unfold minInt maxInt at * <;> split_ifs <;> omega
  have e2 : wrapInt (pos - size) = pos - size := by
    apply wrapInt_id <;> unfold minInt maxInt at * <;> omega
  have e3 : wrapInt (pos - size + 1) = pos - size + 1 := by
    apply wrapInt_id <;> unfold minInt maxInt at * <;> omega
  rw [e1, e2, e3]
  rfl

/-- What `editorScroll` returns once `rx` is computed, within the range of an `int`. -/
theorem editorScroll_eq (E : editorConfig) (rx1 : Int)
    (h : (if E.cy < E.numRows then
        (getIdx E.rows E.cy).bind fun row => editorRowCxToRx row E.cx
      else some 0) = some rx1)
    (hcy : 0 ≤ E.cy) (hsr : 1 ≤ E.screenRows) (hbr : E.cy + E.screenRows ≤ maxInt)
    (hro : minInt ≤ E.rowoff)
    (hrx : 0 ≤ rx1) (hsc : 1 ≤ E.screenCols) (hbc : rx1 + E.screenCols ≤ maxInt)
    (hco : minInt ≤ E.coloff) :
    editorScroll E = some { E with
      rx := rx1
      rowoff := scrollOffset E.cy E.rowoff E.screenRows
      coloff := scrollOffset rx1 E.coloff E.screenCols } := by
  have hr := scrollAxis_eq E.cy E.rowoff E.screenRows hcy hsr hbr hro
  have hc := scrollAxis_eq rx1 E.coloff E.screenCols hrx hsc hbc hco
  rw [← hr, ← hc]
  unfold editorScroll
  rw [h]
  simp only [Option.bind_some, Option.some_bind]
  by_cases a1 : E.cy < E.rowoff <;> simp only [a1, if_true, if_false] <;>
    by_cases a3 : rx1 < E.coloff <;> simp only [a3, if_true, if_false] <;>
    split_ifs <;> rfl

theorem widthFrom_le : ∀ (l : List Nat) (rx : Nat), widthFrom rx l ≤ rx + 8 * l.length := by
  intro l
  induction l with
  | nil => intro rx; simp [widthFrom]
  | cons c cs ih =>
    intro rx
    have h := ih (widthStep rx c)
    have hs : widthStep rx c ≤ rx + 8 := by
      unfold widthStep
      simp only [tabStop_eq]
      split_ifs <;> omega
    simp only [widthFrom, List.length_cons]
    omega

/-- The rendered column of a logical column is at most 8 times the row size. -/
theorem editorRowCxToRx_le (row : erow) (cx rx : Int)
    (hsize : row.size = (row.chars.length : Int)) (h : editorRowCxToRx row cx = some rx) :
    0 ≤ rx ∧ rx ≤ 8 * row.size := by
  rw [editorRowCxToRx_eq row cx hsize] at h
  have e := Option.some.inj h
  have h1 := widthFrom_le (row.chars.take cx.toNat) 0
  have h2 : (row.chars.take cx.toNat).length ≤ row.chars.length := by
    rw [List.length_take]; exact Nat.min_le_right _ _
  omega

/-- C17: for every editor state (with `numRows == len(rows)` and `size == len(chars)`
in every row) with `screenRows >= 1`, `screenCols >= 1` and `0 <= cy` (in
particular for `0 <= cy <= numRows`), whose values are in the range of a Go
`int` with `cy + screenRows` and `8 * size + screenCols` (for every row) not
past `maxInt`, `editorScroll` returns; it sets `rx` to `editorRowCxToRx` of the
cursor row at `cx` (to 0 when `cy == numRows`), leaves the cursor inside the
window, `rowoff <= cy < rowoff + screenRows` and
`coloff <= rx < coloff + screenCols` (sums that do not wrap), leaves `rowoff`
(`coloff`) as it was when `cy` (`rx`) was inside already, and changes nothing
but `rx`, `rowoff` and `coloff`. -/
theorem C17_scroll_keeps_cursor_in_window (E : editorConfig)
    (hn : E.numRows = (E.rows.length : Int))
    (hsz : ∀ r ∈ E.rows, r.size = (r.chars.length : Int))
    (hsr : 1 ≤ E.screenRows) (hsc : 1 ≤ E.screenCols) (hcy0 : 0 ≤ E.cy)
    (hbr : E.cy + E.screenRows ≤ maxInt) (hbc0 : E.screenCols ≤ maxInt)
    (hbc : ∀ r ∈ E.rows, 8 * r.size + E.screenCols ≤ maxInt)
    (hro : minInt ≤ E.rowoff) (hco : minInt ≤ E.coloff) :
    ∃ E1, editorScroll E = some E1 ∧
      (E.cy < E.numRows →
        ∃ row, getIdx E.rows E.cy = some row ∧ editorRowCxToRx row E.cx = some E1.rx) ∧
      (E.cy = E.numRows → E1.rx = 0) ∧
      E1.rowoff ≤ E1.cy ∧ E1.cy < E1.rowoff + E1.screenRows ∧
      E1.coloff ≤ E1.rx ∧ E1.rx < E1.coloff + E1.screenCols ∧
      E1.rowoff + E1.screenRows ≤ maxInt ∧ E1.coloff + E1.screenCols ≤ maxInt ∧
      (E.rowoff ≤ E.cy → E.cy < E.rowoff + E.screenRows → E1.rowoff = E.rowoff) ∧
      (E.coloff ≤ E1.rx → E1.rx < E.coloff + E.screenCols → E1.coloff = E.coloff) ∧
      E1 = { E with rx := E1.rx, rowoff := E1.rowoff, coloff := E1.coloff } := by
  have hrx : ∃ rx1, (if E.cy < E.numRows then
        (getIdx E.rows E.cy).bind fun row => editorRowCxToRx row E.cx
      else some 0) = some rx1 ∧
      (E.cy < E.numRows →
        ∃ row, getIdx E.rows E.cy = some row ∧ editorRowCxToRx row E.cx = some rx1) ∧
      (E.cy = E.numRows → rx1 = 0) ∧ 0 ≤ rx1 ∧ rx1 + E.screenCols ≤ maxInt := by
    by_cases hlt : E.cy < E.numRows
    · obtain ⟨k, hk⟩ := Int.eq_ofNat_of_zero_le hcy0
      have hkl : k < E.rows.length := by omega
      obtain ⟨row, hrow⟩ : ∃ row, E.rows.get? k = some row := ⟨_, List.get?_eq_get hkl⟩
      have hg : getIdx E.rows E.cy = some row := by rw [hk, getIdx_nat]; exact hrow
      have hmem : row ∈ E.rows := List.get?_mem hrow
      obtain ⟨rx1, h1, _⟩ := editorRowCxToRx_total row E.cx (hsz row hmem)
      have hle := editorRowCxToRx_le row E.cx rx1 (hsz row hmem) h1
      have hb := hbc row hmem
      refine ⟨rx1, ?_, fun _ => ⟨row, hg, h1⟩, fun h => by omega, hle.1, by omega⟩
      rw [if_pos hlt, hg]
      exact h1
    · exact ⟨0, by rw [if_neg hlt], fun h => absurd h hlt, fun _ => rfl, le_refl _, by omega⟩
  obtain ⟨rx1, e1, h1, h2, h3, h4⟩ := hrx
  obtain ⟨r1, r2, r3⟩ := scrollOffset_spec E.cy E.rowoff E.screenRows hsr
  obtain ⟨c1, c2, c3⟩ := scrollOffset_spec rx1 E.coloff E.screenCols hsc
  refine ⟨_, editorScroll_eq E rx1 e1 hcy0 hsr hbr hro h3 hsc h4 hco,
    h1, h2, r1, r2, c1, c2, ?_, ?_, r3, c3, rfl⟩
  · show scrollOffset E.cy E.rowoff E.screenRows + E.screenRows ≤ maxInt
    omega
  · show scrollOffset rx1 E.coloff E.screenCols + E.screenCols ≤ maxInt
    omega

/-- Witness of C17: the cursor on row 1, column 3 of `"foobar"`, `"barfoo"`, with the
window scrolled to row 2 (where a search leaves `rowoff`). -/
theorem C17_scroll_keeps_cursor_in_window_witness :
    ∃ E1, editorScroll { fooBarDoc with cy := 1, cx := 3, rowoff := 2 } = some E1 ∧
      ((1 : Int) < 2 →
        ∃ row, getIdx fooBarDoc.rows 1 = some row ∧ editorRowCxToRx row 3 = some E1.rx) ∧
      ((1 : Int) = 2 → E1.rx = 0) ∧
      E1.rowoff ≤ E1.cy ∧ E1.cy < E1.rowoff + E1.screenRows ∧
      E1.coloff ≤ E1.rx ∧ E1.rx < E1.coloff + E1.screenCols ∧
      E1.rowoff + E1.screenRows ≤ maxInt ∧ E1.coloff + E1.screenCols ≤ maxInt ∧
      ((2 : Int) ≤ 1 → (1 : Int) < 2 + 22 → E1.rowoff = 2) ∧
      ((0 : Int) ≤ E1.rx → E1.rx < 0 + 80 → E1.coloff = 0) ∧
      E1 = { fooBarDoc with cy := 1, cx := 3, rx := E1.rx, rowoff := E1.rowoff,
                            coloff := E1.coloff } :=
  C17_scroll_keeps_cursor_in_window { fooBarDoc with cy := 1, cx := 3, rowoff := 2 }
    (by decide) (by decide) (by decide) (by decide) (by decide)
    (by decide) (by decide) (by decide) (by decide) (by decide)

end Kilo
